import Mathlib

/-!
Verification of the `seccs` secure content store (`SecCSLite` engine from
`seccs/__init__.py` and the reference counters from `seccs/rc.py`) against its
natural-language specification.

The Python code is shallowly embedded: byte strings become `List Nat`, Python
dicts become association lists with first-match lookup, raised exceptions
become `Except Unit`, and the pluggable crypto wrapper (whose module
`seccs/crypto_wrapper.py` is not part of the sources, only its interface and
tests are) is a record of `wrap`/`unwrap` functions modelled from the spec.
-/

set_option maxHeartbeats 1000000

namespace SecCS

/-- Byte strings (Python 2 `str`) are modelled as lists of naturals. -/
abbrev Bytes := List Nat

/-! ### Association-list maps mirroring Python dict semantics -/

/-- Lookup (`dict.__getitem__` / `in`). -/
def mapGet {α β : Type} [DecidableEq α] : List (α × β) → α → Option β
  | [], _ => none
  | (k', v) :: t, k => if k' = k then some v else mapGet t k

/-- Update or insert (`dict.__setitem__`): overwrite in place when the key is
present, append otherwise. -/
def mapSet {α β : Type} [DecidableEq α] : List (α × β) → α → β → List (α × β)
  | [], k, v => [(k, v)]
  | (k', v') :: t, k, v => if k' = k then (k, v) :: t else (k', v') :: mapSet t k v

/-- Deletion of a present key (`dict.__delitem__`). -/
def mapDel {α β : Type} [DecidableEq α] : List (α × β) → α → List (α × β)
  | [], _ => []
  | (k', v') :: t, k => if k' = k then t else (k', v') :: mapDel t k

/-! ### Byte-level encodings used by `struct.pack`/`struct.unpack` -/

/-- Fixed-width big-endian encoding of a natural (format `Q` with width 8),
keeping the low `8*w` bits. -/
def beBytes : Nat → Nat → Bytes
  | 0, _ => []
  | w + 1, x => beBytes w (x / 256) ++ [x % 256]

/-- Big-endian decoding (`struct.unpack` format `Q`). -/
def unBE (b : Bytes) : Nat := b.foldl (fun a c => a * 256 + c) 0

/-- Fixed-width string packing (format `Ns`): truncate to `n` bytes or pad
with zero bytes. -/
def packBytes (n : Nat) (s : Bytes) : Bytes :=
  s.take n ++ List.replicate (n - s.length) 0

/-- Splitting a serialized superchunk into `R`-byte slices, with fuel bounding
the recursion; a short final slice makes `struct.unpack` fail. -/
def splitGo (R : Nat) : Nat → Bytes → Except Unit (List Bytes)
  | _, [] => .ok []
  | 0, _ :: _ => .error ()
  | fuel + 1, b :: bs =>
    if R ≤ (b :: bs : Bytes).length then
      match splitGo R fuel ((b :: bs : Bytes).drop R) with
      | .ok l => .ok ((b :: bs : Bytes).take R :: l)
      | .error e => .error e
    else .error ()

/-- The slice loop of `_get_node` for superchunks (`range(0, len, R)` with an
`R`-byte `struct.unpack` of each slice; `R = 0` makes `range` itself fail). -/
def splitBlocks (R : Nat) (b : Bytes) : Except Unit (List Bytes) :=
  if R = 0 then .error () else splitGo R b.length b

/-! ### The crypto-wrapper interface and the engine -/

/-- Interface of `seccs.crypto_wrapper.BaseCryptoWrapper` (the module itself is
not under `src/`): `wrap value height is_root = (cipher, digest)`;
`unwrap cipher digest height is_root length` returns the plaintext, `none` as
a null integrity signal, or `.error` for a raised
`IntegrityError`/`AuthenticityError`. -/
structure CryptoWrapper where
  digestSize : Nat
  wrap : Bytes → Nat → Bool → Bytes × Bytes
  unwrap : Bytes → Bytes → Nat → Bool → Int → Except Unit (Option Bytes)

/-- Static configuration of a `SecCSLite` instance: the crypto wrapper, the
`length_to_height_fn` (float-based by default in the source, kept abstract
here), and the multilevel chunker
`h m ↦ next_chunk_boundaries_levels(m, W - 1)`. -/
structure Engine where
  wrapper : CryptoWrapper
  lengthToHeight : Nat → Nat
  chunker : Nat → Bytes → List (Nat × Nat)

/-- Mutable state: the backend database and the reference-counter database
(the configuration used by the tests: a separate `DatabaseReferenceCounter`). -/
structure StoreState where
  db : List (Bytes × Bytes)
  rc : List (Bytes × Int)
deriving DecidableEq

/-- Chunk-tree node payload: a leaf byte string or a superchunk child list. -/
inductive NodeVal where
  | leaf : Bytes → NodeVal
  | super : List Bytes → NodeVal
deriving DecidableEq

/-- Serialization in `_store_node`: leaves as-is, superchunks as the
concatenation of the packed child digests. -/
def serializeNode (R : Nat) : NodeVal → Bytes
  | .leaf b => b
  | .super ks => (ks.map (packBytes R)).flatten

/-! ### Reference counters (`seccs/rc.py`) -/

/-- `DatabaseReferenceCounter.inc`: read the current value (0 when absent),
store and return the incremented value. -/
def dbrcInc {α : Type} [DecidableEq α] (db : List (α × Int)) (k : α) :
    Int × List (α × Int) :=
  let n := (match mapGet db k with | some v => v | none => 0) + 1
  (n, mapSet db k n)

/-- `DatabaseReferenceCounter.dec`: a missing counter raises `KeyError`;
a counter reaching 0 is deleted, otherwise the decremented value is stored. -/
def dbrcDec {α : Type} [DecidableEq α] (db : List (α × Int)) (k : α) :
    Except Unit (Int × List (α × Int)) :=
  match mapGet db k with
  | none => .error ()
  | some v =>
    if v - 1 = 0 then .ok (v - 1, mapDel db k) else .ok (v - 1, mapSet db k (v - 1))

/-- `KeySuffixDatabaseReferenceCounter.inc`: delegate under `key ++ suffix`. -/
def ksInc (db : List (Bytes × Int)) (suffix k : Bytes) : Int × List (Bytes × Int) :=
  dbrcInc db (k ++ suffix)

/-- `KeySuffixDatabaseReferenceCounter.dec`: delegate under `key ++ suffix`. -/
def ksDec (db : List (Bytes × Int)) (suffix k : Bytes) :
    Except Unit (Int × List (Bytes × Int)) :=
  dbrcDec db (k ++ suffix)

/-! ### The chunk-tree engine (`SecCSLite`) -/

/-- `SecCSLite._get_node`: read the ciphertext (missing key raises), unwrap it
at `(h, h == root_h)`, and deserialize superchunks into child digests. -/
def getNode (E : Engine) (k : Bytes) (h rootH : Nat) (l : Int) (st : StoreState) :
    Except Unit (Option NodeVal) :=
  match mapGet st.db k with
  | none => .error ()
  | some v =>
    match E.wrapper.unwrap v k h (h == rootH) l with
    | .error e => .error e
    | .ok none => .ok none
    | .ok (some s) =>
      if 0 < h then
        match splitBlocks E.wrapper.digestSize s with
        | .error e => .error e
        | .ok ks => .ok (some (.super ks))
      else .ok (some (.leaf s))

/-- Ciphertext produced by `_store_node` for a payload (`wrap` is a function,
so it does not depend on the database). -/
def storeCipher (E : Engine) (v : NodeVal) (h rootH : Nat) : Bytes :=
  (E.wrapper.wrap (serializeNode E.wrapper.digestSize v) h (h == rootH)).1

/-- Digest under which `_store_node` stores a payload. -/
def storeKey (E : Engine) (v : NodeVal) (h rootH : Nat) : Bytes :=
  (E.wrapper.wrap (serializeNode E.wrapper.digestSize v) h (h == rootH)).2

/-- Reference-counter effect of inserting a node in `_store_node`: each child
digest listed by a superchunk is incremented once per occurrence. -/
def incChildren (rc : List (Bytes × Int)) : NodeVal → List (Bytes × Int)
  | .super ks => ks.foldl (fun r c => (dbrcInc r c).2) rc
  | .leaf _ => rc

/-- `SecCSLite._store_node`: wrap the serialized payload; if the digest is
present and the verification `_get_node` returns non-null, report a duplicate;
otherwise increment the children's counters (superchunks only) and write the
ciphertext. A raised error from the probe propagates. -/
def storeNode (E : Engine) (v : NodeVal) (h rootH : Nat) (st : StoreState) :
    Except Unit ((Bytes × Bool) × StoreState) :=
  let k := storeKey E v h rootH
  let ins : Except Unit ((Bytes × Bool) × StoreState) :=
    .ok ((k, true),
      { db := mapSet st.db k (storeCipher E v h rootH),
        rc := incChildren st.rc v })
  if (mapGet st.db k).isSome then
    match getNode E k h rootH (-1) st with
    | .error e => .error e
    | .ok (some _) => .ok ((k, false), st)
    | .ok none => ins
  else ins

/-- Append a digest to the buffer of one level (`nodes_levels[t].append`). -/
def pushBuf (bufs : Nat → List Bytes) (t : Nat) (k : Bytes) : Nat → List Bytes :=
  fun j => if j = t then bufs t ++ [k] else bufs j

/-- Clear the buffer at level `t` and append a digest one level up (one step of
the inner loop of `_put_chunk`). -/
def shiftBuf (bufs : Nat → List Bytes) (t : Nat) (k : Bytes) : Nat → List Bytes :=
  fun j => if j = t then [] else if j = t + 1 then bufs (t + 1) ++ [k] else bufs j

/-- Inner loop of `_put_chunk` over heights `1..bh` (height 0 is handled by the
caller): store the buffered superchunk and shift its digest one level up.
Appending above `nodes_levels[h]` raises, as the dict access would. -/
def riseStore (E : Engine) (h rootH : Nat) :
    List Nat → (Nat → List Bytes) → StoreState →
    Except Unit ((Nat → List Bytes) × StoreState)
  | [], bufs, st => .ok (bufs, st)
  | t :: ts, bufs, st =>
    match storeNode E (.super (bufs t)) t rootH st with
    | .error e => .error e
    | .ok ((k, _), st') =>
      if t + 1 ≤ h then riseStore E h rootH ts (shiftBuf bufs t k) st'
      else .error ()

/-- Outer loop of `_put_chunk` over consecutive boundary pairs: store the leaf
slice, push its digest to level 1 (raising if the tree has no level 1), and
run the inner loop up to the boundary's level. -/
def putLoop (E : Engine) (m : Bytes) (h rootH : Nat) :
    List ((Nat × Nat) × (Nat × Nat)) → (Nat → List Bytes) → StoreState →
    Except Unit ((Nat → List Bytes) × StoreState)
  | [], bufs, st => .ok (bufs, st)
  | ((s, _), (e, bh)) :: rest, bufs, st =>
    match storeNode E (.leaf ((m.drop s).take (e - s))) 0 rootH st with
    | .error err => .error err
    | .ok ((k0, _), st0) =>
      if 1 ≤ h then
        match riseStore E h rootH (List.range' 1 bh) (pushBuf bufs 1 k0) st0 with
        | .error err => .error err
        | .ok (bufs', st') => putLoop E m h rootH rest bufs' st'
      else .error ()

/-- Boundary preparation in `_put_chunk`: prepend the sentinel `(0, h-1)`, use
the chunker stream, drop a final boundary at `len m`, and append the terminal
`(len m, h-1)`. -/
def boundsFor (E : Engine) (m : Bytes) (h : Nat) : List (Nat × Nat) :=
  let bs : List (Nat × Nat) := (0, h - 1) :: E.chunker h m
  let bs' := match bs.getLast? with
    | some pl => if pl.1 = m.length then bs.dropLast else bs
    | none => bs
  bs' ++ [(m.length, h - 1)]

/-- `SecCSLite._put_chunk`: a single leaf for height 0, otherwise the boundary
loop followed by the root store. -/
def putChunk (E : Engine) (m : Bytes) (h rootH : Nat) (st : StoreState) :
    Except Unit ((Bytes × Bool) × StoreState) :=
  if h = 0 then storeNode E (.leaf m) 0 rootH st
  else
    match putLoop E m h rootH
        ((boundsFor E m h).zip (boundsFor E m h).tail) (fun _ => []) st with
    | .error e => .error e
    | .ok (bufs, st') => storeNode E (.super (bufs h)) h rootH st'

/-- `SecCSLite.put_content_and_check_if_new`: build the chunk tree, bump the
root's counter unless `ignore_rc`, and pack the `(digest, length)` handle. -/
def putContentAndCheck (E : Engine) (m : Bytes) (ignoreRc : Bool) (st : StoreState) :
    Except Unit ((Bytes × Bool) × StoreState) :=
  match putChunk E m (E.lengthToHeight m.length) (E.lengthToHeight m.length) st with
  | .error e => .error e
  | .ok ((k, isNew), st') =>
    let st'' := if ignoreRc then st' else { st' with rc := (dbrcInc st'.rc k).2 }
    .ok ((packBytes E.wrapper.digestSize k ++ beBytes 8 m.length, isNew), st'')

/-- `SecCSLite.put_content`. -/
def putContent (E : Engine) (m : Bytes) (ignoreRc : Bool) (st : StoreState) :
    Except Unit (Bytes × StoreState) :=
  match putContentAndCheck E m ignoreRc st with
  | .error e => .error e
  | .ok ((k, _), st') => .ok (k, st')

/-- `struct.unpack` of a content reference (format `!{R}sQ`): the digest and
the big-endian length; a wrongly-sized handle raises. -/
def unpackHandle (R : Nat) (hdl : Bytes) : Except Unit (Bytes × Nat) :=
  if hdl.length = R + 8 then .ok (hdl.take R, unBE (hdl.drop R)) else .error ()

/-- Expansion of one level in `_get_chunk`: fetch the superchunk under each
digest and concatenate the child-reference lists (a null node makes the
iteration raise). -/
def expandLevel (E : Engine) (rootH height : Nat) (st : StoreState) :
    List Bytes → Except Unit (List Bytes)
  | [] => .ok []
  | k :: ks =>
    match getNode E k height rootH (-1) st with
    | .error e => .error e
    | .ok none => .error ()
    | .ok (some (.leaf _)) => .error ()
    | .ok (some (.super cs)) =>
      match expandLevel E rootH height st ks with
      | .error e => .error e
      | .ok rest => .ok (cs ++ rest)

/-- Leaf concatenation at the bottom of `_get_chunk` (`''.join`). -/
def joinLeaves (E : Engine) (rootH : Nat) (st : StoreState) :
    List Bytes → Except Unit Bytes
  | [] => .ok []
  | k :: ks =>
    match getNode E k 0 rootH (-1) st with
    | .error e => .error e
    | .ok none => .error ()
    | .ok (some (.super _)) => .error ()
    | .ok (some (.leaf b)) =>
      match joinLeaves E rootH st ks with
      | .error e => .error e
      | .ok rest => .ok (b ++ rest)

/-- Walk from height `h` down to `1` in `_get_chunk`, expanding level by
level. -/
def walkDown (E : Engine) (rootH : Nat) (st : StoreState) :
    Nat → List Bytes → Except Unit (List Bytes)
  | 0, ks => .ok ks
  | t + 1, ks =>
    match expandLevel E rootH (t + 1) st ks with
    | .error e => .error e
    | .ok ks' => walkDown E rootH st t ks'

/-- `SecCSLite._get_chunk`; the length argument is accepted but never used,
exactly as in the source. -/
def getChunk (E : Engine) (k : Bytes) (h rootH : Nat) (_l : Int) (st : StoreState) :
    Except Unit Bytes :=
  match walkDown E rootH st h [k] with
  | .error e => .error e
  | .ok ks => joinLeaves E rootH st ks

/-- `SecCSLite.get_content`: unpack the handle, derive the height from the
length, and walk the tree. -/
def getContent (E : Engine) (hdl : Bytes) (st : StoreState) : Except Unit Bytes :=
  match unpackHandle E.wrapper.digestSize hdl with
  | .error e => .error e
  | .ok (k, l) =>
    getChunk E k (E.lengthToHeight l) (E.lengthToHeight l) (Int.ofNat l) st

/-- Removal of a node's backend entry (`del self._database[k]`; a missing key
raises `KeyError`). -/
def delEntry (st : StoreState) (k : Bytes) : Except Unit StoreState :=
  if (mapGet st.db k).isSome then .ok { st with db := mapDel st.db k } else .error ()

/-- Child loop of `_delete_chunk`: decrement each child's counter and
recursively delete a child whose counter reaches zero. -/
def delChildren (delChunk : Bytes → StoreState → Except Unit StoreState) :
    List Bytes → StoreState → Except Unit StoreState
  | [], st => .ok st
  | c :: cs, st =>
    match dbrcDec st.rc c with
    | .error e => .error e
    | .ok (n, rc') =>
      let st' : StoreState := { st with rc := rc' }
      if n = 0 then
        match delChunk c st' with
        | .error e => .error e
        | .ok st'' => delChildren delChunk cs st''
      else delChildren delChunk cs st'

/-- `SecCSLite._delete_chunk`, by recursion on the node height: for
superchunks, fetch the children, run the child loop, then remove the entry. -/
def deleteChunk (E : Engine) (rootH : Nat) : Nat → Bytes → StoreState →
    Except Unit StoreState
  | 0, k, st => delEntry st k
  | h + 1, k, st =>
    match getNode E k (h + 1) rootH (-1) st with
    | .error e => .error e
    | .ok none => .error ()
    | .ok (some (.leaf _)) => .error ()
    | .ok (some (.super cs)) =>
      match delChildren (deleteChunk E rootH h) cs st with
      | .error e => .error e
      | .ok st' => delEntry st' k

/-- `SecCSLite._delete_content`: skip the root's decrement when `ignore_rc`,
otherwise decrement and delete the root chunk only on reaching zero. -/
def deleteContentInner (E : Engine) (k : Bytes) (h rootH : Nat) (ignoreRc : Bool)
    (st : StoreState) : Except Unit StoreState :=
  if ignoreRc then deleteChunk E rootH h k st
  else
    match dbrcDec st.rc k with
    | .error e => .error e
    | .ok (n, rc') =>
      let st' : StoreState := { st with rc := rc' }
      if n = 0 then deleteChunk E rootH h k st' else .ok st'

/-- `SecCSLite.delete_content`. -/
def deleteContent (E : Engine) (hdl : Bytes) (ignoreRc : Bool) (st : StoreState) :
    Except Unit StoreState :=
  match unpackHandle E.wrapper.digestSize hdl with
  | .error e => .error e
  | .ok (k, l) =>
    deleteContentInner E k (E.lengthToHeight l) (E.lengthToHeight l) ignoreRc st

/-! ### Idealized wrapper models (the `crypto_wrapper` module is not under
`src/`; these follow the contract of spec §4.2) -/

/-- Injective encoding of a byte string into one natural number. -/
def encList : Bytes → Nat
  | [] => 0
  | a :: t => Nat.pair a (encList t) + 1

/-- Modelled from the spec: an idealized keyed wrapper of the HMAC-SHA-256
family (§4.2), a non-distinguished-root variant: the ciphertext is the
plaintext, the digest is a collision-free commitment to the plaintext and the
height, and `is_root` is not mixed in. The digest is idealized to a single
unbounded byte. -/
def hmacModel : CryptoWrapper where
  digestSize := 1
  wrap := fun p h _ => (p, [Nat.pair (encList p) h])
  unwrap := fun c k h _ _ =>
    if k = [Nat.pair (encList c) h] then .ok (some c) else .error ()

/-- Modelled from the spec: an idealized distinguished-root keyed wrapper
(HMAC-SHA-256-DR of §4.2): like `hmacModel` but the digest also binds the
`is_root` flag. -/
def hmacDRModel : CryptoWrapper where
  digestSize := 1
  wrap := fun p h r => (p, [Nat.pair (encList p) (Nat.pair h (cond r 1 0))])
  unwrap := fun c k h r _ =>
    if k = [Nat.pair (encList c) (Nat.pair h (cond r 1 0))] then .ok (some c)
    else .error ()

/-- Modelled from the spec: the leaf-padding variant HMAC-SHA-256-DR-LP of
§4.2 with target chunk size `S`: leaves shorter than `S` are padded with zero
bytes on wrap, and unwrap needs the true length to strip the padding; with an
unknown length (`-1`) the padded plaintext is returned unstripped. -/
def lpModel (S : Nat) : CryptoWrapper where
  digestSize := 1
  wrap := fun p h r =>
    let q := if h = 0 then p ++ List.replicate (S - p.length) 0 else p
    (q, [Nat.pair (encList q) (Nat.pair h (cond r 1 0))])
  unwrap := fun c k h r l =>
    if k = [Nat.pair (encList c) (Nat.pair h (cond r 1 0))] then
      .ok (some (if 0 ≤ l ∧ h = 0 then c.take l.toNat else c))
    else .error ()

/-- Modelled from the spec: an unkeyed wrapper of the SHA-256 family whose
`unwrap` signals an integrity failure by returning null (§4.6.2) instead of
raising. -/
def nullSigModel : CryptoWrapper where
  digestSize := 1
  wrap := fun p h _ => (p, [Nat.pair (encList p) h])
  unwrap := fun c k h _ _ =>
    if k = [Nat.pair (encList c) h] then .ok (some c) else .ok none

/-- Contract satisfied by the idealized models of the non-leaf-padding wrapper
variants of §4.2: wrap/unwrap round-trip, unwrap soundness, digest
collision-freeness over plaintext and height, and a fixed digest width. -/
structure GoodWrapper (W : CryptoWrapper) : Prop where
  rt : ∀ p h r l, W.unwrap (W.wrap p h r).1 (W.wrap p h r).2 h r l = .ok (some p)
  sound : ∀ c k h r l p, W.unwrap c k h r l = .ok (some p) → W.wrap p h r = (c, k)
  inj : ∀ p₁ h₁ r₁ p₂ h₂ r₂, (W.wrap p₁ h₁ r₁).2 = (W.wrap p₂ h₂ r₂).2 →
    W.wrap p₁ h₁ r₁ = W.wrap p₂ h₂ r₂ ∧ p₁ = p₂ ∧ h₁ = h₂
  dlen : ∀ p h r, (W.wrap p h r).2.length = W.digestSize
  dpos : 0 < W.digestSize

/-- Concrete engine used for evaluation witnesses: ideal DR wrapper, a
two-level height schedule, and a fixed-position chunker. -/
def testEngine : Engine where
  wrapper := hmacDRModel
  lengthToHeight := fun l => if l ≤ 2 then 0 else 1
  chunker := fun _ m => if 2 ≤ m.length then [(2, 0)] else []

/-- Concrete engine with the non-distinguished-root wrapper model. -/
def ndEngine : Engine where
  wrapper := hmacModel
  lengthToHeight := fun l => if l ≤ 2 then 0 else 1
  chunker := fun _ m => if 2 ≤ m.length then [(2, 0)] else []

/-- Concrete engine with the leaf-padding wrapper model (target chunk size 4,
so `S ≥ 2R` holds with the idealized one-byte digests); the height schedule
agrees with the default formula on the inputs used. -/
def lpEngine : Engine where
  wrapper := lpModel 4
  lengthToHeight := fun l => if l ≤ 4 then 0 else 1
  chunker := fun _ _ => []

/-- Concrete engine with the null-signalling unkeyed wrapper model. -/
def nsEngine : Engine where
  wrapper := nullSigModel
  lengthToHeight := fun l => if l ≤ 2 then 0 else 1
  chunker := fun _ m => if 2 ≤ m.length then [(2, 0)] else []

/-! ### Basic lemmas about the map and encoding helpers -/

deriving instance DecidableEq for Except

theorem mapGet_set_self {α β : Type} [DecidableEq α] (m : List (α × β)) (k : α) (v : β) :
    mapGet (mapSet m k v) k = some v := by
  induction m with
  | nil => simp [mapGet, mapSet]
  | cons e t ih =>
    obtain ⟨k', v'⟩ := e
    by_cases hk : k' = k <;> simp [mapGet, mapSet, hk, ih]

theorem mapGet_set_other {α β : Type} [DecidableEq α] (m : List (α × β)) (k j : α) (v : β)
    (hj : k ≠ j) : mapGet (mapSet m k v) j = mapGet m j := by
  induction m with
  | nil => simp [mapGet, mapSet, hj]
  | cons e t ih =>
    obtain ⟨k', v'⟩ := e
    by_cases hk : k' = k
    · subst hk
      simp [mapGet, mapSet, hj]
    · simp only [mapSet, if_neg hk, mapGet]
      by_cases hkj : k' = j <;> simp [hkj, ih]

theorem mapGet_del_other {α β : Type} [DecidableEq α] (m : List (α × β)) (k j : α)
    (hj : k ≠ j) : mapGet (mapDel m k) j = mapGet m j := by
  induction m with
  | nil => simp [mapDel]
  | cons e t ih =>
    obtain ⟨k', v'⟩ := e
    by_cases hk : k' = k
    · subst hk
      simp [mapDel, mapGet, hj, Ne.symm hj]
    · simp only [mapDel, if_neg hk, mapGet]
      by_cases hkj : k' = j <;> simp [hkj, ih]

theorem beBytes_length (w x : Nat) : (beBytes w x).length = w := by
  induction w generalizing x with
  | zero => simp [beBytes]
  | succ w ih => simp [beBytes, ih]

theorem packBytes_length (n : Nat) (s : Bytes) : (packBytes n s).length = n := by
  simp only [packBytes, List.length_append, List.length_take, List.length_replicate]
  omega

theorem packBytes_of_length (n : Nat) (s : Bytes) (hs : s.length = n) :
    packBytes n s = s := by
  subst hs
  simp [packBytes]

theorem unBE_beBytes (w x : Nat) : unBE (beBytes w x) = x % 256 ^ w := by
  induction w generalizing x with
  | zero => simp [beBytes, unBE, Nat.mod_one]
  | succ w ih =>
    have hm : x % (256 * 256 ^ w) = x % 256 + 256 * (x / 256 % 256 ^ w) := Nat.mod_mul
    simp only [beBytes, unBE, List.foldl_append, List.foldl_cons, List.foldl_nil]
    have := ih (x / 256)
    simp only [unBE] at this
    rw [this, pow_succ]
    calc x / 256 % 256 ^ w * 256 + x % 256
        = x % 256 + 256 * (x / 256 % 256 ^ w) := by ring
      _ = x % (256 * 256 ^ w) := hm.symm
      _ = x % (256 ^ w * 256) := by rw [Nat.mul_comm]

theorem unpackHandle_pack (R : Nat) (k : Bytes) (l : Nat) :
    unpackHandle R (packBytes R k ++ beBytes 8 l) = .ok (packBytes R k, l % 2 ^ 64) := by
  have hlen : (packBytes R k ++ beBytes 8 l).length = R + 8 := by
    simp [packBytes_length, beBytes_length]
  have htake : (packBytes R k ++ beBytes 8 l).take R = packBytes R k := by
    have := List.take_left (packBytes R k) (beBytes 8 l)
    rwa [packBytes_length] at this
  have hdrop : (packBytes R k ++ beBytes 8 l).drop R = beBytes 8 l := by
    have := List.drop_left (packBytes R k) (beBytes 8 l)
    rwa [packBytes_length] at this
  have h64 : (256 : Nat) ^ 8 = 2 ^ 64 := by norm_num
  simp [unpackHandle, hlen, htake, hdrop, unBE_beBytes, h64]

/-! ### Claim C5 -/

/-- C5: for the database-backed reference counter and its key-suffix variant,
`inc` on an absent counter creates it with value 1 and returns 1, and
otherwise stores and returns the incremented value; `dec` on a counter storing
1 deletes the entry and returns 0, and on a counter storing `v > 1` stores and
returns `v - 1`. -/
theorem c5_reference_counter_spec {α : Type} [DecidableEq α]
    (db : List (α × Int)) (k : α) (sdb : List (Bytes × Int)) (suffix sk : Bytes) :
    (mapGet db k = none → dbrcInc db k = (1, mapSet db k 1))
  ∧ (∀ v : Int, mapGet db k = some v → dbrcInc db k = (v + 1, mapSet db k (v + 1)))
  ∧ (mapGet db k = some 1 → dbrcDec db k = .ok (0, mapDel db k))
  ∧ (∀ v : Int, 1 < v → mapGet db k = some v →
      dbrcDec db k = .ok (v - 1, mapSet db k (v - 1)))
  ∧ (mapGet sdb (sk ++ suffix) = none →
      ksInc sdb suffix sk = (1, mapSet sdb (sk ++ suffix) 1))
  ∧ (∀ v : Int, mapGet sdb (sk ++ suffix) = some v →
      ksInc sdb suffix sk = (v + 1, mapSet sdb (sk ++ suffix) (v + 1)))
  ∧ (mapGet sdb (sk ++ suffix) = some 1 →
      ksDec sdb suffix sk = .ok (0, mapDel sdb (sk ++ suffix)))
  ∧ (∀ v : Int, 1 < v → mapGet sdb (sk ++ suffix) = some v →
      ksDec sdb suffix sk = .ok (v - 1, mapSet sdb (sk ++ suffix) (v - 1))) := by
  refine ⟨fun hnone => ?_, fun v hv => ?_, fun h1 => ?_, fun v hlt hv => ?_,
    fun hnone => ?_, fun v hv => ?_, fun h1 => ?_, fun v hlt hv => ?_⟩
  · simp [dbrcInc, hnone]
  · simp [dbrcInc, hv]
  · simp [dbrcDec, h1]
  · have hne : v - 1 ≠ 0 := by omega
    simp [dbrcDec, hv, hne]
  · simp [ksInc, dbrcInc, hnone]
  · simp [ksInc, dbrcInc, hv]
  · simp [ksDec, dbrcDec, h1]
  · have hne : v - 1 ≠ 0 := by omega
    simp [ksDec, dbrcDec, hv, hne]

/-- Witness for C5 at concrete counters. -/
theorem c5_reference_counter_witness :
    dbrcInc ([] : List (Nat × Int)) 0 = (1, mapSet ([] : List (Nat × Int)) 0 1)
  ∧ dbrcDec [((7 : Nat), (1 : Int))] 7 = .ok (0, mapDel [((7 : Nat), (1 : Int))] 7)
  ∧ dbrcDec [((7 : Nat), (3 : Int))] 7 = .ok (2, mapSet [((7 : Nat), (3 : Int))] 7 2)
  ∧ ksInc [([2, 5], (4 : Int))] [5] [2] = (5, mapSet [([2, 5], (4 : Int))] [2, 5] 5)
  ∧ ksDec [([2, 5], (1 : Int))] [5] [2] = .ok (0, mapDel [([2, 5], (1 : Int))] [2, 5]) := by
  refine ⟨(c5_reference_counter_spec ([] : List (Nat × Int)) 0 [] [] []).1 (by decide),
    (c5_reference_counter_spec [((7 : Nat), (1 : Int))] 7 [] [] []).2.2.1 (by decide),
    ?_, ?_,
    (c5_reference_counter_spec ([] : List (Nat × Int)) 0 [([2, 5], (1 : Int))] [5] [2]).2.2.2.2.2.2.1
      (by decide)⟩
  · have := (c5_reference_counter_spec [((7 : Nat), (3 : Int))] 7 [] [] []).2.2.2.1 3
      (by norm_num) (by decide)
    simpa using this
  · have := (c5_reference_counter_spec ([] : List (Nat × Int)) 0 [([2, 5], (4 : Int))] [5]
      [2]).2.2.2.2.2.1 4 (by decide)
    simpa using this

/-! ### Claim C3 -/

/-- C3: `_store_node` returns `(k, false)` and leaves the whole state (backend
and counters) unchanged when the digest `k` is already present and the
verification `get_node` returns non-null; otherwise (absent digest, or null
probe) it increments the counter of each child digest listed by a superchunk
exactly once per occurrence, writes the ciphertext under `k`, and returns
`(k, true)`. -/
theorem c3_store_node_spec (E : Engine) (v : NodeVal) (h rootH : Nat) (st : StoreState) :
    ((mapGet st.db (storeKey E v h rootH)).isSome = true →
     (∃ w, getNode E (storeKey E v h rootH) h rootH (-1) st = .ok (some w)) →
      storeNode E v h rootH st = .ok ((storeKey E v h rootH, false), st))
  ∧ (mapGet st.db (storeKey E v h rootH) = none ∨
      getNode E (storeKey E v h rootH) h rootH (-1) st = .ok none →
      storeNode E v h rootH st =
        .ok ((storeKey E v h rootH, true),
          { db := mapSet st.db (storeKey E v h rootH) (storeCipher E v h rootH),
            rc := incChildren st.rc v })) := by
  constructor
  · intro hsome hw
    obtain ⟨w, hw⟩ := hw
    simp [storeNode, hsome, hw]
  · intro hcase
    rcases hcase with hnone | hprobe
    · simp [storeNode, hnone]
    · cases hs : (mapGet st.db (storeKey E v h rootH)).isSome
      · simp [storeNode, hs]
      · simp [storeNode, hs, hprobe]

/-- Witness for C3: inserting a fresh leaf into the empty state. -/
theorem c3_store_node_witness :
    storeNode testEngine (.leaf [7]) 0 0 ⟨[], []⟩ =
      .ok ((storeKey testEngine (.leaf [7]) 0 0, true),
        { db := mapSet [] (storeKey testEngine (.leaf [7]) 0 0)
            (storeCipher testEngine (.leaf [7]) 0 0),
          rc := incChildren [] (.leaf [7]) }) :=
  (c3_store_node_spec testEngine (.leaf [7]) 0 0 ⟨[], []⟩).2 (Or.inl (by decide))

/-! ### Claim C6 -/

/-- C6 is refuted by this counterexample: the digest of leaf `[7]` is present
in the backend but maps to a garbage ciphertext, so the verification
`get_node` raises; `_store_node` propagates the error instead of treating it
as not-a-match and overwriting. -/
theorem c6_error_propagates_counterexample :
    storeNode testEngine (.leaf [7]) 0 0
      { db := [((hmacDRModel.wrap [7] 0 true).2, [9])], rc := [] } = .error () := by
  decide

/-- C6 (amended): in the dedup probe of `_store_node`, a null return from the
verification `get_node` is treated as not-a-match and the entry is
overwritten, while a raised wrapper error propagates out of `_store_node`. -/
theorem c6_probe_null_vs_error (E : Engine) (v : NodeVal) (h rootH : Nat)
    (st : StoreState)
    (hsome : (mapGet st.db (storeKey E v h rootH)).isSome = true) :
    (getNode E (storeKey E v h rootH) h rootH (-1) st = .ok none →
      storeNode E v h rootH st =
        .ok ((storeKey E v h rootH, true),
          { db := mapSet st.db (storeKey E v h rootH) (storeCipher E v h rootH),
            rc := incChildren st.rc v }))
  ∧ (∀ u : Unit, getNode E (storeKey E v h rootH) h rootH (-1) st = .error u →
      storeNode E v h rootH st = .error u) := by
  constructor
  · intro hnull
    simp [storeNode, hsome, hnull]
  · intro u herr
    simp [storeNode, hsome, herr]

/-- Witness for C6 (amended): with the null-signalling wrapper and a garbage
entry under the probed digest, `_store_node` overwrites the entry. -/
theorem c6_probe_null_witness :
    storeNode nsEngine (.leaf [7]) 0 0
      { db := [((nullSigModel.wrap [7] 0 true).2, [9])], rc := [] } =
      .ok ((storeKey nsEngine (.leaf [7]) 0 0, true),
        { db := mapSet [((nullSigModel.wrap [7] 0 true).2, [9])]
            (storeKey nsEngine (.leaf [7]) 0 0) (storeCipher nsEngine (.leaf [7]) 0 0),
          rc := incChildren [] (.leaf [7]) }) :=
  (c6_probe_null_vs_error nsEngine (.leaf [7]) 0 0
    { db := [((nullSigModel.wrap [7] 0 true).2, [9])], rc := [] }
    (by decide)).1 (by decide)

/-! ### Claim C8 -/

/-- C8: `get_content` uses the length field of a handle only through the tree
height: two handles carrying the same digest field and lengths with equal
`length_to_height` values retrieve bitwise-identical results (the recorded
length is neither used for truncation nor validated; every node is unwrapped
with length `-1`). -/
theorem c8_length_only_selects_height (E : Engine) (k : Bytes) (l₁ l₂ : Nat)
    (st : StoreState) (h₁ : l₁ < 2 ^ 64) (h₂ : l₂ < 2 ^ 64)
    (hh : E.lengthToHeight l₁ = E.lengthToHeight l₂) :
    getContent E (packBytes E.wrapper.digestSize k ++ beBytes 8 l₁) st =
    getContent E (packBytes E.wrapper.digestSize k ++ beBytes 8 l₂) st := by
  have e₁ : l₁ % 2 ^ 64 = l₁ := Nat.mod_eq_of_lt h₁
  have e₂ : l₂ % 2 ^ 64 = l₂ := Nat.mod_eq_of_lt h₂
  simp only [getContent, unpackHandle_pack, e₁, e₂, hh, getChunk]

/-- Witness for C8 at lengths 0 and 2 (both height 0 in `testEngine`). -/
theorem c8_length_only_witness :
    getContent testEngine (packBytes testEngine.wrapper.digestSize [3] ++ beBytes 8 0)
      ⟨[], []⟩ =
    getContent testEngine (packBytes testEngine.wrapper.digestSize [3] ++ beBytes 8 2)
      ⟨[], []⟩ :=
  c8_length_only_selects_height testEngine [3] 0 2 ⟨[], []⟩ (by norm_num) (by norm_num)
    (by decide)

/-! ### Wrapper-model properties -/

theorem encList_injective : Function.Injective encList := by
  intro a b h
  induction a generalizing b with
  | nil =>
    cases b with
    | nil => rfl
    | cons d u => simp [encList] at h
  | cons c t ih =>
    cases b with
    | nil => simp [encList] at h
    | cons d u =>
      simp only [encList, Nat.add_right_cancel_iff, Nat.pair_eq_pair] at h
      rw [h.1, ih h.2]

theorem hmacDRModel_good : GoodWrapper hmacDRModel := by
  refine ⟨fun p h r l => ?_, fun c k h r l p hu => ?_, fun p₁ h₁ r₁ p₂ h₂ r₂ hk => ?_,
    fun p h r => rfl, Nat.one_pos⟩
  · simp [hmacDRModel]
  · simp only [hmacDRModel] at hu
    split at hu
    · next heq =>
      simp only [Except.ok.injEq, Option.some.injEq] at hu
      subst hu
      simp [hmacDRModel, heq]
    · simp at hu
  · simp only [hmacDRModel, List.cons.injEq, and_true, Nat.pair_eq_pair] at hk
    obtain ⟨he, hh, hr⟩ := hk
    have hp := encList_injective he
    subst hp hh
    refine ⟨?_, rfl, rfl⟩
    simp [hmacDRModel, hr]

theorem hmacModel_good : GoodWrapper hmacModel := by
  refine ⟨fun p h r l => ?_, fun c k h r l p hu => ?_, fun p₁ h₁ r₁ p₂ h₂ r₂ hk => ?_,
    fun p h r => rfl, Nat.one_pos⟩
  · simp [hmacModel]
  · simp only [hmacModel] at hu
    split at hu
    · next heq =>
      simp only [Except.ok.injEq, Option.some.injEq] at hu
      subst hu
      simp [hmacModel, heq]
    · simp at hu
  · simp only [hmacModel, List.cons.injEq, and_true, Nat.pair_eq_pair] at hk
    obtain ⟨he, hh⟩ := hk
    have hp := encList_injective he
    subst hp hh
    exact ⟨rfl, rfl, rfl⟩

/-! ### Serialization round-trip -/

theorem map_packBytes_eq (R : Nat) (ds : List Bytes) (hlen : ∀ d ∈ ds, d.length = R) :
    ds.map (packBytes R) = ds := by
  induction ds with
  | nil => rfl
  | cons d t ih =>
    simp only [List.map_cons]
    rw [packBytes_of_length R d (hlen d (by simp)), ih (fun x hx => hlen x (by simp [hx]))]

theorem serializeNode_super (R : Nat) (ds : List Bytes) (hlen : ∀ d ∈ ds, d.length = R) :
    serializeNode R (.super ds) = ds.flatten := by
  rw [show serializeNode R (.super ds) = (ds.map (packBytes R)).flatten from rfl,
    map_packBytes_eq R ds hlen]

theorem splitGo_flatten (R : Nat) (hR : 0 < R) :
    ∀ ds : List Bytes, (∀ d ∈ ds, d.length = R) →
      ∀ fuel, ds.flatten.length ≤ fuel → splitGo R fuel ds.flatten = .ok ds := by
  intro ds
  induction ds with
  | nil =>
    intro _ fuel _
    cases fuel <;> simp [splitGo]
  | cons d t ih =>
    intro hlen fuel hfuel
    have hd : d.length = R := hlen d (by simp)
    cases d with
    | nil => simp at hd; omega
    | cons a d' =>
      have hflat : ((a :: d') :: t : List Bytes).flatten = a :: (d' ++ t.flatten) := by
        simp
      rw [hflat] at hfuel ⊢
      cases fuel with
      | zero =>
        exfalso
        simp at hfuel
      | succ fuel =>
        have hle : R ≤ (a :: (d' ++ t.flatten) : Bytes).length := by
          simp only [List.length_cons, List.length_append]
          have : (a :: d' : Bytes).length = R := hd
          simp only [List.length_cons] at this
          omega
        have hdrop : (a :: (d' ++ t.flatten) : Bytes).drop R = t.flatten := by
          have := List.drop_left (a :: d' : Bytes) t.flatten
          rw [hd] at this
          simpa using this
        have htake : (a :: (d' ++ t.flatten) : Bytes).take R = a :: d' := by
          have := List.take_left (a :: d' : Bytes) t.flatten
          rw [hd] at this
          simpa using this
        have hrec : splitGo R fuel t.flatten = .ok t := by
          apply ih (fun x hx => hlen x (by simp [hx]))
          have : (a :: d' : Bytes).length = R := hd
          simp only [List.length_cons] at this ⊢
          simp only [List.length_cons, List.length_append] at hfuel
          omega
        simp only [splitGo, hle, if_true, hdrop, hrec, htake]

theorem splitBlocks_flatten (R : Nat) (hR : 0 < R) (ds : List Bytes)
    (hlen : ∀ d ∈ ds, d.length = R) : splitBlocks R ds.flatten = .ok ds := by
  unfold splitBlocks
  rw [if_neg (by omega)]
  exact splitGo_flatten R hR ds hlen _ le_rfl

/-! ### The tree-representation predicate and its stability -/

/-- A digest `k` represents content `m` at height `h` in a backend `db`: the
entry under `k` is the genuine ciphertext of the node, and for superchunks all
child digests recursively represent the pieces whose concatenation is `m`. -/
def Rep (E : Engine) (rootH : Nat) (db : List (Bytes × Bytes)) :
    Nat → Bytes → Bytes → Prop
  | 0, k, m =>
      k = storeKey E (.leaf m) 0 rootH ∧
      mapGet db k = some (storeCipher E (.leaf m) 0 rootH)
  | h + 1, k, m => ∃ pieces : List (Bytes × Bytes),
      m = (pieces.map Prod.snd).flatten ∧
      k = storeKey E (.super (pieces.map Prod.fst)) (h + 1) rootH ∧
      mapGet db k = some (storeCipher E (.super (pieces.map Prod.fst)) (h + 1) rootH) ∧
      ∀ pc ∈ pieces, Rep E rootH db h pc.1 pc.2

/-- A backend entry that is a genuine wrap output. -/
def GoodEntry (E : Engine) (k c : Bytes) : Prop :=
  ∃ p h r, E.wrapper.wrap p h r = (c, k)

/-- One backend extends another on all genuine entries. -/
def DbExtends (E : Engine) (db db' : List (Bytes × Bytes)) : Prop :=
  ∀ k c, GoodEntry E k c → mapGet db k = some c → mapGet db' k = some c

theorem DbExtends.rfl {E : Engine} (db : List (Bytes × Bytes)) : DbExtends E db db :=
  fun _ _ _ h => h

theorem DbExtends.comp {E : Engine} {db₁ db₂ db₃ : List (Bytes × Bytes)}
    (h₁ : DbExtends E db₁ db₂) (h₂ : DbExtends E db₂ db₃) : DbExtends E db₁ db₃ :=
  fun k c hg h => h₂ k c hg (h₁ k c hg h)

theorem rep_key {E : Engine} {rootH : Nat} {db : List (Bytes × Bytes)}
    {h : Nat} {k m : Bytes} (hr : Rep E rootH db h k m) :
    ∃ v, k = storeKey E v h rootH := by
  cases h with
  | zero => exact ⟨.leaf m, hr.1⟩
  | succ h =>
    obtain ⟨pieces, -, hk, -, -⟩ := hr
    exact ⟨.super (pieces.map Prod.fst), hk⟩

theorem rep_key_length {E : Engine} (hG : GoodWrapper E.wrapper) {rootH : Nat}
    {db : List (Bytes × Bytes)} {h : Nat} {k m : Bytes}
    (hr : Rep E rootH db h k m) : k.length = E.wrapper.digestSize := by
  obtain ⟨v, hk⟩ := rep_key hr
  rw [hk, storeKey]
  exact hG.dlen _ _ _

theorem Rep.extends {E : Engine} {rootH : Nat} {db db' : List (Bytes × Bytes)}
    (hext : DbExtends E db db') :
    ∀ {h : Nat} {k m : Bytes}, Rep E rootH db h k m → Rep E rootH db' h k m := by
  intro h
  induction h with
  | zero =>
    intro k m hr
    obtain ⟨hk, hget⟩ := hr
    refine ⟨hk, hext k _ ?_ hget⟩
    refine ⟨serializeNode E.wrapper.digestSize (.leaf m), 0, ((0 : Nat) == rootH), ?_⟩
    rw [hk]
    rfl
  | succ h ih =>
    intro k m hr
    obtain ⟨pieces, hm, hk, hget, hch⟩ := hr
    refine ⟨pieces, hm, hk, hext k _ ?_ hget, fun pc hpc => ih (hch pc hpc)⟩
    refine ⟨serializeNode E.wrapper.digestSize (.super (pieces.map Prod.fst)), h + 1,
      ((h + 1 : Nat) == rootH), ?_⟩
    rw [hk]
    rfl

/-! ### Store-node lemmas under the wrapper contract -/

theorem storeNode_ok_key {E : Engine} {v : NodeVal} {h rootH : Nat} {st st' : StoreState}
    {k : Bytes} {b : Bool}
    (hs : storeNode E v h rootH st = .ok ((k, b), st')) : k = storeKey E v h rootH := by
  simp only [storeNode] at hs
  split at hs
  · split at hs
    · simp at hs
    · simp only [Except.ok.injEq, Prod.mk.injEq] at hs
      exact hs.1.1.symm
    · simp only [Except.ok.injEq, Prod.mk.injEq] at hs
      exact hs.1.1.symm
  · simp only [Except.ok.injEq, Prod.mk.injEq] at hs
    exact hs.1.1.symm

theorem storeNode_extends {E : Engine} (hG : GoodWrapper E.wrapper) {v : NodeVal}
    {h rootH : Nat} {st st' : StoreState} {res : Bytes × Bool}
    (hs : storeNode E v h rootH st = .ok (res, st')) : DbExtends E st.db st'.db := by
  simp only [storeNode] at hs
  split at hs
  · split at hs
    · simp at hs
    · simp only [Except.ok.injEq, Prod.mk.injEq] at hs
      rw [← hs.2]
      exact DbExtends.rfl _
    · simp only [Except.ok.injEq, Prod.mk.injEq] at hs
      rw [← hs.2]
      intro k c hg hget
      by_cases hk : storeKey E v h rootH = k
      · obtain ⟨p, hp, rp, hw⟩ := hg
        have hd2 : (E.wrapper.wrap p hp rp).2 = k := by rw [hw]
        have hd : (E.wrapper.wrap p hp rp).2 =
            (E.wrapper.wrap (serializeNode E.wrapper.digestSize v) h (h == rootH)).2 := by
          rw [hd2, ← hk]
          rfl
        have hww := (hG.inj _ _ _ _ _ _ hd).1
        have hc : c = storeCipher E v h rootH := by
          have h1 : (E.wrapper.wrap p hp rp).1 = c := by rw [hw]
          rw [← h1, hww]
          rfl
        subst hk
        rw [mapGet_set_self, hc]
      · rw [mapGet_set_other _ _ _ _ hk]
        exact hget
  · simp only [Except.ok.injEq, Prod.mk.injEq] at hs
    rw [← hs.2]
    intro k c hg hget
    by_cases hk : storeKey E v h rootH = k
    · obtain ⟨p, hp, rp, hw⟩ := hg
      have hd2 : (E.wrapper.wrap p hp rp).2 = k := by rw [hw]
      have hd : (E.wrapper.wrap p hp rp).2 =
          (E.wrapper.wrap (serializeNode E.wrapper.digestSize v) h (h == rootH)).2 := by
        rw [hd2, ← hk]
        rfl
      have hww := (hG.inj _ _ _ _ _ _ hd).1
      have hc : c = storeCipher E v h rootH := by
        have h1 : (E.wrapper.wrap p hp rp).1 = c := by rw [hw]
        rw [← h1, hww]
        rfl
      subst hk
      rw [mapGet_set_self, hc]
    · rw [mapGet_set_other _ _ _ _ hk]
      exact hget

theorem getNode_ok_some_inv {E : Engine} {k : Bytes} {h rootH : Nat} {l : Int}
    {st : StoreState} {w : NodeVal}
    (hw : getNode E k h rootH l st = .ok (some w)) :
    ∃ v0 s, mapGet st.db k = some v0 ∧
      E.wrapper.unwrap v0 k h (h == rootH) l = .ok (some s) := by
  unfold getNode at hw
  split at hw
  · simp at hw
  · next v0 hget =>
    split at hw
    · simp at hw
    · simp at hw
    · next s hu =>
      exact ⟨v0, s, hget, hu⟩

theorem storeNode_rep_leaf {E : Engine} (hG : GoodWrapper E.wrapper) {m : Bytes}
    {rootH : Nat} {st st' : StoreState} {k : Bytes} {b : Bool}
    (hs : storeNode E (.leaf m) 0 rootH st = .ok ((k, b), st')) :
    Rep E rootH st'.db 0 k m := by
  have hk := storeNode_ok_key hs
  subst hk
  simp only [storeNode] at hs
  split at hs
  · split at hs
    · simp at hs
    · -- dedup: the present entry is verified, so it is the genuine ciphertext
      next w hw =>
      simp only [Except.ok.injEq, Prod.mk.injEq] at hs
      rw [← hs.2]
      refine ⟨rfl, ?_⟩
      obtain ⟨v0, s, hget, hu⟩ := getNode_ok_some_inv hw
      have hsound := hG.sound _ _ _ _ _ _ hu
      have hd : (E.wrapper.wrap s 0 ((0 : Nat) == rootH)).2 =
          (E.wrapper.wrap (serializeNode E.wrapper.digestSize (.leaf m)) 0
            ((0 : Nat) == rootH)).2 := by
        rw [hsound]
        rfl
      have hww := (hG.inj _ _ _ _ _ _ hd).1
      have hv : v0 = storeCipher E (.leaf m) 0 rootH := by
        have h1 : (E.wrapper.wrap s 0 ((0 : Nat) == rootH)).1 = v0 := by rw [hsound]
        rw [← h1, hww]
        rfl
      rw [hget, hv]
    · simp only [Except.ok.injEq, Prod.mk.injEq] at hs
      rw [← hs.2]
      exact ⟨rfl, mapGet_set_self _ _ _⟩
  · simp only [Except.ok.injEq, Prod.mk.injEq] at hs
    rw [← hs.2]
    exact ⟨rfl, mapGet_set_self _ _ _⟩

theorem storeNode_rep_super {E : Engine} (hG : GoodWrapper E.wrapper)
    {pieces : List (Bytes × Bytes)} {h rootH : Nat} {st st' : StoreState}
    {k : Bytes} {b : Bool}
    (hs : storeNode E (.super (pieces.map Prod.fst)) (h + 1) rootH st = .ok ((k, b), st'))
    (hch : ∀ pc ∈ pieces, Rep E rootH st.db h pc.1 pc.2) :
    Rep E rootH st'.db (h + 1) k ((pieces.map Prod.snd).flatten) := by
  have hk := storeNode_ok_key hs
  subst hk
  have hch' : ∀ pc ∈ pieces, Rep E rootH st'.db h pc.1 pc.2 :=
    fun pc hpc => Rep.extends (storeNode_extends hG hs) (hch pc hpc)
  simp only [storeNode] at hs
  split at hs
  · split at hs
    · simp at hs
    · next w hw =>
      simp only [Except.ok.injEq, Prod.mk.injEq] at hs
      refine ⟨pieces, rfl, rfl, ?_, hch'⟩
      rw [← hs.2]
      obtain ⟨v0, s, hget, hu⟩ := getNode_ok_some_inv hw
      have hsound := hG.sound _ _ _ _ _ _ hu
      have hd : (E.wrapper.wrap s (h + 1) ((h + 1 : Nat) == rootH)).2 =
          (E.wrapper.wrap (serializeNode E.wrapper.digestSize
            (.super (pieces.map Prod.fst))) (h + 1) ((h + 1 : Nat) == rootH)).2 := by
        rw [hsound]
        rfl
      have hww := (hG.inj _ _ _ _ _ _ hd).1
      have hv : v0 = storeCipher E (.super (pieces.map Prod.fst)) (h + 1) rootH := by
        have h1 : (E.wrapper.wrap s (h + 1) ((h + 1 : Nat) == rootH)).1 = v0 := by
          rw [hsound]
        rw [← h1, hww]
        rfl
      rw [hget, hv]
    · simp only [Except.ok.injEq, Prod.mk.injEq] at hs
      refine ⟨pieces, rfl, rfl, ?_, hch'⟩
      rw [← hs.2]
      exact mapGet_set_self _ _ _
  · simp only [Except.ok.injEq, Prod.mk.injEq] at hs
    refine ⟨pieces, rfl, rfl, ?_, hch'⟩
    rw [← hs.2]
    exact mapGet_set_self _ _ _

/-! ### Retrieval from represented trees -/

theorem getNode_rep_leaf {E : Engine} (hG : GoodWrapper E.wrapper) {rootH : Nat}
    {st : StoreState} {k m : Bytes} (hr : Rep E rootH st.db 0 k m) (l : Int) :
    getNode E k 0 rootH l st = .ok (some (.leaf m)) := by
  obtain ⟨hk, hget⟩ := hr
  subst hk
  have hrt := hG.rt (serializeNode E.wrapper.digestSize (.leaf m)) 0 ((0 : Nat) == rootH) l
  simp only [getNode, hget]
  rw [show E.wrapper.unwrap (storeCipher E (.leaf m) 0 rootH) (storeKey E (.leaf m) 0 rootH)
      0 ((0 : Nat) == rootH) l =
      .ok (some (serializeNode E.wrapper.digestSize (.leaf m))) from hrt]
  rfl

theorem getNode_rep_super {E : Engine} (hG : GoodWrapper E.wrapper) {rootH h : Nat}
    {st : StoreState} {k m : Bytes} (hr : Rep E rootH st.db (h + 1) k m) (l : Int) :
    ∃ pieces : List (Bytes × Bytes), m = (pieces.map Prod.snd).flatten ∧
      (∀ pc ∈ pieces, Rep E rootH st.db h pc.1 pc.2) ∧
      getNode E k (h + 1) rootH l st = .ok (some (.super (pieces.map Prod.fst))) := by
  obtain ⟨pieces, hm, hk, hget, hch⟩ := hr
  refine ⟨pieces, hm, hch, ?_⟩
  subst hk
  have hrt := hG.rt (serializeNode E.wrapper.digestSize (.super (pieces.map Prod.fst)))
    (h + 1) ((h + 1 : Nat) == rootH) l
  simp only [getNode, hget]
  rw [show E.wrapper.unwrap (storeCipher E (.super (pieces.map Prod.fst)) (h + 1) rootH)
      (storeKey E (.super (pieces.map Prod.fst)) (h + 1) rootH) (h + 1)
      ((h + 1 : Nat) == rootH) l =
      .ok (some (serializeNode E.wrapper.digestSize (.super (pieces.map Prod.fst))))
      from hrt]
  have hdl : ∀ d ∈ pieces.map Prod.fst, d.length = E.wrapper.digestSize := by
    intro d hd
    obtain ⟨pc, hpc, rfl⟩ := List.mem_map.mp hd
    exact rep_key_length hG (hch pc hpc)
  have hser : serializeNode E.wrapper.digestSize (.super (pieces.map Prod.fst)) =
      (pieces.map Prod.fst).flatten := serializeNode_super _ _ hdl
  simp only [Nat.lt_irrefl, Nat.zero_lt_succ, if_true]
  rw [hser, splitBlocks_flatten _ hG.dpos _ hdl]

theorem joinLeaves_rep {E : Engine} (hG : GoodWrapper E.wrapper) {rootH : Nat}
    {st : StoreState} :
    ∀ {ks ms : List Bytes}, List.Forall₂ (Rep E rootH st.db 0) ks ms →
      joinLeaves E rootH st ks = .ok ms.flatten := by
  intro ks
  induction ks with
  | nil =>
    intro ms hf
    cases hf
    rfl
  | cons k ks ih =>
    intro ms hf
    cases hf with
    | cons hkm hrest =>
      simp only [joinLeaves, getNode_rep_leaf hG hkm, ih hrest]
      simp

theorem forall₂_of_pieces {α β : Type} {R : α → β → Prop} (pieces : List (α × β))
    (h : ∀ pc ∈ pieces, R pc.1 pc.2) :
    List.Forall₂ R (pieces.map Prod.fst) (pieces.map Prod.snd) := by
  induction pieces with
  | nil => exact .nil
  | cons pc t ih => exact .cons (h pc (by simp)) (ih (fun x hx => h x (by simp [hx])))

theorem expandLevel_rep {E : Engine} (hG : GoodWrapper E.wrapper) {rootH h : Nat}
    {st : StoreState} :
    ∀ {ks ms : List Bytes}, List.Forall₂ (Rep E rootH st.db (h + 1)) ks ms →
      ∃ ks' ms', expandLevel E rootH (h + 1) st ks = .ok ks' ∧
        List.Forall₂ (Rep E rootH st.db h) ks' ms' ∧ ms'.flatten = ms.flatten := by
  intro ks
  induction ks with
  | nil =>
    intro ms hf
    cases hf
    exact ⟨[], [], rfl, List.Forall₂.nil, rfl⟩
  | cons k ks ih =>
    intro ms hf
    cases hf with
    | @cons _ b _ l₂ hkm hrest =>
      obtain ⟨pieces, hm, hch, hget⟩ := getNode_rep_super hG hkm (-1)
      obtain ⟨ks₂, ms₂, hexp, hf₂, hflat₂⟩ := ih hrest
      refine ⟨pieces.map Prod.fst ++ ks₂, pieces.map Prod.snd ++ ms₂, ?_, ?_, ?_⟩
      · simp only [expandLevel, hget, hexp]
      · exact List.rel_append (forall₂_of_pieces pieces hch) hf₂
      · simp [hflat₂, hm]

theorem walkDown_rep {E : Engine} (hG : GoodWrapper E.wrapper) {rootH : Nat}
    {st : StoreState} :
    ∀ {t : Nat} {ks ms : List Bytes}, List.Forall₂ (Rep E rootH st.db t) ks ms →
      ∃ ks0 ms0, walkDown E rootH st t ks = .ok ks0 ∧
        List.Forall₂ (Rep E rootH st.db 0) ks0 ms0 ∧ ms0.flatten = ms.flatten := by
  intro t
  induction t with
  | zero =>
    intro ks ms hf
    exact ⟨ks, ms, rfl, hf, rfl⟩
  | succ t ih =>
    intro ks ms hf
    obtain ⟨ks', ms', hexp, hf', hflat'⟩ := expandLevel_rep hG hf
    obtain ⟨ks0, ms0, hwalk, hf0, hflat0⟩ := ih hf'
    refine ⟨ks0, ms0, ?_, hf0, hflat0.trans hflat'⟩
    simp only [walkDown, hexp]
    exact hwalk

theorem getChunk_rep {E : Engine} (hG : GoodWrapper E.wrapper) {rootH h : Nat}
    {st : StoreState} {k m : Bytes} (hr : Rep E rootH st.db h k m) (l : Int) :
    getChunk E k h rootH l st = .ok m := by
  obtain ⟨ks0, ms0, hwalk, hf0, hflat0⟩ :=
    walkDown_rep hG (List.Forall₂.cons hr List.Forall₂.nil)
  simp only [getChunk, hwalk]
  rw [joinLeaves_rep hG hf0, hflat0]
  simp

/-! ### The put-loop invariant -/

/-- Concatenated contents of the per-level buffers from level `J` down to
level 1 (higher levels hold earlier content). -/
def catDown (cts : Nat → List Bytes) : Nat → Bytes
  | 0 => []
  | t + 1 => (cts (t + 1)).flatten ++ catDown cts t

/-- The buffer at each level `t + 1` holds digests representing the contents
`cts (t + 1)` at height `t`. -/
def BufsRep (E : Engine) (rootH : Nat) (db : List (Bytes × Bytes)) (h : Nat)
    (bufs cts : Nat → List Bytes) : Prop :=
  ∀ t, t + 1 ≤ h → List.Forall₂ (Rep E rootH db t) (bufs (t + 1)) (cts (t + 1))

/-- Validity of a chunker boundary stream (spec §4.3): monotone positions
within the content and levels below the tree height. -/
def ValidBounds (m : Bytes) (h : Nat) (bs : List (Nat × Nat)) : Prop :=
  List.Pairwise (fun a b : Nat × Nat => a.1 ≤ b.1) bs ∧
    ∀ x ∈ bs, x.1 ≤ m.length ∧ x.2 + 1 ≤ h

theorem chain'_of_pairwise {α : Type} {R : α → α → Prop} :
    ∀ {l : List α}, List.Pairwise R l → List.Chain' R l := by
  intro l h
  induction l with
  | nil => trivial
  | cons a t ih =>
    cases t with
    | nil => simp
    | cons b u =>
      rw [List.chain'_cons]
      exact ⟨(List.pairwise_cons.mp h).1 b (by simp), ih (List.pairwise_cons.mp h).2⟩

theorem catDown_congr (cts cts' : Nat → List Bytes) :
    ∀ J, (∀ j, 1 ≤ j → j ≤ J → cts j = cts' j) → catDown cts J = catDown cts' J := by
  intro J
  induction J with
  | zero => intro _; rfl
  | succ t ih =>
    intro hj
    show (cts (t + 1)).flatten ++ catDown cts t = (cts' (t + 1)).flatten ++ catDown cts' t
    rw [hj (t + 1) (by omega) le_rfl, ih (fun j h1 h2 => hj j h1 (by omega))]

theorem catDown_empty {cts : Nat → List Bytes} :
    ∀ J, (∀ j, 1 ≤ j → j ≤ J → cts j = []) → catDown cts J = [] := by
  intro J
  induction J with
  | zero => intro _; rfl
  | succ t ih =>
    intro hj
    show (cts (t + 1)).flatten ++ catDown cts t = []
    rw [hj (t + 1) (by omega) le_rfl, ih (fun j h1 h2 => hj j h1 (by omega))]
    rfl

theorem catDown_top {cts : Nat → List Bytes} :
    ∀ J, (∀ j, 1 ≤ j → j + 1 ≤ J → cts j = []) → 1 ≤ J →
      catDown cts J = (cts J).flatten := by
  intro J
  cases J with
  | zero => intro _ hJ; omega
  | succ t =>
    intro hj _
    show (cts (t + 1)).flatten ++ catDown cts t = (cts (t + 1)).flatten
    rw [catDown_empty t (fun j h1 h2 => hj j h1 (by omega))]
    simp

theorem catDown_push1 {cts : Nat → List Bytes} {s : Bytes} :
    ∀ J, 1 ≤ J → catDown (pushBuf cts 1 s) J = catDown cts J ++ s := by
  intro J
  induction J with
  | zero => omega
  | succ t ih =>
    intro _
    cases t with
    | zero => simp [catDown, pushBuf]
    | succ t' =>
      have hne : t' + 1 + 1 ≠ 1 := by omega
      show (pushBuf cts 1 s (t' + 1 + 1)).flatten ++ catDown (pushBuf cts 1 s) (t' + 1) =
        ((cts (t' + 1 + 1)).flatten ++ catDown cts (t' + 1)) ++ s
      rw [show pushBuf cts 1 s (t' + 1 + 1) = cts (t' + 1 + 1) from by simp [pushBuf, hne],
        ih (by omega), List.append_assoc]

theorem catDown_shift {cts : Nat → List Bytes} {t' : Nat} :
    ∀ J, t' + 2 ≤ J →
      catDown (shiftBuf cts (t' + 1) ((cts (t' + 1)).flatten)) J = catDown cts J := by
  intro J
  induction J with
  | zero => omega
  | succ J ih =>
    intro hJ
    cases Nat.eq_or_lt_of_le hJ with
    | inl hbase =>
      have hJ2 : J = t' + 1 := by omega
      subst hJ2
      have h1 : shiftBuf cts (t' + 1) ((cts (t' + 1)).flatten) (t' + 1 + 1) =
          cts (t' + 1 + 1) ++ [(cts (t' + 1)).flatten] := by
        simp [shiftBuf]
      have h2 : shiftBuf cts (t' + 1) ((cts (t' + 1)).flatten) (t' + 1) = [] := by
        simp [shiftBuf]
      show (shiftBuf cts (t' + 1) ((cts (t' + 1)).flatten) (t' + 1 + 1)).flatten ++
          ((shiftBuf cts (t' + 1) ((cts (t' + 1)).flatten) (t' + 1)).flatten ++
            catDown (shiftBuf cts (t' + 1) ((cts (t' + 1)).flatten)) t') =
        (cts (t' + 1 + 1)).flatten ++ ((cts (t' + 1)).flatten ++ catDown cts t')
      rw [h1, h2, catDown_congr _ cts t' (fun j hj1 hj2 => by
        have hne1 : j ≠ t' + 1 := by omega
        have hne2 : j ≠ t' + 1 + 1 := by omega
        simp [shiftBuf, hne1, hne2])]
      simp [List.append_assoc]
    | inr hstep =>
      have hJ' : t' + 2 ≤ J := by omega
      have hne1 : J + 1 ≠ t' + 1 := by omega
      have hne2 : J + 1 ≠ t' + 1 + 1 := by omega
      show (shiftBuf cts (t' + 1) ((cts (t' + 1)).flatten) (J + 1)).flatten ++
          catDown (shiftBuf cts (t' + 1) ((cts (t' + 1)).flatten)) J =
        (cts (J + 1)).flatten ++ catDown cts J
      rw [ih hJ', show shiftBuf cts (t' + 1) ((cts (t' + 1)).flatten) (J + 1) = cts (J + 1)
        from by simp [shiftBuf, hne1, hne2]]

/-- Correctness of the inner loop of `_put_chunk`: processing heights
`t, …, t+n-1` preserves the buffer representation and the concatenated
content, clears the processed levels, and touches no other level. -/
theorem riseStore_rep {E : Engine} (hG : GoodWrapper E.wrapper) {h rootH : Nat} :
    ∀ (n t : Nat) (bufs cts : Nat → List Bytes) (st : StoreState)
      (bufs' : Nat → List Bytes) (st' : StoreState),
      1 ≤ t → t + n ≤ h →
      BufsRep E rootH st.db h bufs cts →
      riseStore E h rootH (List.range' t n) bufs st = .ok (bufs', st') →
      ∃ cts', BufsRep E rootH st'.db h bufs' cts' ∧
        DbExtends E st.db st'.db ∧
        catDown cts' h = catDown cts h ∧
        (∀ j, j < t ∨ t + n < j → bufs' j = bufs j ∧ cts' j = cts j) ∧
        (∀ j, t ≤ j → j < t + n → bufs' j = [] ∧ cts' j = []) := by
  intro n
  induction n with
  | zero =>
    intro t bufs cts st bufs' st' _ _ hrep hrise
    simp only [List.range', riseStore, Except.ok.injEq, Prod.mk.injEq] at hrise
    obtain ⟨h1, h2⟩ := hrise
    subst h1 h2
    exact ⟨cts, hrep, DbExtends.rfl _, rfl, fun j _ => ⟨rfl, rfl⟩, fun j hj1 hj2 => by omega⟩
  | succ n ih =>
    intro t bufs cts st bufs' st' ht hth hrep hrise
    rw [List.range'_succ] at hrise
    simp only [riseStore] at hrise
    cases hstore : storeNode E (.super (bufs t)) t rootH st with
    | error e => rw [hstore] at hrise; simp at hrise
    | ok res =>
      obtain ⟨⟨k, bnew⟩, st₀⟩ := res
      rw [hstore] at hrise
      have hguard : t + 1 ≤ h := by omega
      simp only [hguard, if_true] at hrise
      obtain ⟨t₀, rfl⟩ : ∃ t₀, t = t₀ + 1 := ⟨t - 1, by omega⟩
      have hf : List.Forall₂ (Rep E rootH st.db t₀) (bufs (t₀ + 1)) (cts (t₀ + 1)) :=
        hrep t₀ (by omega)
      have hlen : (bufs (t₀ + 1)).length = (cts (t₀ + 1)).length := hf.length_eq
      have hfst : ((bufs (t₀ + 1)).zip (cts (t₀ + 1))).map Prod.fst = bufs (t₀ + 1) :=
        List.map_fst_zip _ _ (by omega)
      have hsnd : ((bufs (t₀ + 1)).zip (cts (t₀ + 1))).map Prod.snd = cts (t₀ + 1) :=
        List.map_snd_zip _ _ (by omega)
      have hch : ∀ pc ∈ (bufs (t₀ + 1)).zip (cts (t₀ + 1)),
          Rep E rootH st.db t₀ pc.1 pc.2 := by
        intro pc hpc
        obtain ⟨a, b⟩ := pc
        exact List.forall₂_zip hf hpc
      have hstore' : storeNode E
          (.super (((bufs (t₀ + 1)).zip (cts (t₀ + 1))).map Prod.fst)) (t₀ + 1) rootH st =
          .ok ((k, bnew), st₀) := by
        rw [hfst]
        exact hstore
      have hrepk : Rep E rootH st₀.db (t₀ + 1) k ((cts (t₀ + 1)).flatten) := by
        have := storeNode_rep_super hG hstore' hch
        rwa [hsnd] at this
      have hext₀ : DbExtends E st.db st₀.db := storeNode_extends hG hstore
      have hrep₁ : BufsRep E rootH st₀.db h
          (shiftBuf bufs (t₀ + 1) k) (shiftBuf cts (t₀ + 1) ((cts (t₀ + 1)).flatten)) := by
        intro j hj
        by_cases hjt : j + 1 = t₀ + 1
        · have hj0 : j = t₀ := by omega
          subst hj0
          rw [show shiftBuf bufs (j + 1) k (j + 1) = [] from by simp [shiftBuf],
            show shiftBuf cts (j + 1) ((cts (j + 1)).flatten) (j + 1) = [] from by
              simp [shiftBuf]]
          exact List.Forall₂.nil
        · by_cases hjt1 : j + 1 = t₀ + 1 + 1
          · have hj0 : j = t₀ + 1 := by omega
            subst hj0
            rw [show shiftBuf bufs (t₀ + 1) k (t₀ + 1 + 1) = bufs (t₀ + 1 + 1) ++ [k] from by
                simp [shiftBuf],
              show shiftBuf cts (t₀ + 1) ((cts (t₀ + 1)).flatten) (t₀ + 1 + 1) =
                cts (t₀ + 1 + 1) ++ [(cts (t₀ + 1)).flatten] from by simp [shiftBuf]]
            refine List.rel_append ?_ (List.Forall₂.cons hrepk List.Forall₂.nil)
            exact (hrep (t₀ + 1) hj).imp (fun a b hab => Rep.extends hext₀ hab)
          · rw [show shiftBuf bufs (t₀ + 1) k (j + 1) = bufs (j + 1) from by
                simp [shiftBuf, hjt, hjt1],
              show shiftBuf cts (t₀ + 1) ((cts (t₀ + 1)).flatten) (j + 1) = cts (j + 1)
                from by simp [shiftBuf, hjt, hjt1]]
            exact (hrep j hj).imp (fun a b hab => Rep.extends hext₀ hab)
      obtain ⟨cts₂, hrep₂, hext₂, hcat₂, hframe₂, hclear₂⟩ :=
        ih (t₀ + 1 + 1) (shiftBuf bufs (t₀ + 1) k)
          (shiftBuf cts (t₀ + 1) ((cts (t₀ + 1)).flatten)) st₀ bufs' st'
          (by omega) (by omega) hrep₁ hrise
      refine ⟨cts₂, hrep₂, hext₀.comp hext₂, ?_, ?_, ?_⟩
      · rw [hcat₂]
        exact catDown_shift h (by omega)
      · intro j hj
        have hj1 : j < t₀ + 1 + 1 ∨ t₀ + 1 + 1 + n < j := by omega
        obtain ⟨hb, hc⟩ := hframe₂ j hj1
        have hne1 : j ≠ t₀ + 1 := by omega
        have hne2 : j ≠ t₀ + 1 + 1 := by omega
        rw [hb, hc]
        constructor
        · simp [shiftBuf, hne1, hne2]
        · simp [shiftBuf, hne1, hne2]
      · intro j hj1 hj2
        by_cases hjt : j = t₀ + 1
        · subst hjt
          obtain ⟨hb, hc⟩ := hframe₂ (t₀ + 1) (by omega)
          rw [hb, hc]
          constructor
          · simp [shiftBuf]
          · simp [shiftBuf]
        · exact hclear₂ j (by omega) (by omega)

/-- Correctness of the outer loop of `_put_chunk` over consecutive boundary
pairs: the buffers represent the processed prefix of the content, and the
final boundary's level determines the cleared levels. -/
theorem putLoop_rep {E : Engine} (hG : GoodWrapper E.wrapper) {m : Bytes}
    {h rootH : Nat} (hh : 1 ≤ h) :
    ∀ (bs : List (Nat × Nat)) (b₀ : Nat × Nat) (bufs cts : Nat → List Bytes)
      (st : StoreState) (bufs' : Nat → List Bytes) (st' : StoreState),
      (∀ x ∈ bs, x.1 ≤ m.length ∧ x.2 + 1 ≤ h) →
      List.Chain' (fun a b : Nat × Nat => a.1 ≤ b.1) (b₀ :: bs) →
      b₀.1 ≤ m.length →
      BufsRep E rootH st.db h bufs cts →
      catDown cts h = m.take b₀.1 →
      putLoop E m h rootH ((b₀ :: bs).zip bs) bufs st = .ok (bufs', st') →
      ∃ cts', BufsRep E rootH st'.db h bufs' cts' ∧
        DbExtends E st.db st'.db ∧
        catDown cts' h = m.take (((b₀ :: bs).getLast (List.cons_ne_nil b₀ bs)).1) ∧
        (∀ x, bs.getLast? = some x → ∀ j, 1 ≤ j → j ≤ x.2 → bufs' j = [] ∧ cts' j = []) ∧
        (bs = [] → bufs' = bufs ∧ cts' = cts ∧ st' = st) := by
  intro bs
  induction bs with
  | nil =>
    intro b₀ bufs cts st bufs' st' _ _ _ hrep hcat hloop
    simp only [List.zip_nil_right, putLoop, Except.ok.injEq, Prod.mk.injEq] at hloop
    obtain ⟨h1, h2⟩ := hloop
    subst h1 h2
    refine ⟨cts, hrep, DbExtends.rfl _, ?_, ?_, fun _ => ⟨rfl, rfl, rfl⟩⟩
    · simpa using hcat
    · intro x hx
      simp at hx
  | cons c bs' ih =>
    intro b₀ bufs cts st bufs' st' hmem hchain hb0 hrep hcat hloop
    obtain ⟨p0, l0⟩ := b₀
    obtain ⟨p1, l1⟩ := c
    have hzip : ((p0, l0) :: (p1, l1) :: bs').zip ((p1, l1) :: bs') =
        ((p0, l0), (p1, l1)) :: ((p1, l1) :: bs').zip bs' := rfl
    rw [hzip] at hloop
    simp only [putLoop] at hloop
    cases hstore : storeNode E (.leaf ((m.drop p0).take (p1 - p0))) 0 rootH st with
    | error e => rw [hstore] at hloop; simp at hloop
    | ok res =>
      obtain ⟨⟨k0, bnew⟩, st₀⟩ := res
      rw [hstore] at hloop
      simp only [hh, if_true] at hloop
      cases hrise : riseStore E h rootH (List.range' 1 l1) (pushBuf bufs 1 k0) st₀ with
      | error e => rw [hrise] at hloop; simp at hloop
      | ok res₁ =>
        obtain ⟨bufs₁, st₁⟩ := res₁
        rw [hrise] at hloop
        simp only at hloop
        -- the stored leaf represents the slice
        have hrepk0 : Rep E rootH st₀.db 0 k0 ((m.drop p0).take (p1 - p0)) :=
          storeNode_rep_leaf hG hstore
        have hext₀ : DbExtends E st.db st₀.db := storeNode_extends hG hstore
        have hp01 : p0 ≤ p1 := (List.chain'_cons.mp hchain).1
        -- buffers after the leaf push
        have hrep₁ : BufsRep E rootH st₀.db h (pushBuf bufs 1 k0)
            (pushBuf cts 1 ((m.drop p0).take (p1 - p0))) := by
          intro j hj
          by_cases hj1 : j + 1 = 1
          · have hj0 : j = 0 := by omega
            subst hj0
            rw [show pushBuf bufs 1 k0 1 = bufs 1 ++ [k0] from by simp [pushBuf],
              show pushBuf cts 1 ((m.drop p0).take (p1 - p0)) 1 =
                cts 1 ++ [(m.drop p0).take (p1 - p0)] from by simp [pushBuf]]
            exact List.rel_append
              ((hrep 0 hj).imp (fun a b hab => Rep.extends hext₀ hab))
              (List.Forall₂.cons hrepk0 List.Forall₂.nil)
          · rw [show pushBuf bufs 1 k0 (j + 1) = bufs (j + 1) from by simp [pushBuf, hj1],
              show pushBuf cts 1 ((m.drop p0).take (p1 - p0)) (j + 1) = cts (j + 1) from by
                simp [pushBuf, hj1]]
            exact (hrep j hj).imp (fun a b hab => Rep.extends hext₀ hab)
        have hcat₁ : catDown (pushBuf cts 1 ((m.drop p0).take (p1 - p0))) h = m.take p1 := by
          rw [catDown_push1 h hh, hcat, ← List.take_add,
            show p0 + (p1 - p0) = p1 from by omega]
        -- the rise up to the boundary's level
        obtain ⟨cts₂, hrep₂, hext₂, hcat₂, hframe₂, hclear₂⟩ :=
          riseStore_rep hG l1 1 (pushBuf bufs 1 k0)
            (pushBuf cts 1 ((m.drop p0).take (p1 - p0))) st₀ bufs₁ st₁ le_rfl
            (by have := (hmem (p1, l1) (by simp)).2; omega) hrep₁ hrise
        rw [hcat₁] at hcat₂
        -- the recursive call
        obtain ⟨cts₃, hrep₃, hext₃, hcat₃, hclear₃, hbase₃⟩ :=
          ih (p1, l1) bufs₁ cts₂ st₁ bufs' st'
            (fun x hx => hmem x (by simp [hx]))
            (List.chain'_cons.mp hchain).2
            (hmem (p1, l1) (by simp)).1
            hrep₂ hcat₂ hloop
        refine ⟨cts₃, hrep₃, (hext₀.comp hext₂).comp hext₃, ?_, ?_, ?_⟩
        · rw [hcat₃]
          rw [List.getLast_cons (List.cons_ne_nil (p1, l1) bs')]
        · intro x hx j hj1 hj2
          cases bs' with
          | nil =>
            simp only [List.getLast?_singleton, Option.some.injEq] at hx
            subst hx
            obtain ⟨hb1, hb2, hb3⟩ := hbase₃ rfl
            rw [hb1, hb2]
            exact hclear₂ j hj1 (by omega)
          | cons d bs'' =>
            rw [List.getLast?_cons_cons] at hx
            exact hclear₃ x hx j hj1 hj2
        · intro hfalse
          exact absurd hfalse (by simp)

theorem getLast_eq_of_getLast? {α : Type} (l : List α) (x : α) (hne : l ≠ [])
    (h : l.getLast? = some x) : l.getLast hne = x := by
  rw [List.getLast?_eq_getLast l hne] at h
  exact Option.some_inj.mp h

/-- Shape and validity of the prepared boundary list of `_put_chunk`: it
starts at position 0, stays within the content with levels below `h`, has
monotone positions, and ends at `(len m, h-1)`. -/
theorem boundsFor_props {E : Engine} {m : Bytes} {h : Nat} (hh : 1 ≤ h)
    (hv : ValidBounds m h (E.chunker h m)) :
    ∃ b₀ rest, boundsFor E m h = b₀ :: rest ∧ b₀.1 = 0 ∧
      (∀ x ∈ rest, x.1 ≤ m.length ∧ x.2 + 1 ≤ h) ∧
      List.Chain' (fun a b : Nat × Nat => a.1 ≤ b.1) (b₀ :: rest) ∧
      ((b₀ :: rest).getLast (List.cons_ne_nil b₀ rest)).1 = m.length ∧
      (∀ x, rest.getLast? = some x → x = (m.length, h - 1)) := by
  obtain ⟨hpw, hmem⟩ := hv
  have hpw0 : List.Pairwise (fun a b : Nat × Nat => a.1 ≤ b.1)
      ((0, h - 1) :: E.chunker h m) := by
    rw [List.pairwise_cons]
    exact ⟨fun y _ => Nat.zero_le _, hpw⟩
  have hgl : ((0, h - 1) :: E.chunker h m).getLast? =
      some (((0, h - 1) :: E.chunker h m).getLast (List.cons_ne_nil _ _)) :=
    List.getLast?_eq_getLast _ _
  simp only [boundsFor, hgl]
  by_cases hpop : (((0, h - 1) :: E.chunker h m).getLast (List.cons_ne_nil _ _)).1 =
      m.length
  · rw [if_pos hpop]
    cases hc : E.chunker h m with
    | nil =>
      rw [hc] at hpop
      have hlen0 : m.length = 0 := by
        simpa using hpop.symm
      refine ⟨(m.length, h - 1), [], by simp, by omega, by simp, by simp, by simp, ?_⟩
      intro x hx
      simp at hx
    | cons y ys =>
      have hdl : ((0, h - 1) :: y :: ys).dropLast = (0, h - 1) :: (y :: ys).dropLast := by
        simp
      rw [hdl]
      refine ⟨(0, h - 1), (y :: ys).dropLast ++ [(m.length, h - 1)], by simp, rfl,
        ?_, ?_, ?_, ?_⟩
      · intro x hx
        rcases List.mem_append.mp hx with hx1 | hx2
        · have : x ∈ E.chunker h m := by
            rw [hc]
            exact (List.dropLast_sublist (y :: ys)).subset hx1
          exact hmem x this
        · have : x = (m.length, h - 1) := by simpa using hx2
          subst this
          exact ⟨le_rfl, by omega⟩
      · apply chain'_of_pairwise
        rw [show (0, h - 1) :: ((y :: ys).dropLast ++ [(m.length, h - 1)]) =
          ((0, h - 1) :: (y :: ys).dropLast) ++ [(m.length, h - 1)] from rfl]
        rw [List.pairwise_append]
        refine ⟨?_, by simp, ?_⟩
        · refine List.Pairwise.sublist ?_ hpw0
          rw [hc]
          exact List.Sublist.cons₂ _ (List.dropLast_sublist (y :: ys))
        · intro a ha b hb
          have hb' : b = (m.length, h - 1) := by simpa using hb
          subst hb'
          rcases List.mem_cons.mp ha with ha1 | ha2
          · subst ha1
            exact Nat.zero_le _
          · have : a ∈ E.chunker h m := by
              rw [hc]
              exact (List.dropLast_sublist (y :: ys)).subset ha2
            exact (hmem a this).1
      · rw [getLast_eq_of_getLast? _ (m.length, h - 1) _ (by
          rw [show (0, h - 1) :: ((y :: ys).dropLast ++ [(m.length, h - 1)]) =
            ((0, h - 1) :: (y :: ys).dropLast) ++ [(m.length, h - 1)] from rfl]
          exact List.getLast?_concat _)]
      · intro x hx
        rw [List.getLast?_concat] at hx
        exact (Option.some_inj.mp hx).symm
  · rw [if_neg hpop]
    refine ⟨(0, h - 1), E.chunker h m ++ [(m.length, h - 1)], by simp, rfl, ?_, ?_, ?_, ?_⟩
    · intro x hx
      rcases List.mem_append.mp hx with hx1 | hx2
      · exact hmem x hx1
      · have : x = (m.length, h - 1) := by simpa using hx2
        subst this
        exact ⟨le_rfl, by omega⟩
    · apply chain'_of_pairwise
      rw [show (0, h - 1) :: (E.chunker h m ++ [(m.length, h - 1)]) =
        ((0, h - 1) :: E.chunker h m) ++ [(m.length, h - 1)] from rfl]
      rw [List.pairwise_append]
      refine ⟨hpw0, by simp, ?_⟩
      intro a ha b hb
      have hb' : b = (m.length, h - 1) := by simpa using hb
      subst hb'
      rcases List.mem_cons.mp ha with ha1 | ha2
      · subst ha1
        exact Nat.zero_le _
      · exact (hmem a ha2).1
    · rw [getLast_eq_of_getLast? _ (m.length, h - 1) _ (by
        rw [show (0, h - 1) :: (E.chunker h m ++ [(m.length, h - 1)]) =
          ((0, h - 1) :: E.chunker h m) ++ [(m.length, h - 1)] from rfl]
        exact List.getLast?_concat _)]
    · intro x hx
      rw [List.getLast?_concat] at hx
      exact (Option.some_inj.mp hx).symm

/-- `_put_chunk` builds a tree represented in the resulting backend, whose
content is exactly the input, while only extending the backend. -/
theorem putChunk_rep {E : Engine} (hG : GoodWrapper E.wrapper) {m : Bytes} {h : Nat}
    {st st' : StoreState} {k : Bytes} {bfin : Bool}
    (hv : 1 ≤ h → ValidBounds m h (E.chunker h m))
    (hp : putChunk E m h h st = .ok ((k, bfin), st')) :
    Rep E h st'.db h k m ∧ DbExtends E st.db st'.db := by
  by_cases hh : h = 0
  · subst hh
    simp only [putChunk, if_pos rfl] at hp
    exact ⟨storeNode_rep_leaf hG hp, storeNode_extends hG hp⟩
  · have hh1 : 1 ≤ h := by omega
    obtain ⟨b₀, rest, hbl, hb0, hmem, hchain, hlast, hrestlast⟩ :=
      boundsFor_props hh1 (hv hh1)
    simp only [putChunk, if_neg hh, hbl] at hp
    cases hloop : putLoop E m h h ((b₀ :: rest).zip rest) (fun _ => []) st with
    | error e =>
      rw [show (b₀ :: rest).tail = rest from rfl] at hp
      rw [hloop] at hp
      simp at hp
    | ok res =>
      obtain ⟨bufsL, stL⟩ := res
      rw [show (b₀ :: rest).tail = rest from rfl, hloop] at hp
      simp only at hp
      -- run the loop lemma from the empty buffers
      obtain ⟨ctsL, hrepL, hextL, hcatL, hclearL, hbaseL⟩ :=
        putLoop_rep hG hh1 rest b₀ (fun _ => []) (fun _ => []) st bufsL stL hmem hchain
          (hb0 ▸ Nat.zero_le _)
          (fun t _ => List.Forall₂.nil)
          (by rw [catDown_empty h (fun j _ _ => rfl), hb0]; simp)
          hloop
      rw [hlast, List.take_length m] at hcatL
      -- at loop end the top buffer carries the whole content
      have htop : (ctsL h).flatten = m := by
        cases hrest : rest with
        | nil =>
          obtain ⟨hbb, hcc, hss⟩ := hbaseL hrest
          subst hcc
          rw [← hcatL, catDown_top h (fun j _ _ => rfl) hh1]
        | cons rr rt =>
          have hne : rest ≠ [] := by rw [hrest]; simp
          have hsome : rest.getLast? = some (rest.getLast hne) :=
            List.getLast?_eq_getLast _ _
          have hx := hrestlast _ hsome
          have hsome' : rest.getLast? = some (m.length, h - 1) := by rw [hsome, hx]
          have hcl : ∀ j, 1 ≤ j → j + 1 ≤ h → ctsL j = [] := fun j hj1 hj2 =>
            (hclearL (m.length, h - 1) hsome' j hj1 (show j ≤ h - 1 by omega)).2
          rw [← hcatL, catDown_top h hcl hh1]
      -- the root store
      obtain ⟨h₀, rfl⟩ : ∃ h₀, h = h₀ + 1 := ⟨h - 1, by omega⟩
      have hfL : List.Forall₂ (Rep E (h₀ + 1) stL.db h₀) (bufsL (h₀ + 1)) (ctsL (h₀ + 1)) :=
        hrepL h₀ le_rfl
      have hlenL : (bufsL (h₀ + 1)).length = (ctsL (h₀ + 1)).length := hfL.length_eq
      have hfst : ((bufsL (h₀ + 1)).zip (ctsL (h₀ + 1))).map Prod.fst = bufsL (h₀ + 1) :=
        List.map_fst_zip _ _ (by omega)
      have hsnd : ((bufsL (h₀ + 1)).zip (ctsL (h₀ + 1))).map Prod.snd = ctsL (h₀ + 1) :=
        List.map_snd_zip _ _ (by omega)
      have hch : ∀ pc ∈ (bufsL (h₀ + 1)).zip (ctsL (h₀ + 1)),
          Rep E (h₀ + 1) stL.db h₀ pc.1 pc.2 := by
        intro pc hpc
        obtain ⟨a, b⟩ := pc
        exact List.forall₂_zip hfL hpc
      have hp' : storeNode E
          (.super (((bufsL (h₀ + 1)).zip (ctsL (h₀ + 1))).map Prod.fst)) (h₀ + 1) (h₀ + 1)
          stL = .ok ((k, bfin), st') := by
        rw [hfst]
        exact hp
      have hrepRoot := storeNode_rep_super hG hp' hch
      rw [hsnd, htop] at hrepRoot
      exact ⟨hrepRoot, hextL.comp (storeNode_extends hG hp)⟩

/-! ### Claim C1 -/

/-- C1 is refuted by this counterexample: with the leaf-padding wrapper
variant (one of the specified wrappers) and target chunk size 4 ≥ 2R, the
one-byte content `[1]` does not round-trip: `get_content` passes length `-1`
to every unwrap, so the zero padding of the single leaf is never stripped. -/
theorem c1_leaf_padding_counterexample :
    (do
      let r ← putContent lpEngine [1] false ⟨[], []⟩
      getContent lpEngine r.1 r.2) ≠ .ok [1] := by
  decide

/-- C1 (amended): for every engine whose wrapper satisfies the contract of the
specified crypto wrappers other than the leaf-padding variant (round-trip,
soundness, collision-free digests of fixed width), every chunker stream valid
for the content, and every content shorter than 2^64 bytes, a completed
`put_content` followed by `get_content` on the returned handle yields exactly
the original content, from any starting state. -/
theorem c1_round_trip (E : Engine) (hG : GoodWrapper E.wrapper) (m : Bytes)
    (hlen : m.length < 2 ^ 64)
    (hb : 1 ≤ E.lengthToHeight m.length →
      ValidBounds m (E.lengthToHeight m.length)
        (E.chunker (E.lengthToHeight m.length) m))
    (ig : Bool) (st st' : StoreState) (hdl : Bytes) (b : Bool)
    (hput : putContentAndCheck E m ig st = .ok ((hdl, b), st')) :
    getContent E hdl st' = .ok m := by
  simp only [putContentAndCheck] at hput
  cases hp : putChunk E m (E.lengthToHeight m.length) (E.lengthToHeight m.length) st with
  | error e => rw [hp] at hput; simp at hput
  | ok res =>
    obtain ⟨⟨k, isNew⟩, st₁⟩ := res
    rw [hp] at hput
    simp only [Except.ok.injEq, Prod.mk.injEq] at hput
    obtain ⟨⟨hhdl, hb'⟩, hst'⟩ := hput
    obtain ⟨hrep, -⟩ := putChunk_rep hG hb hp
    have hdb : st'.db = st₁.db := by
      rw [← hst']
      cases ig <;> rfl
    have hklen : k.length = E.wrapper.digestSize := rep_key_length hG hrep
    have hpk : packBytes E.wrapper.digestSize k = k :=
      packBytes_of_length _ _ hklen
    rw [← hhdl]
    simp only [getContent, unpackHandle_pack, Nat.mod_eq_of_lt hlen]
    rw [hpk]
    have hrep' : Rep E (E.lengthToHeight m.length) st'.db (E.lengthToHeight m.length) k m := by
      rw [hdb]
      exact hrep
    exact getChunk_rep hG hrep' (Int.ofNat m.length)

/-- Witness for C1 (amended) on the concrete engine, content `[1, 2, 3]`
(a two-leaf tree of height 1), starting from the empty state. -/
theorem c1_round_trip_witness :
    (match putContentAndCheck testEngine [1, 2, 3] false ⟨[], []⟩ with
      | .ok r => getContent testEngine r.1.1 r.2 = .ok [1, 2, 3]
      | .error _ => False) := by
  rcases hE : putContentAndCheck testEngine [1, 2, 3] false ⟨[], []⟩ with u | r
  · cases u
    exact absurd hE (by decide)
  · simp only
    exact c1_round_trip testEngine hmacDRModel_good [1, 2, 3] (by norm_num)
      (fun _ => ⟨by decide, by decide⟩) false ⟨[], []⟩ r.2 r.1.1 r.1.2 hE

/-! ### Determinism and dedup of repeated insertions -/

theorem riseStore_extends {E : Engine} (hG : GoodWrapper E.wrapper) {h rootH : Nat} :
    ∀ (ts : List Nat) (bufs : Nat → List Bytes) (st : StoreState)
      (bufs' : Nat → List Bytes) (st' : StoreState),
      riseStore E h rootH ts bufs st = .ok (bufs', st') → DbExtends E st.db st'.db := by
  intro ts
  induction ts with
  | nil =>
    intro bufs st bufs' st' hr
    simp only [riseStore, Except.ok.injEq, Prod.mk.injEq] at hr
    rw [← hr.2]
    exact DbExtends.rfl _
  | cons t ts ih =>
    intro bufs st bufs' st' hr
    simp only [riseStore] at hr
    cases hstore : storeNode E (.super (bufs t)) t rootH st with
    | error e => rw [hstore] at hr; simp at hr
    | ok res =>
      obtain ⟨⟨k, b⟩, st₀⟩ := res
      rw [hstore] at hr
      by_cases hg : t + 1 ≤ h
      · simp only [hg, if_true] at hr
        exact (storeNode_extends hG hstore).comp (ih _ _ _ _ hr)
      · simp only [hg, if_false] at hr
        simp at hr

theorem putLoop_extends {E : Engine} (hG : GoodWrapper E.wrapper) {m : Bytes}
    {h rootH : Nat} :
    ∀ (ps : List ((Nat × Nat) × (Nat × Nat))) (bufs : Nat → List Bytes)
      (st : StoreState) (bufs' : Nat → List Bytes) (st' : StoreState),
      putLoop E m h rootH ps bufs st = .ok (bufs', st') → DbExtends E st.db st'.db := by
  intro ps
  induction ps with
  | nil =>
    intro bufs st bufs' st' hr
    simp only [putLoop, Except.ok.injEq, Prod.mk.injEq] at hr
    rw [← hr.2]
    exact DbExtends.rfl _
  | cons pr ps ih =>
    intro bufs st bufs' st' hr
    obtain ⟨⟨s0, l0⟩, ⟨e0, bh0⟩⟩ := pr
    simp only [putLoop] at hr
    cases hstore : storeNode E (.leaf ((m.drop s0).take (e0 - s0))) 0 rootH st with
    | error e => rw [hstore] at hr; simp at hr
    | ok res =>
      obtain ⟨⟨k, b⟩, st₀⟩ := res
      rw [hstore] at hr
      by_cases hg : 1 ≤ h
      · simp only [hg, if_true] at hr
        cases hrise : riseStore E h rootH (List.range' 1 bh0) (pushBuf bufs 1 k) st₀ with
        | error e => rw [hrise] at hr; simp at hr
        | ok res₁ =>
          obtain ⟨bufs₁, st₁⟩ := res₁
          rw [hrise] at hr
          simp only at hr
          exact ((storeNode_extends hG hstore).comp
            (riseStore_extends hG _ _ _ _ _ hrise)).comp (ih _ _ _ _ hr)
      · simp only [hg, if_false] at hr
        simp at hr

theorem riseStore_bufs_det {E : Engine} {h rootH : Nat} :
    ∀ (ts : List Nat) (bufs : Nat → List Bytes) (st₁ st₂ : StoreState)
      (b₁ : Nat → List Bytes) (s₁ : StoreState) (b₂ : Nat → List Bytes) (s₂ : StoreState),
      riseStore E h rootH ts bufs st₁ = .ok (b₁, s₁) →
      riseStore E h rootH ts bufs st₂ = .ok (b₂, s₂) → b₁ = b₂ := by
  intro ts
  induction ts with
  | nil =>
    intro bufs st₁ st₂ b₁ s₁ b₂ s₂ h₁ h₂
    simp only [riseStore, Except.ok.injEq, Prod.mk.injEq] at h₁ h₂
    rw [← h₁.1, ← h₂.1]
  | cons t ts ih =>
    intro bufs st₁ st₂ b₁ s₁ b₂ s₂ h₁ h₂
    simp only [riseStore] at h₁ h₂
    cases hs₁ : storeNode E (.super (bufs t)) t rootH st₁ with
    | error e => rw [hs₁] at h₁; simp at h₁
    | ok res₁ =>
      cases hs₂ : storeNode E (.super (bufs t)) t rootH st₂ with
      | error e => rw [hs₂] at h₂; simp at h₂
      | ok res₂ =>
        obtain ⟨⟨k₁, bb₁⟩, st₁'⟩ := res₁
        obtain ⟨⟨k₂, bb₂⟩, st₂'⟩ := res₂
        rw [hs₁] at h₁
        rw [hs₂] at h₂
        have hk : k₁ = k₂ := by
          rw [storeNode_ok_key hs₁, storeNode_ok_key hs₂]
        subst hk
        by_cases hg : t + 1 ≤ h
        · simp only [hg, if_true] at h₁ h₂
          exact ih _ _ _ _ _ _ _ h₁ h₂
        · simp only [hg, if_false] at h₁
          simp at h₁

theorem putLoop_bufs_det {E : Engine} {m : Bytes} {h rootH : Nat} :
    ∀ (ps : List ((Nat × Nat) × (Nat × Nat))) (bufs : Nat → List Bytes)
      (st₁ st₂ : StoreState) (b₁ : Nat → List Bytes) (s₁ : StoreState)
      (b₂ : Nat → List Bytes) (s₂ : StoreState),
      putLoop E m h rootH ps bufs st₁ = .ok (b₁, s₁) →
      putLoop E m h rootH ps bufs st₂ = .ok (b₂, s₂) → b₁ = b₂ := by
  intro ps
  induction ps with
  | nil =>
    intro bufs st₁ st₂ b₁ s₁ b₂ s₂ h₁ h₂
    simp only [putLoop, Except.ok.injEq, Prod.mk.injEq] at h₁ h₂
    rw [← h₁.1, ← h₂.1]
  | cons pr ps ih =>
    intro bufs st₁ st₂ b₁ s₁ b₂ s₂ h₁ h₂
    obtain ⟨⟨s0, l0⟩, ⟨e0, bh0⟩⟩ := pr
    simp only [putLoop] at h₁ h₂
    cases hs₁ : storeNode E (.leaf ((m.drop s0).take (e0 - s0))) 0 rootH st₁ with
    | error e => rw [hs₁] at h₁; simp at h₁
    | ok res₁ =>
      cases hs₂ : storeNode E (.leaf ((m.drop s0).take (e0 - s0))) 0 rootH st₂ with
      | error e => rw [hs₂] at h₂; simp at h₂
      | ok res₂ =>
        obtain ⟨⟨k₁, bb₁⟩, st₁'⟩ := res₁
        obtain ⟨⟨k₂, bb₂⟩, st₂'⟩ := res₂
        rw [hs₁] at h₁
        rw [hs₂] at h₂
        have hk : k₁ = k₂ := by
          rw [storeNode_ok_key hs₁, storeNode_ok_key hs₂]
        subst hk
        by_cases hg : 1 ≤ h
        · simp only [hg, if_true] at h₁ h₂
          cases hr₁ : riseStore E h rootH (List.range' 1 bh0) (pushBuf bufs 1 k₁) st₁' with
          | error e => rw [hr₁] at h₁; simp at h₁
          | ok rr₁ =>
            cases hr₂ : riseStore E h rootH (List.range' 1 bh0) (pushBuf bufs 1 k₁) st₂' with
            | error e => rw [hr₂] at h₂; simp at h₂
            | ok rr₂ =>
              obtain ⟨bufs₁, stA⟩ := rr₁
              obtain ⟨bufs₂, stB⟩ := rr₂
              rw [hr₁] at h₁
              rw [hr₂] at h₂
              simp only at h₁ h₂
              have hb : bufs₁ = bufs₂ := riseStore_bufs_det _ _ _ _ _ _ _ _ hr₁ hr₂
              subst hb
              exact ih _ _ _ _ _ _ _ h₁ h₂
        · simp only [hg, if_false] at h₁
          simp at h₁

/-- A digest represented in the backend makes any `_store_node` computing that
digest take the dedup path, leaving the state unchanged. -/
theorem storeNode_dedup_of_rep {E : Engine} (hG : GoodWrapper E.wrapper)
    {rootH h : Nat} {st : StoreState} {k m : Bytes}
    (hr : Rep E rootH st.db h k m) (v : NodeVal)
    (hk : storeKey E v h rootH = k) :
    storeNode E v h rootH st = .ok ((k, false), st) := by
  have hget : ∃ w, getNode E k h rootH (-1) st = .ok (some w) := by
    cases h with
    | zero => exact ⟨.leaf m, getNode_rep_leaf hG hr (-1)⟩
    | succ h₀ =>
      obtain ⟨pieces, -, -, hgn⟩ := getNode_rep_super hG hr (-1)
      exact ⟨.super (pieces.map Prod.fst), hgn⟩
  obtain ⟨w, hw⟩ := hget
  have hsome : (mapGet st.db k).isSome = true := by
    cases h with
    | zero => rw [hr.2]; rfl
    | succ h₀ =>
      obtain ⟨pieces, -, -, hgn, -⟩ := hr
      rw [hgn]
      rfl
  rw [← hk] at hsome hw
  simp only [storeNode, hsome, hw, if_true]
  rw [hk]

/-- The backend keys written by a run all decode below a height bound. -/
def DbBelow (E : Engine) (H : Nat) (db : List (Bytes × Bytes)) : Prop :=
  ∀ k v, mapGet db k = some v → ∃ p h' r, h' + 1 ≤ H ∧ E.wrapper.wrap p h' r = (v, k)

theorem storeNode_below {E : Engine} {H : Nat} {v : NodeVal} {h rootH : Nat}
    {st st' : StoreState} {res : Bytes × Bool}
    (hh : h + 1 ≤ H) (hbelow : DbBelow E H st.db)
    (hs : storeNode E v h rootH st = .ok (res, st')) : DbBelow E H st'.db := by
  simp only [storeNode] at hs
  split at hs
  · split at hs
    · simp at hs
    · simp only [Except.ok.injEq, Prod.mk.injEq] at hs
      rw [← hs.2]
      exact hbelow
    · simp only [Except.ok.injEq, Prod.mk.injEq] at hs
      rw [← hs.2]
      intro k c hget
      by_cases hk : storeKey E v h rootH = k
      · subst hk
        rw [mapGet_set_self] at hget
        exact ⟨serializeNode E.wrapper.digestSize v, h, (h == rootH), hh, by
          rw [← Option.some_inj.mp hget]
          rfl⟩
      · rw [mapGet_set_other _ _ _ _ hk] at hget
        exact hbelow k c hget
  · simp only [Except.ok.injEq, Prod.mk.injEq] at hs
    rw [← hs.2]
    intro k c hget
    by_cases hk : storeKey E v h rootH = k
    · subst hk
      rw [mapGet_set_self] at hget
      exact ⟨serializeNode E.wrapper.digestSize v, h, (h == rootH), hh, by
        rw [← Option.some_inj.mp hget]
        rfl⟩
    · rw [mapGet_set_other _ _ _ _ hk] at hget
      exact hbelow k c hget

theorem riseStore_below {E : Engine} {h rootH : Nat} :
    ∀ (ts : List Nat) (bufs : Nat → List Bytes) (st : StoreState)
      (bufs' : Nat → List Bytes) (st' : StoreState),
      DbBelow E h st.db →
      riseStore E h rootH ts bufs st = .ok (bufs', st') → DbBelow E h st'.db := by
  intro ts
  induction ts with
  | nil =>
    intro bufs st bufs' st' hbelow hr
    simp only [riseStore, Except.ok.injEq, Prod.mk.injEq] at hr
    rw [← hr.2]
    exact hbelow
  | cons t ts ih =>
    intro bufs st bufs' st' hbelow hr
    simp only [riseStore] at hr
    cases hstore : storeNode E (.super (bufs t)) t rootH st with
    | error e => rw [hstore] at hr; simp at hr
    | ok res =>
      obtain ⟨⟨k, b⟩, st₀⟩ := res
      rw [hstore] at hr
      by_cases hg : t + 1 ≤ h
      · simp only [hg, if_true] at hr
        exact ih _ _ _ _ (storeNode_below hg hbelow hstore) hr
      · simp only [hg, if_false] at hr
        simp at hr

theorem putLoop_below {E : Engine} {m : Bytes} {h rootH : Nat} :
    ∀ (ps : List ((Nat × Nat) × (Nat × Nat))) (bufs : Nat → List Bytes)
      (st : StoreState) (bufs' : Nat → List Bytes) (st' : StoreState),
      DbBelow E h st.db →
      putLoop E m h rootH ps bufs st = .ok (bufs', st') → DbBelow E h st'.db := by
  intro ps
  induction ps with
  | nil =>
    intro bufs st bufs' st' hbelow hr
    simp only [putLoop, Except.ok.injEq, Prod.mk.injEq] at hr
    rw [← hr.2]
    exact hbelow
  | cons pr ps ih =>
    intro bufs st bufs' st' hbelow hr
    obtain ⟨⟨s0, l0⟩, ⟨e0, bh0⟩⟩ := pr
    simp only [putLoop] at hr
    cases hstore : storeNode E (.leaf ((m.drop s0).take (e0 - s0))) 0 rootH st with
    | error e => rw [hstore] at hr; simp at hr
    | ok res =>
      obtain ⟨⟨k, b⟩, st₀⟩ := res
      rw [hstore] at hr
      by_cases hg : 1 ≤ h
      · simp only [hg, if_true] at hr
        cases hrise : riseStore E h rootH (List.range' 1 bh0) (pushBuf bufs 1 k) st₀ with
        | error e => rw [hrise] at hr; simp at hr
        | ok res₁ =>
          obtain ⟨bufs₁, st₁⟩ := res₁
          rw [hrise] at hr
          simp only at hr
          exact ih _ _ _ _ (riseStore_below _ _ _ _ _
            (storeNode_below hg hbelow hstore) hrise) hr
      · simp only [hg, if_false] at hr
        simp at hr

/-- From an empty backend, the root store of `_put_chunk` is always fresh:
the returned `is_new` flag is true. -/
theorem putChunk_first_new {E : Engine} (hG : GoodWrapper E.wrapper) {m : Bytes}
    {h : Nat} {st st' : StoreState} {k : Bytes} {b : Bool} (hdb : st.db = [])
    (hp : putChunk E m h h st = .ok ((k, b), st')) : b = true := by
  by_cases hh : h = 0
  · subst hh
    rw [show putChunk E m 0 0 st = storeNode E (.leaf m) 0 0 st from rfl] at hp
    have hnone : mapGet st.db (storeKey E (.leaf m) 0 0) = none := by
      rw [hdb]
      rfl
    simp only [storeNode, hnone] at hp
    rw [if_neg (by simp)] at hp
    simp only [Except.ok.injEq, Prod.mk.injEq] at hp
    exact hp.1.2.symm
  · simp only [putChunk, if_neg hh] at hp
    cases hloop : putLoop E m h h
        ((boundsFor E m h).zip (boundsFor E m h).tail) (fun _ => []) st with
    | error e => rw [hloop] at hp; simp at hp
    | ok res =>
      obtain ⟨bufsL, stL⟩ := res
      rw [hloop] at hp
      simp only at hp
      have hbelow : DbBelow E h stL.db := by
        refine putLoop_below _ _ _ _ _ ?_ hloop
        rw [hdb]
        intro k v hget
        simp [mapGet] at hget
      -- the root digest cannot occur among lower-height entries
      have hnone : mapGet stL.db (storeKey E (.super (bufsL h)) h h) = none := by
        cases hget : mapGet stL.db (storeKey E (.super (bufsL h)) h h) with
        | none => rfl
        | some v =>
          obtain ⟨p, h', r, hlt, hw⟩ := hbelow _ _ hget
          have hd : (E.wrapper.wrap p h' r).2 =
              (E.wrapper.wrap (serializeNode E.wrapper.digestSize
                (.super (bufsL h))) h ((h : Nat) == h)).2 := by
            rw [hw]
            rfl
          have := (hG.inj _ _ _ _ _ _ hd).2.2
          omega
      simp only [storeNode, hnone] at hp
      rw [if_neg (by simp)] at hp
      simp only [Except.ok.injEq, Prod.mk.injEq] at hp
      exact hp.1.2.symm

/-! ### Claim C7 -/

/-- C7: inserting the same content twice in succession on a freshly
constructed engine (empty backend and counters) yields bitwise-identical
handles, with `is_new` true on the first call and false on the second
(wrapper and chunker are deterministic functions, and the second run hits the
dedup path at the root). -/
theorem c7_deterministic_handles (E : Engine) (hG : GoodWrapper E.wrapper) (m : Bytes)
    (hb : 1 ≤ E.lengthToHeight m.length →
      ValidBounds m (E.lengthToHeight m.length)
        (E.chunker (E.lengthToHeight m.length) m))
    (st₁ st₂ : StoreState) (h₁ h₂ : Bytes) (b₁ b₂ : Bool)
    (hput₁ : putContentAndCheck E m false ⟨[], []⟩ = .ok ((h₁, b₁), st₁))
    (hput₂ : putContentAndCheck E m false st₁ = .ok ((h₂, b₂), st₂)) :
    h₁ = h₂ ∧ b₁ = true ∧ b₂ = false := by
  simp only [putContentAndCheck] at hput₁ hput₂
  cases hp₁ : putChunk E m (E.lengthToHeight m.length) (E.lengthToHeight m.length)
      ⟨[], []⟩ with
  | error e => rw [hp₁] at hput₁; simp at hput₁
  | ok res₁ =>
    obtain ⟨⟨k₁, bn₁⟩, stA⟩ := res₁
    rw [hp₁] at hput₁
    simp only [Except.ok.injEq, Prod.mk.injEq] at hput₁
    obtain ⟨⟨hh₁, hb₁⟩, hst₁⟩ := hput₁
    cases hp₂ : putChunk E m (E.lengthToHeight m.length) (E.lengthToHeight m.length)
        st₁ with
    | error e => rw [hp₂] at hput₂; simp at hput₂
    | ok res₂ =>
      obtain ⟨⟨k₂, bn₂⟩, stB⟩ := res₂
      rw [hp₂] at hput₂
      simp only [Except.ok.injEq, Prod.mk.injEq] at hput₂
      obtain ⟨⟨hh₂, hb₂⟩, hst₂⟩ := hput₂
      -- the first run's tree is represented in st₁
      obtain ⟨hrepA, -⟩ := putChunk_rep hG hb hp₁
      have hdbA : st₁.db = stA.db := by
        rw [← hst₁]
        simp
      have hrep₁ : Rep E (E.lengthToHeight m.length) st₁.db
          (E.lengthToHeight m.length) k₁ m := by
        rw [hdbA]
        exact hrepA
      have hfirst : bn₁ = true := putChunk_first_new hG rfl hp₁
      -- analyze the second run
      have hsecond : k₂ = k₁ ∧ bn₂ = false := by
        by_cases hh : E.lengthToHeight m.length = 0
        · rw [hh] at hp₂ hrep₁
          rw [show putChunk E m 0 0 st₁ = storeNode E (.leaf m) 0 0 st₁ from rfl] at hp₂
          have hk : storeKey E (.leaf m) 0 0 = k₁ := hrep₁.1.symm
          rw [storeNode_dedup_of_rep hG hrep₁ (.leaf m) hk] at hp₂
          simp only [Except.ok.injEq, Prod.mk.injEq] at hp₂
          exact ⟨hp₂.1.1.symm, hp₂.1.2.symm⟩
        · simp only [putChunk, if_neg hh] at hp₂
          cases hloop₂ : putLoop E m (E.lengthToHeight m.length)
              (E.lengthToHeight m.length)
              ((boundsFor E m (E.lengthToHeight m.length)).zip
                (boundsFor E m (E.lengthToHeight m.length)).tail) (fun _ => []) st₁ with
          | error e => rw [hloop₂] at hp₂; simp at hp₂
          | ok res₂' =>
            obtain ⟨bufs₂, st₂pre⟩ := res₂'
            rw [hloop₂] at hp₂
            simp only at hp₂
            -- first run's loop, for buffer determinism and the root key
            simp only [putChunk, if_neg hh] at hp₁
            cases hloop₁ : putLoop E m (E.lengthToHeight m.length)
                (E.lengthToHeight m.length)
                ((boundsFor E m (E.lengthToHeight m.length)).zip
                  (boundsFor E m (E.lengthToHeight m.length)).tail) (fun _ => [])
                ⟨[], []⟩ with
            | error e => rw [hloop₁] at hp₁; simp at hp₁
            | ok res₁' =>
              obtain ⟨bufs₁, st₁pre⟩ := res₁'
              rw [hloop₁] at hp₁
              simp only at hp₁
              have hbdet : bufs₁ = bufs₂ :=
                putLoop_bufs_det _ _ _ _ _ _ _ _ hloop₁ hloop₂
              subst hbdet
              have hk₁ : k₁ = storeKey E (.super (bufs₁ (E.lengthToHeight m.length)))
                  (E.lengthToHeight m.length) (E.lengthToHeight m.length) :=
                storeNode_ok_key hp₁
              have hrep₂pre : Rep E (E.lengthToHeight m.length) st₂pre.db
                  (E.lengthToHeight m.length) k₁ m :=
                Rep.extends (putLoop_extends hG _ _ _ _ _ hloop₂) hrep₁
              rw [storeNode_dedup_of_rep hG hrep₂pre _ hk₁.symm] at hp₂
              simp only [Except.ok.injEq, Prod.mk.injEq] at hp₂
              exact ⟨hp₂.1.1.symm, hp₂.1.2.symm⟩
      refine ⟨?_, hb₁ ▸ hfirst.symm ▸ rfl, hb₂ ▸ hsecond.2.symm ▸ rfl⟩
      rw [← hh₁, ← hh₂, hsecond.1]

/-- Witness for C7 on the concrete engine and content `[1, 2, 3]`. -/
theorem c7_deterministic_handles_witness :
    (match putContentAndCheck testEngine [1, 2, 3] false ⟨[], []⟩ with
      | .ok r =>
        (match putContentAndCheck testEngine [1, 2, 3] false r.2 with
          | .ok r2 => r.1.1 = r2.1.1 ∧ r.1.2 = true ∧ r2.1.2 = false
          | .error _ => False)
      | .error _ => False) := by
  rcases hE : putContentAndCheck testEngine [1, 2, 3] false ⟨[], []⟩ with u | r
  · cases u
    exact absurd hE (by decide)
  · simp only
    rcases hE2 : putContentAndCheck testEngine [1, 2, 3] false r.2 with u2 | r2
    · cases u2
      have hconc : (match putContentAndCheck testEngine [1, 2, 3] false ⟨[], []⟩ with
          | .ok rr => putContentAndCheck testEngine [1, 2, 3] false rr.2
          | .error _ => Except.error ()) ≠ Except.error () := by decide
      rw [hE] at hconc
      exact absurd hE2 hconc
    · simp only
      exact c7_deterministic_handles testEngine hmacDRModel_good [1, 2, 3]
        (fun _ => ⟨by decide, by decide⟩) r.2 r2.2 r.1.1 r2.1.1 r.1.2 r2.1.2 hE hE2

/-! ### Claim C10 -/

theorem mapGet_mem {α β : Type} [DecidableEq α] {m : List (α × β)} {k : α} {c : β}
    (h : mapGet m k = some c) : (k, c) ∈ m := by
  induction m with
  | nil => simp [mapGet] at h
  | cons e t ih =>
    obtain ⟨k', v'⟩ := e
    by_cases hk : k' = k
    · subst hk
      rw [show mapGet ((k', v') :: t) k' = some v' from by simp [mapGet],
        Option.some.injEq] at h
      subst h
      exact List.mem_cons_self _ _
    · simp only [mapGet, if_neg hk] at h
      exact List.mem_cons_of_mem _ (ih h)

theorem mem_mapSet {α β : Type} [DecidableEq α] {m : List (α × β)} {k : α} {v : β}
    {p : α × β} (h : p ∈ mapSet m k v) : p = (k, v) ∨ p ∈ m := by
  induction m with
  | nil => simpa [mapSet] using h
  | cons e t ih =>
    obtain ⟨k', v'⟩ := e
    by_cases hk : k' = k
    · subst hk
      simp only [mapSet, if_pos rfl] at h
      rcases List.mem_cons.mp h with h1 | h1
      · exact Or.inl h1
      · exact Or.inr (List.mem_cons_of_mem _ h1)
    · simp only [mapSet, if_neg hk] at h
      rcases List.mem_cons.mp h with h1 | h1
      · exact Or.inr (h1 ▸ List.mem_cons_self _ _)
      · rcases ih h1 with h2 | h2
        · exact Or.inl h2
        · exact Or.inr (List.mem_cons_of_mem _ h2)

theorem mem_mapDel {α β : Type} [DecidableEq α] {m : List (α × β)} {k : α}
    {p : α × β} (h : p ∈ mapDel m k) : p ∈ m := by
  induction m with
  | nil => exact h
  | cons e t ih =>
    obtain ⟨k', v'⟩ := e
    by_cases hk : k' = k
    · subst hk
      simp only [mapDel, if_pos rfl] at h
      exact List.mem_cons_of_mem _ h
    · simp only [mapDel, if_neg hk] at h
      rcases List.mem_cons.mp h with h1 | h1
      · exact h1 ▸ List.mem_cons_self _ _
      · exact List.mem_cons_of_mem _ (ih h1)

/-- The backend holds no duplicate keys, as a Python dict cannot; this is an
invariant of every state grown from the empty dictionary. -/
def NodupKeys {α β : Type} (m : List (α × β)) : Prop := (m.map Prod.fst).Nodup

theorem nodupKeys_mapSet {α β : Type} [DecidableEq α] {m : List (α × β)} (k : α) (v : β)
    (h : NodupKeys m) : NodupKeys (mapSet m k v) := by
  induction m with
  | nil => simp [NodupKeys, mapSet]
  | cons e t ih =>
    obtain ⟨k', v'⟩ := e
    by_cases hk : k' = k
    · subst hk
      simpa [NodupKeys, mapSet] using h
    · simp only [NodupKeys, mapSet, if_neg hk, List.map_cons, List.nodup_cons] at h ⊢
      refine ⟨?_, ih h.2⟩
      intro hmem
      obtain ⟨p, hp, hpe⟩ := List.mem_map.mp hmem
      rcases mem_mapSet hp with h1 | h1
      · exact hk (by rw [← hpe, h1])
      · exact h.1 (List.mem_map.mpr ⟨p, h1, hpe⟩)

theorem nodupKeys_mapDel {α β : Type} [DecidableEq α] {m : List (α × β)} (k : α)
    (h : NodupKeys m) : NodupKeys (mapDel m k) := by
  induction m with
  | nil => simp [NodupKeys, mapDel]
  | cons e t ih =>
    obtain ⟨k', v'⟩ := e
    by_cases hk : k' = k
    · subst hk
      simp only [NodupKeys, List.map_cons, List.nodup_cons] at h
      simpa [mapDel, NodupKeys] using h.2
    · simp only [NodupKeys, mapDel, if_neg hk, List.map_cons, List.nodup_cons] at h ⊢
      refine ⟨?_, ih h.2⟩
      intro hmem
      obtain ⟨p, hp, hpe⟩ := List.mem_map.mp hmem
      exact h.1 (List.mem_map.mpr ⟨p, mem_mapDel hp, hpe⟩)

theorem mapGet_del_self_nodup {α β : Type} [DecidableEq α] {m : List (α × β)} {k : α}
    (h : NodupKeys m) : mapGet (mapDel m k) k = none := by
  induction m with
  | nil => simp [mapDel, mapGet]
  | cons e t ih =>
    obtain ⟨k', v'⟩ := e
    simp only [NodupKeys, List.map_cons, List.nodup_cons] at h
    by_cases hk : k' = k
    · subst hk
      have hd : mapDel ((k', v') :: t) k' = t := by simp [mapDel]
      rw [hd]
      cases hg : mapGet t k' with
      | none => rfl
      | some c => exact absurd (List.mem_map.mpr ⟨(k', c), mapGet_mem hg, rfl⟩) h.1
    · simp only [mapDel, if_neg hk, mapGet, if_neg hk]
      exact ih h.2

/-- Every backend binding is a genuine node record of the tree of height `H`:
the key is the digest of the stored node at its recorded height, leaves are
recorded at height 0 only, and every child digest listed by a stored
superchunk is itself the digest of some node at a height below `H`. -/
def Closed (E : Engine) (H : Nat) (db : List (Bytes × Bytes)) : Prop :=
  ∀ p ∈ db, ∃ v h', p.2 = storeCipher E v h' H ∧ p.1 = storeKey E v h' H ∧
    (∀ m', v = .leaf m' → h' = 0) ∧
    (∀ cs, v = .super cs → ∀ k' ∈ cs, ∃ v' h'', h'' < H ∧ k' = storeKey E v' h'' H)

theorem Closed.del {E : Engine} {H : Nat} {db : List (Bytes × Bytes)} (k : Bytes)
    (h : Closed E H db) : Closed E H (mapDel db k) :=
  fun p hp => h p (mem_mapDel hp)

/-- `_store_node` either leaves the state untouched (dedup hit) or writes the
node's ciphertext and increments its children. -/
theorem storeNode_db_cases {E : Engine} {v : NodeVal} {h rootH : Nat}
    {st st' : StoreState} {res : Bytes × Bool}
    (hs : storeNode E v h rootH st = .ok (res, st')) :
    st' = st ∨
      st' = { db := mapSet st.db (storeKey E v h rootH) (storeCipher E v h rootH),
              rc := incChildren st.rc v } := by
  simp only [storeNode] at hs
  split at hs
  · split at hs
    · simp at hs
    · simp only [Except.ok.injEq, Prod.mk.injEq] at hs
      exact Or.inl hs.2.symm
    · simp only [Except.ok.injEq, Prod.mk.injEq] at hs
      exact Or.inr hs.2.symm
  · simp only [Except.ok.injEq, Prod.mk.injEq] at hs
    exact Or.inr hs.2.symm

theorem storeNode_closed {E : Engine} {H : Nat} {v : NodeVal} {h' : Nat}
    {st st' : StoreState} {res : Bytes × Bool}
    (hcl : Closed E H st.db) (hnd : NodupKeys st.db)
    (hleaf : ∀ m', v = .leaf m' → h' = 0)
    (hsuper : ∀ cs, v = .super cs →
      ∀ k' ∈ cs, ∃ v' h'', h'' < H ∧ k' = storeKey E v' h'' H)
    (hs : storeNode E v h' H st = .ok (res, st')) :
    Closed E H st'.db ∧ NodupKeys st'.db := by
  rcases storeNode_db_cases hs with h1 | h1
  · rw [h1]
    exact ⟨hcl, hnd⟩
  · rw [h1]
    refine ⟨?_, nodupKeys_mapSet _ _ hnd⟩
    intro p hp
    rcases mem_mapSet hp with h2 | h2
    · subst h2
      exact ⟨v, h', rfl, rfl, hleaf, hsuper⟩
    · exact hcl p h2

/-- Every digest buffered at level `t + 1` of the put loop is the digest of a
node at height `t`, strictly below the tree height. -/
def BufsGood (E : Engine) (H : Nat) (bufs : Nat → List Bytes) : Prop :=
  ∀ t k', k' ∈ bufs (t + 1) → t < H ∧ ∃ v', k' = storeKey E v' t H

theorem range'_le (n : Nat) : ∀ (s : Nat), ∀ t ∈ List.range' s n, s ≤ t := by
  induction n with
  | zero =>
    intro s t ht
    simp [List.range'] at ht
  | succ n ih =>
    intro s t ht
    rw [List.range'_succ] at ht
    rcases List.mem_cons.mp ht with h | h
    · omega
    · have := ih (s + 1) t h
      omega

theorem riseStore_closed {E : Engine} {H : Nat} :
    ∀ (ts : List Nat) (bufs : Nat → List Bytes) (st : StoreState)
      (bufs' : Nat → List Bytes) (st' : StoreState),
      (∀ t ∈ ts, 1 ≤ t) → Closed E H st.db → NodupKeys st.db → BufsGood E H bufs →
      riseStore E H H ts bufs st = .ok (bufs', st') →
      Closed E H st'.db ∧ NodupKeys st'.db ∧ BufsGood E H bufs' := by
  intro ts
  induction ts with
  | nil =>
    intro bufs st bufs' st' hts hcl hnd hbg hr
    simp only [riseStore, Except.ok.injEq, Prod.mk.injEq] at hr
    rw [← hr.1, ← hr.2]
    exact ⟨hcl, hnd, hbg⟩
  | cons t ts ih =>
    intro bufs st bufs' st' hts hcl hnd hbg hr
    simp only [riseStore] at hr
    cases hstore : storeNode E (.super (bufs t)) t H st with
    | error e => rw [hstore] at hr; simp at hr
    | ok res =>
      obtain ⟨⟨k, b⟩, st₀⟩ := res
      rw [hstore] at hr
      by_cases hg : t + 1 ≤ H
      · simp only [hg, if_true] at hr
        have ht1 : 1 ≤ t := hts t (List.mem_cons_self _ _)
        have hch : ∀ cs, NodeVal.super (bufs t) = .super cs →
            ∀ k' ∈ cs, ∃ v' h'', h'' < H ∧ k' = storeKey E v' h'' H := by
          intro cs hcs k' hk'
          cases hcs
          obtain ⟨hlt, v', hv'⟩ := hbg (t - 1) k'
            (by rw [Nat.sub_add_cancel ht1]; exact hk')
          exact ⟨v', t - 1, hlt, hv'⟩
        obtain ⟨hcl₀, hnd₀⟩ := storeNode_closed hcl hnd
          (by intro m' hm'; cases hm') hch hstore
        have hk : k = storeKey E (.super (bufs t)) t H := storeNode_ok_key hstore
        have hbg' : BufsGood E H (shiftBuf bufs t k) := by
          intro j k' hk'
          simp only [shiftBuf] at hk'
          by_cases hj : j + 1 = t
          · rw [if_pos hj] at hk'
            simp at hk'
          · rw [if_neg hj] at hk'
            by_cases hj2 : j + 1 = t + 1
            · rw [if_pos hj2] at hk'
              have hjt : j = t := by omega
              subst hjt
              rcases List.mem_append.mp hk' with h2 | h2
              · exact hbg j k' h2
              · have hke : k' = k := by simpa using h2
                subst hke
                exact ⟨Nat.lt_of_succ_le hg, ⟨.super (bufs j), hk⟩⟩
            · rw [if_neg hj2] at hk'
              exact hbg j k' hk'
        exact ih _ _ _ _ (fun t' ht' => hts t' (List.mem_cons_of_mem _ ht'))
          hcl₀ hnd₀ hbg' hr
      · simp only [hg, if_false] at hr
        simp at hr

theorem putLoop_closed {E : Engine} {m : Bytes} {H : Nat} :
    ∀ (ps : List ((Nat × Nat) × (Nat × Nat))) (bufs : Nat → List Bytes)
      (st : StoreState) (bufs' : Nat → List Bytes) (st' : StoreState),
      Closed E H st.db → NodupKeys st.db → BufsGood E H bufs →
      putLoop E m H H ps bufs st = .ok (bufs', st') →
      Closed E H st'.db ∧ NodupKeys st'.db ∧ BufsGood E H bufs' := by
  intro ps
  induction ps with
  | nil =>
    intro bufs st bufs' st' hcl hnd hbg hr
    simp only [putLoop, Except.ok.injEq, Prod.mk.injEq] at hr
    rw [← hr.1, ← hr.2]
    exact ⟨hcl, hnd, hbg⟩
  | cons pr ps ih =>
    intro bufs st bufs' st' hcl hnd hbg hr
    obtain ⟨⟨s0, l0⟩, ⟨e0, bh0⟩⟩ := pr
    simp only [putLoop] at hr
    cases hstore : storeNode E (.leaf ((m.drop s0).take (e0 - s0))) 0 H st with
    | error e => rw [hstore] at hr; simp at hr
    | ok res =>
      obtain ⟨⟨k0, b0⟩, st₀⟩ := res
      rw [hstore] at hr
      by_cases hg : 1 ≤ H
      · simp only [hg, if_true] at hr
        obtain ⟨hcl₀, hnd₀⟩ := storeNode_closed hcl hnd (fun _ _ => rfl)
          (by intro cs hcs; cases hcs) hstore
        have hk0 : k0 = storeKey E (.leaf ((m.drop s0).take (e0 - s0))) 0 H :=
          storeNode_ok_key hstore
        have hbg0 : BufsGood E H (pushBuf bufs 1 k0) := by
          intro j k' hk'
          simp only [pushBuf] at hk'
          by_cases hj : j + 1 = 1
          · rw [if_pos hj] at hk'
            have hj0 : j = 0 := by omega
            subst hj0
            rcases List.mem_append.mp hk' with h2 | h2
            · exact hbg 0 k' h2
            · have hke : k' = k0 := by simpa using h2
              subst hke
              exact ⟨hg, ⟨.leaf ((m.drop s0).take (e0 - s0)), hk0⟩⟩
          · rw [if_neg hj] at hk'
            exact hbg j k' hk'
        cases hrise : riseStore E H H (List.range' 1 bh0) (pushBuf bufs 1 k0) st₀ with
        | error e => rw [hrise] at hr; simp at hr
        | ok res₁ =>
          obtain ⟨bufs₁, st₁⟩ := res₁
          rw [hrise] at hr
          simp only at hr
          obtain ⟨hcl₁, hnd₁, hbg₁⟩ := riseStore_closed _ _ _ _ _
            (range'_le bh0 1) hcl₀ hnd₀ hbg0 hrise
          exact ih _ _ _ _ hcl₁ hnd₁ hbg₁ hr
      · simp only [hg, if_false] at hr
        simp at hr

theorem putChunk_closed {E : Engine} {m : Bytes} {H : Nat}
    {st st' : StoreState} {k : Bytes} {b : Bool}
    (hcl : Closed E H st.db) (hnd : NodupKeys st.db)
    (hp : putChunk E m H H st = .ok ((k, b), st')) :
    Closed E H st'.db ∧ NodupKeys st'.db ∧ ∃ vR, k = storeKey E vR H H := by
  by_cases hh : H = 0
  · subst hh
    rw [show putChunk E m 0 0 st = storeNode E (.leaf m) 0 0 st from rfl] at hp
    obtain ⟨h1, h2⟩ := storeNode_closed hcl hnd (fun _ _ => rfl)
      (by intro cs hcs; cases hcs) hp
    exact ⟨h1, h2, .leaf m, storeNode_ok_key hp⟩
  · simp only [putChunk, if_neg hh] at hp
    cases hloop : putLoop E m H H
        ((boundsFor E m H).zip (boundsFor E m H).tail) (fun _ => []) st with
    | error e => rw [hloop] at hp; simp at hp
    | ok res =>
      obtain ⟨bufsL, stL⟩ := res
      rw [hloop] at hp
      simp only at hp
      obtain ⟨hclL, hndL, hbgL⟩ := putLoop_closed _ _ _ _ _ hcl hnd
        (by intro j k' hk'; exact absurd hk' (List.not_mem_nil k')) hloop
      have hH1 : 1 ≤ H := Nat.one_le_iff_ne_zero.mpr hh
      obtain ⟨hcl', hnd'⟩ := storeNode_closed hclL hndL (by intro m' hm'; cases hm')
        (by
          intro cs hcs k' hk'
          cases hcs
          obtain ⟨hlt, v', hv'⟩ := hbgL (H - 1) k'
            (by rw [Nat.sub_add_cancel hH1]; exact hk')
          exact ⟨v', H - 1, hlt, hv'⟩) hp
      exact ⟨hcl', hnd', .super (bufsL H), storeNode_ok_key hp⟩

/-- Over a closed backend, a successful superchunk retrieval returns the
genuine child list: every listed digest is the digest of a node at a height
below `H`. -/
theorem getNode_closed_super {E : Engine} (hG : GoodWrapper E.wrapper) {H t : Nat}
    {k : Bytes} {st : StoreState} {cs : List Bytes}
    (hcl : Closed E H st.db)
    (hget : getNode E k (t + 1) H (-1) st = .ok (some (.super cs))) :
    ∀ k' ∈ cs, ∃ v' h'', h'' < H ∧ k' = storeKey E v' h'' H := by
  obtain ⟨v0, s, hv0, hu⟩ := getNode_ok_some_inv hget
  obtain ⟨v, h', hc, hk, hleaf, hsuper⟩ := hcl _ (mapGet_mem hv0)
  have hc' : v0 = storeCipher E v h' H := hc
  have hkk : k = storeKey E v h' H := hk
  have hsound := hG.sound _ _ _ _ _ _ hu
  have hw' : E.wrapper.wrap (serializeNode E.wrapper.digestSize v) h'
      ((h' : Nat) == H) = (v0, k) := by
    rw [hc', hkk]
    rfl
  obtain ⟨hww, hps, hhs⟩ := hG.inj s (t + 1) ((t + 1 : Nat) == H)
    (serializeNode E.wrapper.digestSize v) h' ((h' : Nat) == H)
    (by rw [hsound, hw'])
  cases v with
  | leaf m' =>
    exact absurd (hleaf m' rfl) (by omega)
  | super cs' =>
    have hlen : ∀ d ∈ cs', d.length = E.wrapper.digestSize := by
      intro d hd'
      obtain ⟨v', h'', hlt, hkey⟩ := hsuper cs' rfl d hd'
      rw [hkey, storeKey]
      exact hG.dlen _ _ _
    have hser : serializeNode E.wrapper.digestSize (.super cs') = cs'.flatten :=
      serializeNode_super _ _ hlen
    have hsplit : splitBlocks E.wrapper.digestSize s = .ok cs := by
      simp only [getNode, hv0, hu] at hget
      rw [if_pos (Nat.succ_pos t)] at hget
      cases hsp : splitBlocks E.wrapper.digestSize s with
      | error e => rw [hsp] at hget; simp at hget
      | ok ks =>
        rw [hsp] at hget
        simp only [Except.ok.injEq, Option.some.injEq, NodeVal.super.injEq] at hget
        rw [hget]
    have hcc : cs = cs' := by
      rw [hps, hser] at hsplit
      have h2 := (splitBlocks_flatten _ hG.dpos cs' hlen).symm.trans hsplit
      have h3 : cs' = cs := by simpa using h2
      exact h3.symm
    intro k' hk'
    rw [hcc] at hk'
    exact hsuper cs' rfl k' hk'

theorem delEntry_inv {st st' : StoreState} {k : Bytes}
    (h : delEntry st k = .ok st') : st'.rc = st.rc ∧ st'.db = mapDel st.db k := by
  simp only [delEntry] at h
  split at h
  · simp only [Except.ok.injEq] at h
    rw [← h]
    exact ⟨rfl, rfl⟩
  · simp at h

/-- Frame property of the chunk-deletion walk over a closed, duplicate-free
backend: the walk keeps the backend closed and duplicate-free, never touches
the counter of the tree root's digest `R` (all decrements hit digests of
strictly lower heights), and removes the walked node's own backend entry. -/
theorem deleteChunk_frame {E : Engine} (hG : GoodWrapper E.wrapper) {H : Nat}
    (R : Bytes) (vR : NodeVal) (hR : R = storeKey E vR H H) :
    ∀ (h : Nat) (k : Bytes) (st st' : StoreState),
      Closed E H st.db → NodupKeys st.db →
      deleteChunk E H h k st = .ok st' →
      Closed E H st'.db ∧ NodupKeys st'.db ∧
        mapGet st'.rc R = mapGet st.rc R ∧ mapGet st'.db k = none := by
  intro h
  induction h with
  | zero =>
    intro k st st' hcl hnd hdel
    obtain ⟨hrc, hdb⟩ := delEntry_inv hdel
    rw [hrc, hdb]
    exact ⟨Closed.del k hcl, nodupKeys_mapDel k hnd, rfl, mapGet_del_self_nodup hnd⟩
  | succ h ih =>
    intro k st st' hcl hnd hdel
    simp only [deleteChunk] at hdel
    cases hget : getNode E k (h + 1) H (-1) st with
    | error e => rw [hget] at hdel; simp at hdel
    | ok w =>
      rw [hget] at hdel
      cases w with
      | none => simp at hdel
      | some v =>
        cases v with
        | leaf m' => simp at hdel
        | super cs =>
          simp only at hdel
          have hcs := getNode_closed_super hG hcl hget
          have hloop : ∀ (cs0 : List Bytes),
              (∀ k' ∈ cs0, ∃ v' h'', h'' < H ∧ k' = storeKey E v' h'' H) →
              ∀ (st₀ st₁ : StoreState), Closed E H st₀.db → NodupKeys st₀.db →
              delChildren (deleteChunk E H h) cs0 st₀ = .ok st₁ →
              Closed E H st₁.db ∧ NodupKeys st₁.db ∧
                mapGet st₁.rc R = mapGet st₀.rc R := by
            intro cs0
            induction cs0 with
            | nil =>
              intro hgood st₀ st₁ hcl₀ hnd₀ hrun
              simp only [delChildren, Except.ok.injEq] at hrun
              rw [← hrun]
              exact ⟨hcl₀, hnd₀, rfl⟩
            | cons c cs0 ihc =>
              intro hgood st₀ st₁ hcl₀ hnd₀ hrun
              simp only [delChildren] at hrun
              cases hdec : dbrcDec st₀.rc c with
              | error e => rw [hdec] at hrun; simp at hrun
              | ok nr =>
                obtain ⟨n, rc'⟩ := nr
                rw [hdec] at hrun
                simp only at hrun
                have hcR : c ≠ R := by
                  obtain ⟨v', h'', hlt, hkey⟩ := hgood c (List.mem_cons_self _ _)
                  intro he
                  rw [he, hR] at hkey
                  have hd : (E.wrapper.wrap (serializeNode E.wrapper.digestSize vR) H
                      ((H : Nat) == H)).2 =
                      (E.wrapper.wrap (serializeNode E.wrapper.digestSize v') h''
                        ((h'' : Nat) == H)).2 := hkey
                  have := (hG.inj _ _ _ _ _ _ hd).2.2
                  omega
                have hrcR : mapGet rc' R = mapGet st₀.rc R := by
                  simp only [dbrcDec] at hdec
                  cases hg0 : mapGet st₀.rc c with
                  | none => simp [hg0] at hdec
                  | some n0 =>
                    simp only [hg0] at hdec
                    by_cases hz : n0 - 1 = 0
                    · rw [if_pos hz] at hdec
                      simp only [Except.ok.injEq, Prod.mk.injEq] at hdec
                      rw [← hdec.2]
                      exact mapGet_del_other _ _ _ hcR
                    · rw [if_neg hz] at hdec
                      simp only [Except.ok.injEq, Prod.mk.injEq] at hdec
                      rw [← hdec.2]
                      exact mapGet_set_other _ _ _ _ hcR
                by_cases hz : n = 0
                · rw [if_pos hz] at hrun
                  cases hsub : deleteChunk E H h c { st₀ with rc := rc' } with
                  | error e => rw [hsub] at hrun; simp at hrun
                  | ok st₂ =>
                    rw [hsub] at hrun
                    simp only at hrun
                    obtain ⟨hcl₂, hnd₂, hrc₂, -⟩ :=
                      ih c { st₀ with rc := rc' } st₂ hcl₀ hnd₀ hsub
                    obtain ⟨hcl₃, hnd₃, hrc₃⟩ := ihc
                      (fun k' hk' => hgood k' (List.mem_cons_of_mem _ hk'))
                      _ _ hcl₂ hnd₂ hrun
                    refine ⟨hcl₃, hnd₃, ?_⟩
                    rw [hrc₃, hrc₂]
                    exact hrcR
                · rw [if_neg hz] at hrun
                  obtain ⟨hcl₃, hnd₃, hrc₃⟩ := ihc
                    (fun k' hk' => hgood k' (List.mem_cons_of_mem _ hk'))
                    { st₀ with rc := rc' } st₁ hcl₀ hnd₀ hrun
                  refine ⟨hcl₃, hnd₃, ?_⟩
                  rw [hrc₃]
                  exact hrcR
          cases hrun : delChildren (deleteChunk E H h) cs st with
          | error e => rw [hrun] at hdel; simp at hdel
          | ok stMid =>
            rw [hrun] at hdel
            simp only at hdel
            obtain ⟨hclM, hndM, hrcM⟩ := hloop cs hcs _ _ hcl hnd hrun
            obtain ⟨hrc', hdb'⟩ := delEntry_inv hdel
            rw [hrc', hdb']
            exact ⟨Closed.del k hclM, nodupKeys_mapDel k hndM, hrcM,
              mapGet_del_self_nodup hndM⟩

/-- C10: `delete_content(handle, ignore_rc=True)` removes the root node's
payload from the backend — recursively decrementing children and deleting the
ones whose counters reach zero — without decrementing or deleting the root's
own reference counter: the root counter created by the preceding default
`put_content` is still present and byte-identical afterwards. -/
theorem c10_ignore_rc_keeps_root_counter (E : Engine) (hG : GoodWrapper E.wrapper)
    (m : Bytes) (hlen : m.length < 2 ^ 64)
    (hdl : Bytes) (b : Bool) (st₁ st₂ : StoreState)
    (hput : putContentAndCheck E m false ⟨[], []⟩ = .ok ((hdl, b), st₁))
    (hdel : deleteContent E hdl true st₁ = .ok st₂) :
    ∃ k, unpackHandle E.wrapper.digestSize hdl = .ok (k, m.length) ∧
      (mapGet st₁.rc k).isSome ∧
      mapGet st₂.rc k = mapGet st₁.rc k ∧
      mapGet st₂.db k = none := by
  simp only [putContentAndCheck] at hput
  cases hp : putChunk E m (E.lengthToHeight m.length) (E.lengthToHeight m.length)
      ⟨[], []⟩ with
  | error e => rw [hp] at hput; simp at hput
  | ok res =>
    obtain ⟨⟨k0, bn⟩, stP⟩ := res
    rw [hp] at hput
    simp only [Except.ok.injEq, Prod.mk.injEq] at hput
    obtain ⟨⟨hhdl, hb⟩, hst₁⟩ := hput
    obtain ⟨hclP, hndP, vR, hkR⟩ := putChunk_closed (by intro p hp'; cases hp')
      (by simp [NodupKeys]) hp
    have hk0len : k0.length = E.wrapper.digestSize := by
      rw [hkR, storeKey]
      exact hG.dlen _ _ _
    have hpk : packBytes E.wrapper.digestSize k0 = k0 :=
      packBytes_of_length _ _ hk0len
    have hunpack : unpackHandle E.wrapper.digestSize hdl = .ok (k0, m.length) := by
      rw [← hhdl, unpackHandle_pack, hpk, Nat.mod_eq_of_lt hlen]
    have hst₁' : st₁ = { db := stP.db, rc := (dbrcInc stP.rc k0).2 } := by
      rw [← hst₁]
      simp
    have hrc₁ : mapGet st₁.rc k0 =
        some ((match mapGet stP.rc k0 with | some v => v | none => 0) + 1) := by
      rw [hst₁']
      exact mapGet_set_self _ _ _
    simp only [deleteContent, hunpack] at hdel
    rw [show deleteContentInner E k0 (E.lengthToHeight m.length)
        (E.lengthToHeight m.length) true st₁ =
        deleteChunk E (E.lengthToHeight m.length) (E.lengthToHeight m.length) k0 st₁
        from rfl] at hdel
    have hcl₁ : Closed E (E.lengthToHeight m.length) st₁.db := by
      rw [hst₁']
      exact hclP
    have hnd₁ : NodupKeys st₁.db := by
      rw [hst₁']
      exact hndP
    obtain ⟨-, -, hrcF, hdbF⟩ :=
      deleteChunk_frame hG k0 vR hkR _ k0 st₁ st₂ hcl₁ hnd₁ hdel
    refine ⟨k0, hunpack, ?_, hrcF, hdbF⟩
    rw [hrc₁]
    rfl

/-- Witness for C10 on the concrete engine and content `[1, 2, 3]`. -/
theorem c10_ignore_rc_witness :
    (match putContentAndCheck testEngine [1, 2, 3] false ⟨[], []⟩ with
      | .ok r =>
        (match deleteContent testEngine r.1.1 true r.2 with
          | .ok st₂ => ∃ k,
              unpackHandle testEngine.wrapper.digestSize r.1.1 = .ok (k, 3) ∧
              (mapGet r.2.rc k).isSome ∧
              mapGet st₂.rc k = mapGet r.2.rc k ∧
              mapGet st₂.db k = none
          | .error _ => False)
      | .error _ => False) := by
  rcases hE : putContentAndCheck testEngine [1, 2, 3] false ⟨[], []⟩ with u | r
  · cases u
    exact absurd hE (by decide)
  · simp only
    rcases hE2 : deleteContent testEngine r.1.1 true r.2 with u2 | st₂
    · cases u2
      have hconc : (match putContentAndCheck testEngine [1, 2, 3] false ⟨[], []⟩ with
          | .ok rr => deleteContent testEngine rr.1.1 true rr.2
          | .error _ => Except.error ()) ≠ Except.error () := by decide
      rw [hE] at hconc
      exact absurd hE2 hconc
    · simp only
      exact c10_ignore_rc_keeps_root_counter testEngine hmacDRModel_good [1, 2, 3]
        (by decide) r.1.1 r.1.2 r.2 st₂ (by rw [hE]) hE2

/-! ### Claims C2 and C4: counterexamples -/

/-- C2 counterexample: from the state Σ left by `put_content([1], ignore_rc=True)`
(the leaf is stored but no counter exists), `put_content([1])` dedups against the
stored leaf and creates a fresh root counter, and the following `delete_content`
drives that counter to zero and deletes Σ's pre-existing backend entry: the
engine does not return to Σ. -/
theorem c2_put_delete_counterexample :
    (do
      let r0 ← putContentAndCheck testEngine [1] true ⟨[], []⟩
      let sigma := r0.2
      let r1 ← putContentAndCheck testEngine [1] false sigma
      let st2 ← deleteContent testEngine r1.1.1 false r1.2
      pure (decide (sigma.db = [([13], [1])]) && decide (sigma.rc = []) &&
        decide (st2 = StoreState.mk [] []) && !(decide (st2 = sigma))))
      = .ok true := by
  decide

/-- C4 counterexample: the sequence `put_content([1,2,3,4])`,
`put_content([3,4])`, and two `delete_content` calls on the `[3,4]` handle —
all completed calls with the default `ignore_rc=False` — reaches a state where
the stored root superchunk of `[1,2,3,4]` still lists the `[3,4]` leaf digest
although that leaf's backend entry and counter are both gone. -/
theorem c4_unbalanced_delete_counterexample :
    (do
      let r1 ← putContentAndCheck ndEngine [1, 2, 3, 4] false ⟨[], []⟩
      let r2 ← putContentAndCheck ndEngine [3, 4] false r1.2
      let s3 ← deleteContent ndEngine r2.1.1 false r2.2
      let s4 ← deleteContent ndEngine r2.1.1 false s3
      let k34 := storeKey ndEngine (.leaf [3, 4]) 0 1
      let k12 := storeKey ndEngine (.leaf [1, 2]) 0 1
      let kR := storeKey ndEngine (.super [k12, k34]) 1 1
      pure ((mapGet s4.db kR).isSome, (mapGet s4.db k34).isSome,
        (mapGet s4.rc k34).isSome))
      = .ok (true, false, false) := by
  decide

/-! ### Claims C2 and C4: overlay machinery

The amended statements track a put's effect as an overlay of new node records
over a well-formed base state, and show that the deletion walk consumes the
overlay exactly. -/

/-- Stored value of a counter (0 when the counter is absent). -/
def rcv (rc : List (Bytes × Int)) (j : Bytes) : Int := (mapGet rc j).getD 0

/-- Record of one new node written by a put: its digest, payload and height. -/
structure NEnt where
  key : Bytes
  node : NodeVal
  hgt : Nat
deriving DecidableEq

/-- Child digests listed by a node payload. -/
def kids : NodeVal → List Bytes
  | .leaf _ => []
  | .super cs => cs

/-- Occurrence count of a digest in a child list. -/
def cnt (j : Bytes) : List Bytes → Nat
  | [] => 0
  | c :: cs => (if c = j then 1 else 0) + cnt j cs

/-- Number of references to digest `j` from the child lists of the recorded
nodes (one per occurrence, matching `_store_node`'s per-occurrence `inc`). -/
def refs (N : List NEnt) (j : Bytes) : Nat :=
  (N.map (fun e => cnt j (kids e.node))).sum

/-- A record is internally consistent: its digest is the genuine digest of its
payload at its height, leaves sit at height 0, and listed children are digests
of nodes one level down. -/
def EGood (E : Engine) (H : Nat) (e : NEnt) : Prop :=
  e.key = storeKey E e.node e.hgt H ∧ e.hgt ≤ H ∧
  (∀ mb, e.node = .leaf mb → e.hgt = 0) ∧
  (∀ cs, e.node = .super cs →
    1 ≤ e.hgt ∧ ∀ k' ∈ cs, ∃ v', k' = storeKey E v' (e.hgt - 1) H)

/-- The state is the base plus the recorded nodes, with each counter holding
its base value plus the pending references `pend`. -/
structure Overlay (E : Engine) (H : Nat) (base : StoreState) (N : List NEnt)
    (pend : Bytes → Nat) (st : StoreState) : Prop where
  dbN : ∀ e ∈ N, mapGet st.db e.key = some (storeCipher E e.node e.hgt H)
  dbO : ∀ j, (∀ e ∈ N, e.key ≠ j) → mapGet st.db j = mapGet base.db j
  rcS : ∀ j, mapGet st.rc j =
    if rcv base.rc j + (pend j : Int) = 0 then none
    else some (rcv base.rc j + (pend j : Int))
  ndDb : NodupKeys st.db
  ndRc : NodupKeys st.rc

/-- Modelled from the spec: the dedup probe of `_store_node` succeeds on any
genuine stored node of the same digest even if the stored root flag differs —
true of both specified non-leaf-padding wrapper families (the non-DR variants
ignore the flag; the DR variants put it into the digest, forcing equality). -/
def ProbeOk (W : CryptoWrapper) : Prop :=
  ∀ p h r r' l, (W.wrap p h r').2 = (W.wrap p h r).2 →
    W.unwrap (W.wrap p h r).1 (W.wrap p h r).2 h r' l = .ok (some p)

/-- Well-formedness of a base state: genuine duplicate-free backend, counters
positive and matching the backend domain, and children of stored superchunks
physically present. -/
structure WFBase (E : Engine) (base : StoreState) : Prop where
  good : ∀ j c, mapGet base.db j = some c → GoodEntry E j c
  ndDb : NodupKeys base.db
  ndRc : NodupKeys base.rc
  presentCounted : ∀ j, (mapGet base.db j).isSome → 1 ≤ rcv base.rc j
  countedPresent : ∀ j n, mapGet base.rc j = some n →
    (mapGet base.db j).isSome ∧ 1 ≤ n
  childrenPresent : ∀ j c, mapGet base.db j = some c → ∀ p h r,
    E.wrapper.wrap p h r = (c, j) → 1 ≤ h →
    ∀ ks, splitBlocks E.wrapper.digestSize p = .ok ks →
    ∀ k' ∈ ks, (mapGet base.db k').isSome

theorem hmacModel_probe : ProbeOk hmacModel := by
  intro p h r r' l hk
  simp [hmacModel]

theorem hmacDRModel_probe : ProbeOk hmacDRModel := by
  intro p h r r' l hk
  simp only [hmacDRModel] at hk ⊢
  simp [hk]

theorem rcv_nonneg {E : Engine} {base : StoreState} (hWF : WFBase E base)
    (j : Bytes) : 0 ≤ rcv base.rc j := by
  unfold rcv
  cases hg : mapGet base.rc j with
  | none => simp
  | some n =>
    have := (hWF.countedPresent j n hg).2
    simp only [Option.getD_some]
    omega

theorem rcv_absent {E : Engine} {base : StoreState} (hWF : WFBase E base)
    {j : Bytes} (h : mapGet base.db j = none) : rcv base.rc j = 0 := by
  unfold rcv
  cases hg : mapGet base.rc j with
  | none => rfl
  | some n =>
    have := (hWF.countedPresent j n hg).1
    rw [h] at this
    cases this

theorem cnt_pos_mem {j : Bytes} : ∀ {cs : List Bytes}, 1 ≤ cnt j cs → j ∈ cs := by
  intro cs
  induction cs with
  | nil => intro h; simp [cnt] at h
  | cons c cs ih =>
    intro h
    by_cases hc : c = j
    · exact hc ▸ List.mem_cons_self _ _
    · simp only [cnt, if_neg hc, Nat.zero_add] at h
      exact List.mem_cons_of_mem _ (ih h)

theorem cnt_mem_pos {j : Bytes} : ∀ {cs : List Bytes}, j ∈ cs → 1 ≤ cnt j cs := by
  intro cs
  induction cs with
  | nil => intro h; cases h
  | cons c cs ih =>
    intro h
    rcases List.mem_cons.mp h with h1 | h1
    · simp [cnt, h1]
    · have := ih h1
      simp only [cnt]
      omega

theorem refs_cons (e : NEnt) (N : List NEnt) (j : Bytes) :
    refs (e :: N) j = cnt j (kids e.node) + refs N j := by
  simp [refs]

theorem count_le_refs {N : List NEnt} {e : NEnt} (he : e ∈ N) (j : Bytes) :
    cnt j (kids e.node) ≤ refs N j := by
  induction N with
  | nil => cases he
  | cons e' N ih =>
    rw [refs_cons]
    rcases List.mem_cons.mp he with h | h
    · subst h
      omega
    · have := ih h
      omega

theorem refs_erase {N : List NEnt} {e : NEnt} (he : e ∈ N) (j : Bytes) :
    refs N j = cnt j (kids e.node) + refs (N.erase e) j := by
  have hperm : N.Perm (e :: N.erase e) := List.perm_cons_erase he
  have hs : (N.map (fun e' => cnt j (kids e'.node))).sum =
      ((e :: N.erase e).map (fun e' => cnt j (kids e'.node))).sum :=
    (hperm.map _).sum_eq
  simpa [refs] using hs

theorem refs_pos_mem {N : List NEnt} {j : Bytes} (h : 1 ≤ refs N j) :
    ∃ e ∈ N, j ∈ kids e.node := by
  induction N with
  | nil => simp [refs] at h
  | cons e N ih =>
    rw [refs_cons] at h
    by_cases hc : 1 ≤ cnt j (kids e.node)
    · exact ⟨e, List.mem_cons_self _ _, cnt_pos_mem hc⟩
    · have h1 : 1 ≤ refs N j := by omega
      obtain ⟨e', he', hj⟩ := ih h1
      exact ⟨e', List.mem_cons_of_mem _ he', hj⟩

theorem refs_sublist_le {N' N : List NEnt} (h : N'.Sublist N) (j : Bytes) :
    refs N' j ≤ refs N j := by
  induction h with
  | slnil => exact le_refl _
  | cons e h ih =>
    rw [refs_cons]
    omega
  | cons₂ e h ih =>
    rw [refs_cons, refs_cons]
    omega

theorem exists_max_hgt {N : List NEnt} (h : N ≠ []) :
    ∃ e ∈ N, ∀ e' ∈ N, e'.hgt ≤ e.hgt := by
  induction N with
  | nil => exact absurd rfl h
  | cons a N ih =>
    cases hN : N with
    | nil =>
      refine ⟨a, List.mem_cons_self _ _, ?_⟩
      intro e' he'
      rcases List.mem_cons.mp he' with h1 | h1
      · rw [h1]
      · cases h1
    | cons b M =>
      subst hN
      obtain ⟨e, he, hmax⟩ := ih (by intro hc; cases hc)
      by_cases hc : e.hgt ≤ a.hgt
      · refine ⟨a, List.mem_cons_self _ _, ?_⟩
        intro e' he'
        rcases List.mem_cons.mp he' with h1 | h1
        · rw [h1]
        · exact le_trans (hmax e' h1) hc
      · refine ⟨e, List.mem_cons_of_mem _ he, ?_⟩
        intro e' he'
        rcases List.mem_cons.mp he' with h1 | h1
        · rw [h1]
          omega
        · exact hmax e' h1

theorem probe_of_good {W : CryptoWrapper} (hG : GoodWrapper W) : ProbeOk W := by
  intro p h r r' l hk
  have hfull := (hG.inj p h r' p h r hk).1
  rw [← hfull]
  exact hG.rt p h r' l

/-- Digests are injective down to the node payload and height: two nodes with
the same digest (leaves recorded at height 0, superchunk children of digest
width) are the same node at the same height. -/
theorem storeKey_node_eq {E : Engine} (hG : GoodWrapper E.wrapper) {H : Nat}
    {v₁ v₂ : NodeVal} {h₁ h₂ : Nat}
    (hk : storeKey E v₁ h₁ H = storeKey E v₂ h₂ H)
    (hlz₁ : ∀ mb, v₁ = .leaf mb → h₁ = 0)
    (hlz₂ : ∀ mb, v₂ = .leaf mb → h₂ = 0)
    (hsk₁ : ∀ cs, v₁ = .super cs → 1 ≤ h₁ ∧ ∀ k' ∈ cs, k'.length = E.wrapper.digestSize)
    (hsk₂ : ∀ cs, v₂ = .super cs → 1 ≤ h₂ ∧ ∀ k' ∈ cs, k'.length = E.wrapper.digestSize) :
    v₁ = v₂ ∧ h₁ = h₂ := by
  have hd : (E.wrapper.wrap (serializeNode E.wrapper.digestSize v₁) h₁
      ((h₁ : Nat) == H)).2 =
      (E.wrapper.wrap (serializeNode E.wrapper.digestSize v₂) h₂ ((h₂ : Nat) == H)).2 := hk
  obtain ⟨hww, hps, hhs⟩ := hG.inj _ _ _ _ _ _ hd
  refine ⟨?_, hhs⟩
  cases v₁ with
  | leaf m₁ =>
    cases v₂ with
    | leaf m₂ =>
      have hm : m₁ = m₂ := hps
      rw [hm]
    | super cs₂ =>
      have h0 := hlz₁ m₁ rfl
      have h1 := (hsk₂ cs₂ rfl).1
      exact absurd hhs (by omega)
  | super cs₁ =>
    cases v₂ with
    | leaf m₂ =>
      have h0 := hlz₂ m₂ rfl
      have h1 := (hsk₁ cs₁ rfl).1
      exact absurd hhs (by omega)
    | super cs₂ =>
      obtain ⟨h₁p, hl₁⟩ := hsk₁ cs₁ rfl
      obtain ⟨h₂p, hl₂⟩ := hsk₂ cs₂ rfl
      have hf : cs₁.flatten = cs₂.flatten := by
        have e₁ := serializeNode_super E.wrapper.digestSize cs₁ hl₁
        have e₂ := serializeNode_super E.wrapper.digestSize cs₂ hl₂
        rw [← e₁, ← e₂, hps]
      have s₁ := splitBlocks_flatten _ hG.dpos cs₁ hl₁
      have s₂ := splitBlocks_flatten _ hG.dpos cs₂ hl₂
      rw [hf] at s₁
      have hcc : cs₂ = cs₁ := by
        have h2 := s₂.symm.trans s₁
        simpa using h2
      rw [hcc]

theorem egood_kid_len {E : Engine} (hG : GoodWrapper E.wrapper) {H : Nat}
    {e : NEnt} (hE : EGood E H e) :
    ∀ k' ∈ kids e.node, k'.length = E.wrapper.digestSize := by
  intro k' hk'
  cases hn : e.node with
  | leaf mb =>
    rw [hn] at hk'
    cases hk'
  | super cs =>
    rw [hn] at hk'
    obtain ⟨v', hv'⟩ := (hE.2.2.2 cs hn).2 k' hk'
    rw [hv', storeKey]
    exact hG.dlen _ _ _

/-- Retrieving the genuine record of a node succeeds and returns the node. -/
theorem getNode_of_cipher {E : Engine} (hG : GoodWrapper E.wrapper) {H : Nat}
    {k : Bytes} {v : NodeVal} {h' : Nat} {st : StoreState} (l : Int)
    (hget : mapGet st.db k = some (storeCipher E v h' H))
    (hk : k = storeKey E v h' H)
    (hlz : ∀ mb, v = .leaf mb → h' = 0)
    (hsk : ∀ cs, v = .super cs → 1 ≤ h' ∧ ∀ k' ∈ cs, k'.length = E.wrapper.digestSize) :
    getNode E k h' H l st = .ok (some v) := by
  subst hk
  cases v with
  | leaf mb =>
    have h0 := hlz mb rfl
    subst h0
    exact getNode_rep_leaf hG ⟨rfl, hget⟩ l
  | super cs =>
    obtain ⟨hp, hl⟩ := hsk cs rfl
    obtain ⟨t, rfl⟩ : ∃ t, h' = t + 1 := ⟨h' - 1, by omega⟩
    have hrt := hG.rt (serializeNode E.wrapper.digestSize (.super cs)) (t + 1)
      ((t + 1 : Nat) == H) l
    simp only [getNode, hget]
    rw [show E.wrapper.unwrap (storeCipher E (.super cs) (t + 1) H)
        (storeKey E (.super cs) (t + 1) H) (t + 1) ((t + 1 : Nat) == H) l =
        .ok (some (serializeNode E.wrapper.digestSize (.super cs))) from hrt]
    have hser : serializeNode E.wrapper.digestSize (.super cs) = cs.flatten :=
      serializeNode_super _ _ hl
    simp only [Nat.zero_lt_succ, if_true]
    rw [hser, splitBlocks_flatten _ hG.dpos cs hl]

/-- Pointwise effect of the child-increment fold of `_store_node`. -/
theorem foldInc_get :
    ∀ (cs : List Bytes) (rc : List (Bytes × Int)) (f : Bytes → Int),
      (∀ j, 0 ≤ f j) →
      (∀ j, mapGet rc j = if f j = 0 then none else some (f j)) →
      ∀ j, mapGet (cs.foldl (fun r c => (dbrcInc r c).2) rc) j =
        if f j + (cnt j cs : Int) = 0 then none else some (f j + (cnt j cs : Int)) := by
  intro cs
  induction cs with
  | nil =>
    intro rc f hpos hsh j
    simpa [cnt] using hsh j
  | cons c cs ih =>
    intro rc f hpos hsh j
    have hstep : ∀ j', mapGet (dbrcInc rc c).2 j' =
        if f j' + (if c = j' then (1 : Int) else 0) = 0 then none
        else some (f j' + (if c = j' then (1 : Int) else 0)) := by
      intro j'
      rw [show (dbrcInc rc c).2 = mapSet rc c
          ((match mapGet rc c with | some x => x | none => 0) + 1) from rfl]
      by_cases hj : c = j'
      · subst hj
        rw [mapGet_set_self, hsh c]
        by_cases hz : f c = 0
        · rw [hz]
          simp
        · rw [if_neg hz]
          have := hpos c
          rw [if_neg (by omega), if_pos rfl]
      · rw [mapGet_set_other _ _ _ _ hj, hsh j', if_neg hj]
        simp
    have hrec := ih ((dbrcInc rc c).2)
      (fun i => f i + if c = i then (1 : Int) else 0)
      (fun i => by
        show 0 ≤ f i + if c = i then (1 : Int) else 0
        have := hpos i
        by_cases h : c = i
        · rw [if_pos h]
          omega
        · rw [if_neg h]
          omega)
      hstep j
    rw [show (c :: cs).foldl (fun r c => (dbrcInc r c).2) rc =
      cs.foldl (fun r c => (dbrcInc r c).2) ((dbrcInc rc c).2) from rfl]
    rw [hrec]
    have harith : (f j + if c = j then (1 : Int) else 0) + (cnt j cs : Int) =
        f j + (cnt j (c :: cs) : Int) := by
      rw [show cnt j (c :: cs) = (if c = j then 1 else 0) + cnt j cs from rfl]
      push_cast
      by_cases h : c = j
      · rw [if_pos h]
        ring
      · rw [if_neg h]
        ring
    rw [harith]

theorem foldInc_nodup :
    ∀ (cs : List Bytes) (rc : List (Bytes × Int)), NodupKeys rc →
      NodupKeys (cs.foldl (fun r c => (dbrcInc r c).2) rc) := by
  intro cs
  induction cs with
  | nil => intro rc h; exact h
  | cons c cs ih =>
    intro rc h
    exact ih _ (nodupKeys_mapSet _ _ h)

/-- `_store_node` over an overlay state: a present digest always dedups (the
entry is the genuine record of the same node, either from the base or from the
run's own records), and an absent digest is inserted, extending the overlay by
one record whose children become pending references. -/
theorem storeNode_overlay {E : Engine} (hG : GoodWrapper E.wrapper)
    {H : Nat} {base : StoreState} (hWF : WFBase E base)
    {N : List NEnt} {st st' : StoreState} {v : NodeVal} {h' : Nat}
    {k : Bytes} {b : Bool}
    (hov : Overlay E H base N (refs N) st)
    (hEG : ∀ e ∈ N, EGood E H e)
    (hFr : ∀ e ∈ N, mapGet base.db e.key = none)
    (hND : (N.map NEnt.key).Nodup)
    (hlz : ∀ mb, v = .leaf mb → h' = 0)
    (hhH : h' ≤ H)
    (hsz : ∀ cs, v = .super cs →
      1 ≤ h' ∧ ∀ k' ∈ cs, ∃ v'', k' = storeKey E v'' (h' - 1) H)
    (hs : storeNode E v h' H st = .ok ((k, b), st')) :
    k = storeKey E v h' H ∧
    ((b = false ∧ st' = st ∧
        ((mapGet base.db k).isSome ∨ ∃ e ∈ N, e.key = k ∧ e.node = v ∧ e.hgt = h')) ∨
      (b = true ∧ (∀ e ∈ N, e.key ≠ k) ∧ mapGet base.db k = none ∧
        Overlay E H base (⟨k, v, h'⟩ :: N) (refs (⟨k, v, h'⟩ :: N)) st' ∧
        (∀ e ∈ ⟨k, v, h'⟩ :: N, EGood E H e) ∧
        (∀ e ∈ ⟨k, v, h'⟩ :: N, mapGet base.db e.key = none) ∧
        (((⟨k, v, h'⟩ :: N).map NEnt.key).Nodup))) := by
  have hkk := storeNode_ok_key hs
  subst hkk
  have hkl : ∀ cs, v = .super cs → ∀ k' ∈ cs, k'.length = E.wrapper.digestSize := by
    intro cs hcs k' hk'
    obtain ⟨v'', hv''⟩ := (hsz cs hcs).2 k' hk'
    rw [hv'', storeKey]
    exact hG.dlen _ _ _
  cases hdb : mapGet st.db (storeKey E v h' H) with
  | some c =>
    have hcEq : c = storeCipher E v h' H ∧
        ((mapGet base.db (storeKey E v h' H)).isSome ∨
          ∃ e ∈ N, e.key = storeKey E v h' H ∧ e.node = v ∧ e.hgt = h') := by
      by_cases hex : ∃ e ∈ N, e.key = storeKey E v h' H
      · obtain ⟨e, he, hek⟩ := hex
        have hent := hov.dbN e he
        rw [hek, hdb] at hent
        have hc : c = storeCipher E e.node e.hgt H := Option.some_inj.mp hent
        have hEe := hEG e he
        have hnode := storeKey_node_eq hG (hEe.1.symm.trans hek) hEe.2.2.1 hlz
          (fun cs hcs => ⟨(hEe.2.2.2 cs hcs).1, by
            intro k' hk'
            obtain ⟨v'', hv''⟩ := (hEe.2.2.2 cs hcs).2 k' hk'
            rw [hv'', storeKey]
            exact hG.dlen _ _ _⟩)
          (fun cs hcs => ⟨(hsz cs hcs).1, hkl cs hcs⟩)
        refine ⟨by rw [hc, hnode.1, hnode.2], Or.inr ⟨e, he, hek, hnode.1, hnode.2⟩⟩
      · push_neg at hex
        have hbase := hov.dbO _ (fun e he => hex e he)
        rw [hdb] at hbase
        obtain ⟨p0, h0, r0, hw0⟩ := hWF.good _ _ hbase.symm
        have hdg : (E.wrapper.wrap (serializeNode E.wrapper.digestSize v) h'
            ((h' : Nat) == H)).2 = (E.wrapper.wrap p0 h0 r0).2 := by
          rw [hw0]
          rfl
        obtain ⟨hww, -, -⟩ := hG.inj _ _ _ _ _ _ hdg
        have hfull := hww.trans hw0
        have hc : c = storeCipher E v h' H := by
          rw [storeCipher, hfull]
        refine ⟨hc, Or.inl ?_⟩
        rw [← hbase]
        rfl
    obtain ⟨hc, hwit⟩ := hcEq
    rw [hc] at hdb
    have hprobe : getNode E (storeKey E v h' H) h' H (-1) st = .ok (some v) :=
      getNode_of_cipher hG (-1) hdb rfl hlz
        (fun cs hcs => ⟨(hsz cs hcs).1, hkl cs hcs⟩)
    simp only [storeNode, hdb, Option.isSome_some, if_true, hprobe] at hs
    simp only [Except.ok.injEq, Prod.mk.injEq] at hs
    exact ⟨rfl, Or.inl ⟨hs.1.2.symm, hs.2.symm, hwit⟩⟩
  | none =>
    simp only [storeNode, hdb, Option.isSome_none, Bool.false_eq_true, if_false,
      Except.ok.injEq, Prod.mk.injEq] at hs
    obtain ⟨⟨-, hbtrue⟩, hst⟩ := hs
    have hknotin : ∀ e ∈ N, e.key ≠ storeKey E v h' H := by
      intro e he heq
      have hx := hov.dbN e he
      rw [heq, hdb] at hx
      cases hx
    have hbasenone : mapGet base.db (storeKey E v h' H) = none := by
      rw [← hov.dbO _ hknotin]
      exact hdb
    refine ⟨rfl, Or.inr ⟨hbtrue.symm, hknotin, hbasenone, ?_, ?_, ?_, ?_⟩⟩
    · rw [← hst]
      refine ⟨?_, ?_, ?_, ?_, ?_⟩
      · intro e he
        rcases List.mem_cons.mp he with h1 | h1
        · subst h1
          exact mapGet_set_self _ _ _
        · show mapGet (mapSet st.db (storeKey E v h' H)
            (storeCipher E v h' H)) e.key = _
          rw [mapGet_set_other _ _ _ _ (fun hh => hknotin e h1 hh.symm)]
          exact hov.dbN e h1
      · intro j hj
        show mapGet (mapSet st.db (storeKey E v h' H) (storeCipher E v h' H)) j = _
        have hne : storeKey E v h' H ≠ j := by
          intro hh
          exact hj ⟨storeKey E v h' H, v, h'⟩ (List.mem_cons_self _ _) hh
        rw [mapGet_set_other _ _ _ _ hne]
        exact hov.dbO j (fun e he => hj e (List.mem_cons_of_mem _ he))
      · intro j
        show mapGet (incChildren st.rc v) j = _
        cases v with
        | leaf mb =>
          rw [show incChildren st.rc (.leaf mb) = st.rc from rfl]
          rw [hov.rcS j]
          have hrefs : refs (⟨storeKey E (NodeVal.leaf mb) h' H,
              NodeVal.leaf mb, h'⟩ :: N) j = refs N j := by
            rw [refs_cons]
            simp [kids, cnt]
          rw [hrefs]
        | super cs =>
          have hfold := foldInc_get cs st.rc
            (fun i => rcv base.rc i + (refs N i : Int))
            (fun i => by
              show 0 ≤ rcv base.rc i + (refs N i : Int)
              have h1 := rcv_nonneg hWF i
              have h2 : (0 : Int) ≤ (refs N i : Int) := Int.ofNat_nonneg _
              omega)
            (fun i => hov.rcS i) j
          rw [show incChildren st.rc (.super cs) =
            cs.foldl (fun r c => (dbrcInc r c).2) st.rc from rfl]
          rw [hfold]
          have harith : rcv base.rc j + (refs N j : Int) + (cnt j cs : Int) =
              rcv base.rc j +
                ((refs (⟨storeKey E (NodeVal.super cs) h' H,
                  NodeVal.super cs, h'⟩ :: N) j : Nat) : Int) := by
            rw [refs_cons]
            show rcv base.rc j + (refs N j : Int) + (cnt j cs : Int) =
              rcv base.rc j + ((cnt j cs + refs N j : Nat) : Int)
            push_cast
            ring
          rw [harith]
      · exact nodupKeys_mapSet _ _ hov.ndDb
      · show NodupKeys (incChildren st.rc v)
        cases v with
        | leaf mb => exact hov.ndRc
        | super cs => exact foldInc_nodup cs st.rc hov.ndRc
    · intro e he
      rcases List.mem_cons.mp he with h1 | h1
      · subst h1
        exact ⟨rfl, hhH, hlz, hsz⟩
      · exact hEG e h1
    · intro e he
      rcases List.mem_cons.mp he with h1 | h1
      · subst h1
        exact hbasenone
      · exact hFr e h1
    · simp only [List.map_cons, List.nodup_cons]
      refine ⟨?_, hND⟩
      intro hmem
      obtain ⟨e, he, hkey⟩ := List.mem_map.mp hmem
      exact hknotin e he hkey

/-- Invariant carried through `_put_chunk`'s loops: the state is an overlay of
fresh, internally consistent records whose counters hold exactly the child
references; every record is either referenced or still sits in a buffer, its
children are present, and buffered digests are genuine digests one level up. -/
structure PutStage (E : Engine) (H : Nat) (base : StoreState) (N : List NEnt)
    (bufs : Nat → List Bytes) (st : StoreState) : Prop where
  ov : Overlay E H base N (refs N) st
  eg : ∀ e ∈ N, EGood E H e
  fr : ∀ e ∈ N, mapGet base.db e.key = none
  nd : (N.map NEnt.key).Nodup
  bg : BufsGood E H bufs
  cover : ∀ e ∈ N, 1 ≤ refs N e.key ∨ ∃ t, 1 ≤ t ∧ t ≤ H ∧ e.key ∈ bufs t
  hlt : ∀ e ∈ N, e.hgt < H
  bp : ∀ t k', k' ∈ bufs (t + 1) →
    (∃ e ∈ N, e.key = k') ∨ (mapGet base.db k').isSome
  kp : ∀ e ∈ N, ∀ j ∈ kids e.node,
    (∃ e' ∈ N, e'.key = j) ∨ (mapGet base.db j).isSome

/-- Children listed by a base superchunk entry are present in the base. -/
theorem base_super_children {E : Engine} (hG : GoodWrapper E.wrapper)
    {base : StoreState} (hWF : WFBase E base) {cs : List Bytes} {t H : Nat}
    (ht : 1 ≤ t)
    (hlen : ∀ k' ∈ cs, k'.length = E.wrapper.digestSize)
    (hsome : (mapGet base.db (storeKey E (.super cs) t H)).isSome) :
    ∀ k' ∈ cs, (mapGet base.db k').isSome := by
  obtain ⟨c, hc⟩ := Option.isSome_iff_exists.mp hsome
  obtain ⟨p0, h0, r0, hw0⟩ := hWF.good _ _ hc
  have hdg : (E.wrapper.wrap (serializeNode E.wrapper.digestSize (.super cs)) t
      ((t : Nat) == H)).2 = (E.wrapper.wrap p0 h0 r0).2 := by
    rw [hw0]
    rfl
  obtain ⟨hww, -, -⟩ := hG.inj _ _ _ _ _ _ hdg
  have hwV : E.wrapper.wrap (serializeNode E.wrapper.digestSize (.super cs)) t
      ((t : Nat) == H) = (c, storeKey E (.super cs) t H) := hww.trans hw0
  have hsp : splitBlocks E.wrapper.digestSize
      (serializeNode E.wrapper.digestSize (.super cs)) = .ok cs := by
    rw [serializeNode_super _ _ hlen]
    exact splitBlocks_flatten _ hG.dpos _ hlen
  exact fun k' hk' => hWF.childrenPresent _ _ hc _ _ _ hwV ht _ hsp k' hk'

theorem range'_bounds (n : Nat) : ∀ (s : Nat), ∀ t ∈ List.range' s n,
    s ≤ t ∧ t < s + n := by
  induction n with
  | zero =>
    intro s t ht
    simp [List.range'] at ht
  | succ n ih =>
    intro s t ht
    rw [List.range'_succ] at ht
    rcases List.mem_cons.mp ht with h | h
    · omega
    · have := ih (s + 1) t h
      omega

theorem riseStore_frame {E : Engine} {h rootH : Nat} :
    ∀ (ts : List Nat) (bufs : Nat → List Bytes) (st : StoreState)
      (bufs' : Nat → List Bytes) (st' : StoreState) (t : Nat),
      (∀ u ∈ ts, u ≠ t ∧ u + 1 ≠ t) →
      riseStore E h rootH ts bufs st = .ok (bufs', st') → bufs' t = bufs t := by
  intro ts
  induction ts with
  | nil =>
    intro bufs st bufs' st' t hu hr
    simp only [riseStore, Except.ok.injEq, Prod.mk.injEq] at hr
    rw [← hr.1]
  | cons u ts ih =>
    intro bufs st bufs' st' t hu hr
    simp only [riseStore] at hr
    cases hstore : storeNode E (.super (bufs u)) u rootH st with
    | error e => rw [hstore] at hr; simp at hr
    | ok res =>
      obtain ⟨⟨k, b⟩, st₀⟩ := res
      rw [hstore] at hr
      by_cases hg : u + 1 ≤ h
      · simp only [hg, if_true] at hr
        have hfr := ih _ _ _ _ t (fun u' hu' => hu u' (List.mem_cons_of_mem _ hu')) hr
        rw [hfr]
        obtain ⟨h1, h2⟩ := hu u (List.mem_cons_self _ _)
        show (if t = u then [] else if t = u + 1 then bufs (u + 1) ++ [k]
          else bufs t) = bufs t
        rw [if_neg (fun hh => h1 hh.symm), if_neg (fun hh => h2 hh.symm)]
      · simp only [hg, if_false] at hr
        simp at hr

theorem riseStore_clears {E : Engine} {h rootH : Nat} :
    ∀ (n s : Nat) (bufs : Nat → List Bytes) (st : StoreState)
      (bufs' : Nat → List Bytes) (st' : StoreState),
      riseStore E h rootH (List.range' s n) bufs st = .ok (bufs', st') →
      ∀ t, s ≤ t → t < s + n → bufs' t = [] := by
  intro n
  induction n with
  | zero =>
    intro s bufs st bufs' st' hr t h1 h2
    omega
  | succ n ih =>
    intro s bufs st bufs' st' hr t h1 h2
    rw [List.range'_succ] at hr
    simp only [riseStore] at hr
    cases hstore : storeNode E (.super (bufs s)) s rootH st with
    | error e => rw [hstore] at hr; simp at hr
    | ok res =>
      obtain ⟨⟨k, b⟩, st₀⟩ := res
      rw [hstore] at hr
      by_cases hg : s + 1 ≤ h
      · simp only [hg, if_true] at hr
        by_cases hts : t = s
        · subst hts
          have hfr := riseStore_frame _ _ _ _ _ t
            (fun u hu => by
              obtain ⟨hl, hh⟩ := range'_bounds n (t + 1) u hu
              exact ⟨by omega, by omega⟩) hr
          rw [hfr]
          show (if t = t then [] else _) = []
          rw [if_pos rfl]
        · exact ih (s + 1) _ _ _ _ hr t (by omega) (by omega)
      · simp only [hg, if_false] at hr
        simp at hr

/-- The inner loop of `_put_chunk` preserves the put invariant. -/
theorem riseStore_overlay {E : Engine} (hG : GoodWrapper E.wrapper)
    {H : Nat} {base : StoreState} (hWF : WFBase E base) :
    ∀ (ts : List Nat) (N : List NEnt) (bufs : Nat → List Bytes) (st : StoreState)
      (bufs' : Nat → List Bytes) (st' : StoreState),
      (∀ t ∈ ts, 1 ≤ t) →
      PutStage E H base N bufs st →
      riseStore E H H ts bufs st = .ok (bufs', st') →
      ∃ N', PutStage E H base N' bufs' st' := by
  intro ts
  induction ts with
  | nil =>
    intro N bufs st bufs' st' hts hPS hr
    simp only [riseStore, Except.ok.injEq, Prod.mk.injEq] at hr
    rw [← hr.1, ← hr.2]
    exact ⟨N, hPS⟩
  | cons t ts ih =>
    intro N bufs st bufs' st' hts hPS hr
    simp only [riseStore] at hr
    cases hstore : storeNode E (.super (bufs t)) t H st with
    | error e => rw [hstore] at hr; simp at hr
    | ok res =>
      obtain ⟨⟨k, b⟩, st₀⟩ := res
      rw [hstore] at hr
      by_cases hg : t + 1 ≤ H
      · simp only [hg, if_true] at hr
        have ht1 : 1 ≤ t := hts t (List.mem_cons_self _ _)
        have hlens : ∀ k' ∈ bufs t, k'.length = E.wrapper.digestSize := by
          intro k' hk'
          obtain ⟨-, v', hv'⟩ := hPS.bg (t - 1) k'
            (by rw [Nat.sub_add_cancel ht1]; exact hk')
          rw [hv', storeKey]
          exact hG.dlen _ _ _
        have hso := storeNode_overlay hG hWF hPS.ov hPS.eg hPS.fr hPS.nd
          (by intro mb hmb; cases hmb) (by omega)
          (by
            intro cs hcs
            cases hcs
            refine ⟨ht1, ?_⟩
            intro k' hk'
            obtain ⟨-, v', hv'⟩ := hPS.bg (t - 1) k'
              (by rw [Nat.sub_add_cancel ht1]; exact hk')
            exact ⟨v', hv'⟩) hstore
        obtain ⟨hk, hcases⟩ := hso
        -- buffered digests after the shift
        have hbg' : BufsGood E H (shiftBuf bufs t k) := by
          intro j k' hk'
          simp only [shiftBuf] at hk'
          by_cases hj : j + 1 = t
          · rw [if_pos hj] at hk'
            simp at hk'
          · rw [if_neg hj] at hk'
            by_cases hj2 : j + 1 = t + 1
            · rw [if_pos hj2] at hk'
              have hjt : j = t := by omega
              subst hjt
              rcases List.mem_append.mp hk' with h2 | h2
              · exact hPS.bg j k' h2
              · have hke : k' = k := by simpa using h2
                subst hke
                exact ⟨by omega, ⟨.super (bufs j), hk⟩⟩
            · rw [if_neg hj2] at hk'
              exact hPS.bg j k' hk'
        rcases hcases with ⟨hb, hst, hwit⟩ | ⟨hb, hnotin, hbn, hov', heg', hfr', hnd'⟩
        · -- dedup: the node is already recorded or pre-existing
          subst hst
          -- every digest buffered at level t is referenced or base-present
          have hbt : ∀ j ∈ bufs t, 1 ≤ refs N j ∨ (mapGet base.db j).isSome := by
            intro j hj
            rcases hwit with hbs | ⟨e', he', hek', hen', -⟩
            · refine Or.inr ?_
              rw [hk] at hbs
              exact base_super_children hG hWF ht1 hlens hbs j hj
            · refine Or.inl ?_
              have h1 := count_le_refs he' j
              rw [hen'] at h1
              rw [show kids (NodeVal.super (bufs t)) = bufs t from rfl] at h1
              have h2 : 1 ≤ cnt j (bufs t) := cnt_mem_pos hj
              omega
          refine ih N (shiftBuf bufs t k) st₀ bufs' st'
            (fun t' ht' => hts t' (List.mem_cons_of_mem _ ht')) ?_ hr
          refine ⟨hPS.ov, hPS.eg, hPS.fr, hPS.nd, hbg', ?_, hPS.hlt, ?_, hPS.kp⟩
          · intro e he
            rcases hPS.cover e he with h1 | ⟨t', h1, h2, h3⟩
            · exact Or.inl h1
            · by_cases htt : t' = t
              · subst htt
                rcases hbt e.key h3 with h4 | h4
                · exact Or.inl h4
                · exact absurd h4 (by rw [hPS.fr e he]; simp)
              · refine Or.inr ⟨t', h1, h2, ?_⟩
                show e.key ∈ (if t' = t then [] else if t' = t + 1 then
                  bufs (t + 1) ++ [k] else bufs t')
                rw [if_neg htt]
                by_cases htt2 : t' = t + 1
                · rw [if_pos htt2]
                  rw [htt2] at h3
                  exact List.mem_append_left _ h3
                · rw [if_neg htt2]
                  exact h3
          · intro j k' hk'
            simp only [shiftBuf] at hk'
            by_cases hj : j + 1 = t
            · rw [if_pos hj] at hk'
              simp at hk'
            · rw [if_neg hj] at hk'
              by_cases hj2 : j + 1 = t + 1
              · rw [if_pos hj2] at hk'
                rcases List.mem_append.mp hk' with h2 | h2
                · have hjt : j = t := by omega
                  subst hjt
                  exact hPS.bp j k' h2
                · have hke : k' = k := by simpa using h2
                  subst hke
                  rcases hwit with hbs | ⟨e', he', hek', -⟩
                  · exact Or.inr (hk ▸ hbs)
                  · exact Or.inl ⟨e', he', by rw [hek', hk]⟩
              · rw [if_neg hj2] at hk'
                exact hPS.bp j k' hk'
        · -- insert: one more record, children taken from the consumed buffer
          subst hb
          set ent : NEnt := ⟨k, .super (bufs t), t⟩ with hent
          refine ih (ent :: N) (shiftBuf bufs t k) st₀ bufs' st'
            (fun t' ht' => hts t' (List.mem_cons_of_mem _ ht')) ?_ hr
          have hkids : kids ent.node = bufs t := rfl
          refine ⟨hov', heg', hfr', hnd', hbg', ?_, ?_, ?_, ?_⟩
          · intro e he
            rcases List.mem_cons.mp he with h1 | h1
            · subst h1
              refine Or.inr ⟨t + 1, by omega, hg, ?_⟩
              show ent.key ∈ (if t + 1 = t then [] else if t + 1 = t + 1 then
                bufs (t + 1) ++ [k] else bufs (t + 1))
              rw [if_neg (by omega), if_pos rfl]
              exact List.mem_append_right _ (List.mem_singleton.mpr rfl)
            · rcases hPS.cover e h1 with h2 | ⟨t', h2, h3, h4⟩
              · refine Or.inl ?_
                rw [refs_cons]
                omega
              · by_cases htt : t' = t
                · rw [htt] at h4
                  refine Or.inl ?_
                  rw [refs_cons, hkids]
                  have : 1 ≤ cnt e.key (bufs t) := cnt_mem_pos h4
                  omega
                · refine Or.inr ⟨t', h2, h3, ?_⟩
                  show e.key ∈ (if t' = t then [] else if t' = t + 1 then
                    bufs (t + 1) ++ [k] else bufs t')
                  rw [if_neg htt]
                  by_cases htt2 : t' = t + 1
                  · rw [if_pos htt2]
                    rw [htt2] at h4
                    exact List.mem_append_left _ h4
                  · rw [if_neg htt2]
                    exact h4
          · intro e he
            rcases List.mem_cons.mp he with h1 | h1
            · subst h1
              show t < H
              omega
            · exact hPS.hlt e h1
          · intro j k' hk'
            simp only [shiftBuf] at hk'
            by_cases hj : j + 1 = t
            · rw [if_pos hj] at hk'
              simp at hk'
            · rw [if_neg hj] at hk'
              by_cases hj2 : j + 1 = t + 1
              · rw [if_pos hj2] at hk'
                rcases List.mem_append.mp hk' with h2 | h2
                · have hjt : j = t := by omega
                  subst hjt
                  rcases hPS.bp j k' h2 with ⟨e', he', hek'⟩ | h3
                  · exact Or.inl ⟨e', List.mem_cons_of_mem _ he', hek'⟩
                  · exact Or.inr h3
                · have hke : k' = k := by simpa using h2
                  subst hke
                  exact Or.inl ⟨ent, List.mem_cons_self _ _, rfl⟩
              · rw [if_neg hj2] at hk'
                rcases hPS.bp j k' hk' with ⟨e', he', hek'⟩ | h3
                · exact Or.inl ⟨e', List.mem_cons_of_mem _ he', hek'⟩
                · exact Or.inr h3
          · intro e he
            rcases List.mem_cons.mp he with h1 | h1
            · subst h1
              intro j hj
              rw [hkids] at hj
              rcases hPS.bp (t - 1) j (by rw [Nat.sub_add_cancel ht1]; exact hj)
                with ⟨e', he', hek'⟩ | h3
              · exact Or.inl ⟨e', List.mem_cons_of_mem _ he', hek'⟩
              · exact Or.inr h3
            · intro j hj
              rcases hPS.kp e h1 j hj with ⟨e', he', hek'⟩ | h3
              · exact Or.inl ⟨e', List.mem_cons_of_mem _ he', hek'⟩
              · exact Or.inr h3
      · simp only [hg, if_false] at hr
        simp at hr

/-- The boundary loop of `_put_chunk` preserves the put invariant. -/
theorem putLoop_overlay {E : Engine} (hG : GoodWrapper E.wrapper)
    {H : Nat} {base : StoreState} (hWF : WFBase E base) {m : Bytes} :
    ∀ (ps : List ((Nat × Nat) × (Nat × Nat))) (N : List NEnt)
      (bufs : Nat → List Bytes) (st : StoreState)
      (bufs' : Nat → List Bytes) (st' : StoreState),
      PutStage E H base N bufs st →
      putLoop E m H H ps bufs st = .ok (bufs', st') →
      ∃ N', PutStage E H base N' bufs' st' := by
  intro ps
  induction ps with
  | nil =>
    intro N bufs st bufs' st' hPS hr
    simp only [putLoop, Except.ok.injEq, Prod.mk.injEq] at hr
    rw [← hr.1, ← hr.2]
    exact ⟨N, hPS⟩
  | cons pr ps ih =>
    intro N bufs st bufs' st' hPS hr
    obtain ⟨⟨s0, l0⟩, ⟨e0, bh0⟩⟩ := pr
    simp only [putLoop] at hr
    cases hstore : storeNode E (.leaf ((m.drop s0).take (e0 - s0))) 0 H st with
    | error err => rw [hstore] at hr; simp at hr
    | ok res =>
      obtain ⟨⟨k0, b0⟩, st₀⟩ := res
      rw [hstore] at hr
      by_cases hg : 1 ≤ H
      · simp only [hg, if_true] at hr
        have hso := storeNode_overlay hG hWF hPS.ov hPS.eg hPS.fr hPS.nd
          (fun _ _ => rfl) (by omega) (by intro cs hcs; cases hcs) hstore
        obtain ⟨hk0, hcases⟩ := hso
        cases hrise : riseStore E H H (List.range' 1 bh0) (pushBuf bufs 1 k0) st₀ with
        | error err => rw [hrise] at hr; simp at hr
        | ok res₁ =>
          obtain ⟨bufs₁, st₁⟩ := res₁
          rw [hrise] at hr
          simp only at hr
          have hts : ∀ t ∈ List.range' 1 bh0, 1 ≤ t :=
            fun t ht => range'_le bh0 1 t ht
          rcases hcases with ⟨hb, hst, hwit⟩ | ⟨hb, hnotin, hbn, hov', heg', hfr', hnd'⟩
          · -- dedup: push the known digest and continue
            subst hst
            have hPS' : PutStage E H base N (pushBuf bufs 1 k0) st₀ := by
              refine ⟨hPS.ov, hPS.eg, hPS.fr, hPS.nd, ?_, ?_, hPS.hlt, ?_, hPS.kp⟩
              · intro j k' hk'
                simp only [pushBuf] at hk'
                by_cases hj : j + 1 = 1
                · rw [if_pos hj] at hk'
                  have hj0 : j = 0 := by omega
                  subst hj0
                  rcases List.mem_append.mp hk' with h2 | h2
                  · exact hPS.bg 0 k' h2
                  · have hke : k' = k0 := by simpa using h2
                    subst hke
                    exact ⟨hg, ⟨.leaf ((m.drop s0).take (e0 - s0)), hk0⟩⟩
                · rw [if_neg hj] at hk'
                  exact hPS.bg j k' hk'
              · intro e he
                rcases hPS.cover e he with h1 | ⟨t', h1, h2, h3⟩
                · exact Or.inl h1
                · refine Or.inr ⟨t', h1, h2, ?_⟩
                  show e.key ∈ (if t' = 1 then bufs 1 ++ [k0] else bufs t')
                  by_cases htt : t' = 1
                  · rw [if_pos htt]
                    rw [htt] at h3
                    exact List.mem_append_left _ h3
                  · rw [if_neg htt]
                    exact h3
              · intro j k' hk'
                simp only [pushBuf] at hk'
                by_cases hj : j + 1 = 1
                · rw [if_pos hj] at hk'
                  have hj0 : j = 0 := by omega
                  subst hj0
                  rcases List.mem_append.mp hk' with h2 | h2
                  · exact hPS.bp 0 k' h2
                  · have hke : k' = k0 := by simpa using h2
                    subst hke
                    rcases hwit with hbs | ⟨e', he', hek', -⟩
                    · exact Or.inr hbs
                    · exact Or.inl ⟨e', he', hek'⟩
                · rw [if_neg hj] at hk'
                  exact hPS.bp j k' hk'
            obtain ⟨N₁, hPS₁⟩ := riseStore_overlay hG hWF _ _ _ _ _ _ hts hPS' hrise
            exact ih _ _ _ _ _ hPS₁ hr
          · -- insert: one more leaf record
            subst hb
            have hPS' : PutStage E H base (⟨k0, .leaf ((m.drop s0).take (e0 - s0)), 0⟩ :: N)
                (pushBuf bufs 1 k0) st₀ := by
              refine ⟨hov', heg', hfr', hnd', ?_, ?_, ?_, ?_, ?_⟩
              · intro j k' hk'
                simp only [pushBuf] at hk'
                by_cases hj : j + 1 = 1
                · rw [if_pos hj] at hk'
                  have hj0 : j = 0 := by omega
                  subst hj0
                  rcases List.mem_append.mp hk' with h2 | h2
                  · exact hPS.bg 0 k' h2
                  · have hke : k' = k0 := by simpa using h2
                    subst hke
                    exact ⟨hg, ⟨.leaf ((m.drop s0).take (e0 - s0)), hk0⟩⟩
                · rw [if_neg hj] at hk'
                  exact hPS.bg j k' hk'
              · intro e he
                rcases List.mem_cons.mp he with h1 | h1
                · subst h1
                  refine Or.inr ⟨1, le_rfl, hg, ?_⟩
                  show k0 ∈ (if 1 = 1 then bufs 1 ++ [k0] else bufs 1)
                  rw [if_pos rfl]
                  exact List.mem_append_right _ (List.mem_singleton.mpr rfl)
                · rcases hPS.cover e h1 with h2 | ⟨t', h2, h3, h4⟩
                  · refine Or.inl ?_
                    rw [refs_cons]
                    omega
                  · refine Or.inr ⟨t', h2, h3, ?_⟩
                    show e.key ∈ (if t' = 1 then bufs 1 ++ [k0] else bufs t')
                    by_cases htt : t' = 1
                    · rw [if_pos htt]
                      rw [htt] at h4
                      exact List.mem_append_left _ h4
                    · rw [if_neg htt]
                      exact h4
              · intro e he
                rcases List.mem_cons.mp he with h1 | h1
                · subst h1
                  show 0 < H
                  omega
                · exact hPS.hlt e h1
              · intro j k' hk'
                simp only [pushBuf] at hk'
                by_cases hj : j + 1 = 1
                · rw [if_pos hj] at hk'
                  have hj0 : j = 0 := by omega
                  subst hj0
                  rcases List.mem_append.mp hk' with h2 | h2
                  · rcases hPS.bp 0 k' h2 with ⟨e', he', hek'⟩ | h3
                    · exact Or.inl ⟨e', List.mem_cons_of_mem _ he', hek'⟩
                    · exact Or.inr h3
                  · have hke : k' = k0 := by simpa using h2
                    subst hke
                    exact Or.inl ⟨_, List.mem_cons_self _ _, rfl⟩
                · rw [if_neg hj] at hk'
                  rcases hPS.bp j k' hk' with ⟨e', he', hek'⟩ | h3
                  · exact Or.inl ⟨e', List.mem_cons_of_mem _ he', hek'⟩
                  · exact Or.inr h3
              · intro e he
                rcases List.mem_cons.mp he with h1 | h1
                · subst h1
                  intro j hj
                  cases hj
                · intro j hj
                  rcases hPS.kp e h1 j hj with ⟨e', he', hek'⟩ | h3
                  · exact Or.inl ⟨e', List.mem_cons_of_mem _ he', hek'⟩
                  · exact Or.inr h3
            obtain ⟨N₁, hPS₁⟩ := riseStore_overlay hG hWF _ _ _ _ _ _ hts hPS' hrise
            exact ih _ _ _ _ _ hPS₁ hr
      · simp only [hg, if_false] at hr
        simp at hr

/-- After the boundary loop, every level up to the last boundary's level is
cleared (the final inner loop shifted them all upward). -/
theorem putLoop_clears {E : Engine} {m : Bytes} {h rootH : Nat} :
    ∀ (ps : List ((Nat × Nat) × (Nat × Nat))) (bufs : Nat → List Bytes)
      (st : StoreState) (bufs' : Nat → List Bytes) (st' : StoreState)
      (pr : (Nat × Nat) × (Nat × Nat)),
      ps.getLast? = some pr →
      putLoop E m h rootH ps bufs st = .ok (bufs', st') →
      ∀ t, 1 ≤ t → t ≤ pr.2.2 → bufs' t = [] := by
  intro ps
  induction ps with
  | nil =>
    intro bufs st bufs' st' pr hlast hr t h1 h2
    simp at hlast
  | cons pr₀ rest ih =>
    intro bufs st bufs' st' pr hlast hr t h1 h2
    obtain ⟨⟨s0, l0⟩, ⟨e0, bh0⟩⟩ := pr₀
    simp only [putLoop] at hr
    cases hstore : storeNode E (.leaf ((m.drop s0).take (e0 - s0))) 0 rootH st with
    | error err => rw [hstore] at hr; simp at hr
    | ok res =>
      obtain ⟨⟨k0, b0⟩, st₀⟩ := res
      rw [hstore] at hr
      by_cases hg : 1 ≤ h
      · simp only [hg, if_true] at hr
        cases hrise : riseStore E h rootH (List.range' 1 bh0) (pushBuf bufs 1 k0) st₀ with
        | error err => rw [hrise] at hr; simp at hr
        | ok res₁ =>
          obtain ⟨bufs₁, st₁⟩ := res₁
          rw [hrise] at hr
          simp only at hr
          cases rest with
          | nil =>
            have hpr : ((s0, l0), (e0, bh0)) = pr := by
              simpa using hlast
            simp only [putLoop, Except.ok.injEq, Prod.mk.injEq] at hr
            rw [← hr.1]
            refine riseStore_clears bh0 1 _ _ _ _ hrise t h1 ?_
            rw [← hpr] at h2
            have h2' : t ≤ bh0 := h2
            omega
          | cons pr₁ rest' =>
            refine ih _ _ _ _ pr ?_ hr t h1 h2
            rw [List.getLast?_cons_cons] at hlast
            exact hlast
      · simp only [hg, if_false] at hr
        simp at hr

theorem zip_tail_getLast {α : Type} : ∀ (bs : List α) (pr : α × α),
    (bs.zip bs.tail).getLast? = some pr → bs.getLast? = some pr.2 := by
  intro bs
  induction bs with
  | nil =>
    intro pr h
    simp at h
  | cons b₀ rest ih =>
    intro pr h
    cases rest with
    | nil => simp at h
    | cons b₁ rest' =>
      rw [show (b₀ :: b₁ :: rest').zip (b₀ :: b₁ :: rest').tail
          = (b₀, b₁) :: ((b₁ :: rest').zip (b₁ :: rest').tail) from rfl] at h
      cases hzl : (b₁ :: rest').zip (b₁ :: rest').tail with
      | nil =>
        rw [hzl] at h
        have hrest : rest' = [] := by
          cases rest' with
          | nil => rfl
          | cons x xs => simp at hzl
        subst hrest
        have hpr : (b₀, b₁) = pr := by simpa using h
        rw [← hpr]
        rfl
      | cons z zl =>
        rw [hzl, List.getLast?_cons_cons] at h
        rw [List.getLast?_cons_cons]
        exact ih pr (by rw [hzl]; exact h)

/-- The root digest of a put is referenced by none of the overlay's records
(every listed child digest decodes below the root's height). -/
theorem refs_root_zero {E : Engine} (hG : GoodWrapper E.wrapper) {H : Nat}
    {N : List NEnt} (hEG : ∀ e ∈ N, EGood E H e) {k : Bytes} {vR : NodeVal}
    (hk : k = storeKey E vR H H) : refs N k = 0 := by
  by_contra hc
  obtain ⟨e', he', hmem⟩ := @refs_pos_mem N k (by omega)
  have hEe := hEG e' he'
  cases hn : e'.node with
  | leaf mb =>
    rw [hn] at hmem
    cases hmem
  | super cs =>
    rw [hn] at hmem
    obtain ⟨h1, hkids⟩ := hEe.2.2.2 cs hn
    obtain ⟨v'', hv''⟩ := hkids k hmem
    have h1 : storeKey E vR H H = storeKey E v'' (e'.hgt - 1) H := by
      rw [← hk]
      exact hv''
    have hd : (E.wrapper.wrap (serializeNode E.wrapper.digestSize vR) H
        ((H : Nat) == H)).2 =
        (E.wrapper.wrap (serializeNode E.wrapper.digestSize v'') (e'.hgt - 1)
          ((e'.hgt - 1 : Nat) == H)).2 := h1
    have hhs := (hG.inj _ _ _ _ _ _ hd).2.2
    have hle := hEe.2.1
    omega

/-- `_put_chunk`'s full effect from a well-formed base: the final state is an
overlay of fresh consistent records whose counters carry exactly the child
references; children of records are present; every record except (possibly)
the root record is referenced; and the root digest is either recorded fresh or
was already present in the base, in which case every record is referenced. -/
theorem putChunk_overlay {E : Engine} (hG : GoodWrapper E.wrapper)
    {base : StoreState} (hWF : WFBase E base) {m : Bytes} {H : Nat}
    {st' : StoreState} {k : Bytes} {b : Bool}
    (hp : putChunk E m H H base = .ok ((k, b), st')) :
    ∃ N vR,
      Overlay E H base N (refs N) st' ∧
      (∀ e ∈ N, EGood E H e) ∧
      (∀ e ∈ N, mapGet base.db e.key = none) ∧
      ((N.map NEnt.key).Nodup) ∧
      (∀ e ∈ N, ∀ j ∈ kids e.node,
        (∃ e' ∈ N, e'.key = j) ∨ (mapGet base.db j).isSome) ∧
      k = storeKey E vR H H ∧
      (∀ mb, vR = .leaf mb → H = 0) ∧
      (∀ cs, vR = .super cs →
        1 ≤ H ∧ ∀ k' ∈ cs, ∃ v'', k' = storeKey E v'' (H - 1) H) ∧
      (∀ e ∈ N, 1 ≤ refs N e.key ∨ e.key = k) ∧
      ((∃ e ∈ N, e.key = k ∧ e.node = vR ∧ e.hgt = H) ∨
        ((mapGet base.db k).isSome ∧ ∀ e ∈ N, 1 ≤ refs N e.key)) := by
  have hrcS0 : ∀ j, mapGet base.rc j =
      if rcv base.rc j + ((refs ([] : List NEnt) j : Nat) : Int) = 0 then none
      else some (rcv base.rc j + ((refs ([] : List NEnt) j : Nat) : Int)) := by
    intro j
    have hr0 : refs ([] : List NEnt) j = 0 := rfl
    rw [hr0]
    cases hg0 : mapGet base.rc j with
    | none =>
      have hv : rcv base.rc j = 0 := by simp [rcv, hg0]
      rw [hv]
      simp
    | some n =>
      have hn := (hWF.countedPresent j n hg0).2
      have hv : rcv base.rc j = n := by simp [rcv, hg0]
      rw [hv, if_neg (by push_cast; omega)]
      push_cast
      simp
  have hov0 : Overlay E H base [] (refs []) base :=
    ⟨fun e he => absurd he (List.not_mem_nil e), fun j _ => rfl, hrcS0,
      hWF.ndDb, hWF.ndRc⟩
  have hstage0 : PutStage E H base [] (fun _ => []) base := by
    refine ⟨hov0, ?_, ?_, ?_, ?_, ?_, ?_, ?_, ?_⟩
    · exact fun e he => absurd he (List.not_mem_nil e)
    · exact fun e he => absurd he (List.not_mem_nil e)
    · simp
    · intro t k' hk'
      exact absurd hk' (List.not_mem_nil k')
    · exact fun e he => absurd he (List.not_mem_nil e)
    · exact fun e he => absurd he (List.not_mem_nil e)
    · intro t k' hk'
      exact absurd hk' (List.not_mem_nil k')
    · exact fun e he => absurd he (List.not_mem_nil e)
  by_cases hh : H = 0
  · subst hh
    rw [show putChunk E m 0 0 base = storeNode E (.leaf m) 0 0 base from rfl] at hp
    have hso := storeNode_overlay hG hWF hov0
      (fun e he => absurd he (List.not_mem_nil e))
      (fun e he => absurd he (List.not_mem_nil e)) (by simp)
      (fun _ _ => rfl) le_rfl (by intro cs hcs; cases hcs) hp
    obtain ⟨hk, hcases⟩ := hso
    rcases hcases with ⟨hb, hst, hwit⟩ | ⟨hb, hnotin, hbn, hov', heg', hfr', hnd'⟩
    · rw [hst]
      have hbase : (mapGet base.db k).isSome := by
        rcases hwit with h1 | ⟨e, he, -⟩
        · exact h1
        · exact absurd he (List.not_mem_nil e)
      refine ⟨[], .leaf m, hov0, ?_, ?_, by simp, ?_, hk, ?_, ?_, ?_, ?_⟩
      · exact fun e he => absurd he (List.not_mem_nil e)
      · exact fun e he => absurd he (List.not_mem_nil e)
      · exact fun e he => absurd he (List.not_mem_nil e)
      · exact fun mb h => rfl
      · intro cs hcs
        cases hcs
      · exact fun e he => absurd he (List.not_mem_nil e)
      · exact Or.inr ⟨hbase, fun e he => absurd he (List.not_mem_nil e)⟩
    · refine ⟨[⟨k, .leaf m, 0⟩], .leaf m, hov', heg', hfr', hnd', ?_, hk,
        ?_, ?_, ?_, ?_⟩
      · intro e he j hj
        rcases List.mem_cons.mp he with h1 | h1
        · subst h1
          cases hj
        · cases h1
      · exact fun mb h => rfl
      · intro cs hcs
        cases hcs
      · intro e he
        rcases List.mem_cons.mp he with h1 | h1
        · subst h1
          exact Or.inr rfl
        · cases h1
      · exact Or.inl ⟨⟨k, .leaf m, 0⟩, List.mem_cons_self _ _, rfl, rfl, rfl⟩
  · simp only [putChunk, if_neg hh] at hp
    cases hloop : putLoop E m H H
        ((boundsFor E m H).zip (boundsFor E m H).tail) (fun _ => []) base with
    | error e => rw [hloop] at hp; simp at hp
    | ok res =>
      obtain ⟨bufsL, stL⟩ := res
      rw [hloop] at hp
      simp only at hp
      have hH1 : 1 ≤ H := Nat.one_le_iff_ne_zero.mpr hh
      obtain ⟨N₁, hPS₁⟩ := putLoop_overlay hG hWF _ _ _ _ _ _ hstage0 hloop
      have hclears : ∀ t, 1 ≤ t → t ≤ H - 1 → bufsL t = [] := by
        cases hzl : ((boundsFor E m H).zip (boundsFor E m H).tail).getLast? with
        | none =>
          have hz : (boundsFor E m H).zip (boundsFor E m H).tail = [] := by
            cases hx : (boundsFor E m H).zip (boundsFor E m H).tail with
            | nil => rfl
            | cons a l =>
              rw [hx] at hzl
              simp at hzl
          rw [hz] at hloop
          simp only [putLoop, Except.ok.injEq, Prod.mk.injEq] at hloop
          intro t h1 h2
          rw [← hloop.1]
        | some pr =>
          have hlastb := zip_tail_getLast _ _ hzl
          have hlast2 : (boundsFor E m H).getLast? = some (m.length, H - 1) := by
            rw [boundsFor]
            exact List.getLast?_concat _
          have hpr2 : pr.2 = (m.length, H - 1) :=
            Option.some_inj.mp (hlastb.symm.trans hlast2)
          intro t h1 h2
          refine putLoop_clears _ _ _ _ _ pr hzl hloop t h1 ?_
          rw [hpr2]
          exact h2
      have hlens : ∀ k' ∈ bufsL H, k'.length = E.wrapper.digestSize := by
        intro k' hk'
        obtain ⟨-, v', hv'⟩ := hPS₁.bg (H - 1) k'
          (by rw [Nat.sub_add_cancel hH1]; exact hk')
        rw [hv', storeKey]
        exact hG.dlen _ _ _
      have hbufwit : ∀ (e : NEnt), (∃ t', 1 ≤ t' ∧ t' ≤ H ∧ e.key ∈ bufsL t') →
          e.key ∈ bufsL H := by
        rintro e ⟨t', h1, h2, h3⟩
        by_cases ht' : t' = H
        · rw [← ht']
          exact h3
        · rw [hclears t' h1 (by omega)] at h3
          cases h3
      have hso := storeNode_overlay hG hWF hPS₁.ov hPS₁.eg hPS₁.fr hPS₁.nd
        (by intro mb hmb; cases hmb) le_rfl
        (by
          intro cs hcs
          cases hcs
          refine ⟨hH1, ?_⟩
          intro k' hk'
          obtain ⟨-, v', hv'⟩ := hPS₁.bg (H - 1) k'
            (by rw [Nat.sub_add_cancel hH1]; exact hk')
          exact ⟨v', hv'⟩) hp
      obtain ⟨hk, hcases⟩ := hso
      rcases hcases with ⟨hb, hst, hwit⟩ | ⟨hb, hnotin, hbn, hov', heg', hfr', hnd'⟩
      · -- the root was already present in the base
        subst hst
        have hrootnotin : ∀ e ∈ N₁, ¬(e.key = k) := by
          intro e he hek
          have hEe := hPS₁.eg e he
          have h1 : storeKey E e.node e.hgt H = storeKey E (.super (bufsL H)) H H := by
            rw [← hEe.1, hek, hk]
          have hd : (E.wrapper.wrap (serializeNode E.wrapper.digestSize e.node) e.hgt
              ((e.hgt : Nat) == H)).2 =
              (E.wrapper.wrap (serializeNode E.wrapper.digestSize (.super (bufsL H))) H
                ((H : Nat) == H)).2 := h1
          have hhs := (hG.inj _ _ _ _ _ _ hd).2.2
          have := hPS₁.hlt e he
          omega
        have hbase : (mapGet base.db k).isSome := by
          rcases hwit with h1 | ⟨e, he, hek, -⟩
          · exact h1
          · exact absurd hek (hrootnotin e he)
        have hbase' : (mapGet base.db (storeKey E (.super (bufsL H)) H H)).isSome := by
          rw [← hk]
          exact hbase
        have hlive : ∀ e ∈ N₁, 1 ≤ refs N₁ e.key := by
          intro e he
          rcases hPS₁.cover e he with h1 | hbuf
          · exact h1
          · have hmem := hbufwit e hbuf
            have hpres := base_super_children hG hWF hH1 hlens hbase' e.key hmem
            rw [hPS₁.fr e he] at hpres
            simp at hpres
        refine ⟨N₁, .super (bufsL H), hPS₁.ov, hPS₁.eg, hPS₁.fr, hPS₁.nd,
          hPS₁.kp, hk, ?_, ?_, ?_, Or.inr ⟨hbase, hlive⟩⟩
        · intro mb h
          cases h
        · intro cs hcs
          cases hcs
          refine ⟨hH1, ?_⟩
          intro k' hk'
          obtain ⟨-, v', hv'⟩ := hPS₁.bg (H - 1) k'
            (by rw [Nat.sub_add_cancel hH1]; exact hk')
          exact ⟨v', hv'⟩
        · exact fun e he => Or.inl (hlive e he)
      · -- fresh root record
        refine ⟨⟨k, .super (bufsL H), H⟩ :: N₁, .super (bufsL H), hov', heg',
          hfr', hnd', ?_, hk, ?_, ?_, ?_, ?_⟩
        · intro e he j hj
          rcases List.mem_cons.mp he with h1 | h1
          · subst h1
            rcases hPS₁.bp (H - 1) j
              (by rw [Nat.sub_add_cancel hH1]; exact hj) with ⟨e', he', hek'⟩ | h3
            · exact Or.inl ⟨e', List.mem_cons_of_mem _ he', hek'⟩
            · exact Or.inr h3
          · rcases hPS₁.kp e h1 j hj with ⟨e', he', hek'⟩ | h3
            · exact Or.inl ⟨e', List.mem_cons_of_mem _ he', hek'⟩
            · exact Or.inr h3
        · intro mb h
          cases h
        · intro cs hcs
          cases hcs
          refine ⟨hH1, ?_⟩
          intro k' hk'
          obtain ⟨-, v', hv'⟩ := hPS₁.bg (H - 1) k'
            (by rw [Nat.sub_add_cancel hH1]; exact hk')
          exact ⟨v', hv'⟩
        · intro e he
          rcases List.mem_cons.mp he with h1 | h1
          · subst h1
            exact Or.inr rfl
          · rcases hPS₁.cover e h1 with h2 | hbuf
            · refine Or.inl ?_
              rw [refs_cons]
              omega
            · have hmem := hbufwit e hbuf
              refine Or.inl ?_
              rw [refs_cons]
              show 1 ≤ cnt e.key (kids (NodeVal.super (bufsL H))) + refs N₁ e.key
              have h3 : 1 ≤ cnt e.key (kids (NodeVal.super (bufsL H))) :=
                cnt_mem_pos hmem
              omega
        · exact Or.inl ⟨⟨k, .super (bufsL H), H⟩, List.mem_cons_self _ _,
            rfl, rfl, rfl⟩

theorem Overlay.congr {E : Engine} {H : Nat} {base : StoreState} {N : List NEnt}
    {p q : Bytes → Nat} {st : StoreState} (h : Overlay E H base N p st)
    (hpq : ∀ i, p i = q i) : Overlay E H base N q st := by
  refine ⟨h.dbN, h.dbO, ?_, h.ndDb, h.ndRc⟩
  intro i
  rw [← hpq i]
  exact h.rcS i

theorem Overlay.perm {E : Engine} {H : Nat} {base : StoreState} {N₁ N₂ : List NEnt}
    {p : Bytes → Nat} {st : StoreState} (hp : N₁.Perm N₂)
    (h : Overlay E H base N₁ p st) : Overlay E H base N₂ p st := by
  refine ⟨?_, ?_, h.rcS, h.ndDb, h.ndRc⟩
  · intro e he
    exact h.dbN e (hp.mem_iff.mpr he)
  · intro i hi
    exact h.dbO i (fun e he => hi e (hp.mem_iff.mp he))

theorem key_unique {N : List NEnt} (hnd : (N.map NEnt.key).Nodup)
    {e₁ e₂ : NEnt} (h₁ : e₁ ∈ N) (h₂ : e₂ ∈ N) (hk : e₁.key = e₂.key) :
    e₁ = e₂ :=
  List.inj_on_of_nodup_map hnd h₁ h₂ hk

theorem deleteChunk_absent {E : Engine} {H : Nat} (h : Nat) (k : Bytes)
    (st : StoreState) (habs : mapGet st.db k = none) :
    deleteChunk E H h k st = .error () := by
  cases h with
  | zero =>
    show delEntry st k = .error ()
    simp [delEntry, habs]
  | succ h =>
    show (match getNode E k (h + 1) H (-1) st with
      | .error e => .error e
      | .ok none => .error ()
      | .ok (some (.leaf _)) => .error ()
      | .ok (some (.super cs)) =>
        match delChildren (deleteChunk E H h) cs st with
        | .error e => .error e
        | .ok st' => delEntry st' k) = Except.error ()
    rw [show getNode E k (h + 1) H (-1) st = .error () from by
      simp [getNode, habs]]

theorem cnt_cons_self (c : Bytes) (cs : List Bytes) :
    cnt c (c :: cs) = 1 + cnt c cs := by
  simp [cnt]

theorem cnt_cons_other {c j : Bytes} (h : c ≠ j) (cs : List Bytes) :
    cnt j (c :: cs) = cnt j cs := by
  simp [cnt, h]

/-- The deletion walk consumes overlays exactly: deleting a recorded node whose
pending references have run out removes some of the records (a sublist),
keeps every other counter at its base value plus the remaining pending
references, and leaves every surviving record still referenced. `K` carries
the records of ancestors currently being processed (entries still present,
counters exhausted) and `X` their not-yet-processed child references. -/
theorem deleteChunk_overlay {E : Engine} (hG : GoodWrapper E.wrapper)
    {H : Nat} {base : StoreState} (hWF : WFBase E base) :
    ∀ (h : Nat) (j : NEnt) (N K : List NEnt) (X : Bytes → Nat) (st st' : StoreState),
      Overlay E H base (j :: (N ++ K))
        (fun i => refs N i + cnt i (kids j.node) + X i) st →
      (∀ e ∈ j :: (N ++ K), EGood E H e) →
      (∀ e ∈ j :: (N ++ K), mapGet base.db e.key = none) →
      (((j :: (N ++ K)).map NEnt.key).Nodup) →
      j.hgt = h →
      refs N j.key + X j.key = 0 →
      (∀ e ∈ K, refs N e.key + cnt e.key (kids j.node) + X e.key = 0) →
      (∀ e ∈ N, 1 ≤ refs N e.key + cnt e.key (kids j.node) + X e.key) →
      deleteChunk E H h j.key st = .ok st' →
      ∃ N', N'.Sublist N ∧
        Overlay E H base (N' ++ K) (fun i => refs N' i + X i) st' ∧
        (∀ e ∈ N', 1 ≤ refs N' e.key + X e.key) := by
  intro h
  induction h with
  | zero =>
    intro j N K X st st' hov hEG hFr hND hhj hj0 hK0 hLive hrun
    have hEj := hEG j (List.mem_cons_self _ _)
    have hkid0 : ∀ i, cnt i (kids j.node) = 0 := by
      intro i
      cases hn : j.node with
      | leaf mb => rfl
      | super cs =>
        have h1 := (hEj.2.2.2 cs hn).1
        omega
    obtain ⟨hrc', hdb'⟩ := delEntry_inv hrun
    simp only [List.map_cons, List.nodup_cons] at hND
    refine ⟨N, List.Sublist.refl N, ⟨?_, ?_, ?_, ?_, ?_⟩, ?_⟩
    · intro e he
      rw [hdb']
      have hne : j.key ≠ e.key := by
        intro hh
        exact hND.1 (List.mem_map.mpr ⟨e, he, hh.symm⟩)
      rw [mapGet_del_other _ _ _ hne]
      exact hov.dbN e (List.mem_cons_of_mem _ he)
    · intro i hi
      rw [hdb']
      by_cases hij : j.key = i
      · rw [← hij, mapGet_del_self_nodup hov.ndDb,
          hFr j (List.mem_cons_self _ _)]
      · rw [mapGet_del_other _ _ _ hij]
        exact hov.dbO i (by
          intro e he
          rcases List.mem_cons.mp he with h1 | h1
          · rw [h1]
            exact fun hh => hij hh
          · exact hi e h1)
    · intro i
      rw [hrc', hov.rcS i,
        show refs N i + cnt i (kids j.node) + X i = refs N i + X i from by
          have h1 := hkid0 i
          omega]
    · rw [hdb']
      exact nodupKeys_mapDel _ hov.ndDb
    · rw [hrc']
      exact hov.ndRc
    · intro e he
      have h1 := hLive e he
      have h2 := hkid0 e.key
      omega
  | succ h ih =>
    intro j N K X st st' hov hEG hFr hND hhj hj0 hK0 hLive hrun
    have hEj := hEG j (List.mem_cons_self _ _)
    -- the node is a superchunk whose children are digests at height `h`
    cases hn : j.node with
    | leaf mb =>
      have h0 := hEj.2.2.1 mb hn
      omega
    | super cs =>
    obtain ⟨-, hkidsK⟩ := hEj.2.2.2 cs hn
    have hCS : ∀ i ∈ cs, ∃ v', i = storeKey E v' h H := by
      intro i hi
      obtain ⟨v', hv'⟩ := hkidsK i hi
      rw [hhj] at hv'
      exact ⟨v', by rw [hv', Nat.add_sub_cancel]⟩
    -- retrieving the node succeeds with its recorded children
    have hget : getNode E j.key (h + 1) H (-1) st = .ok (some (.super cs)) := by
      have hdbj := hov.dbN j (List.mem_cons_self _ _)
      rw [hn, hhj] at hdbj
      have hkj : j.key = storeKey E (.super cs) (h + 1) H := by
        rw [show NodeVal.super cs = j.node from hn.symm, ← hhj]
        exact hEj.1
      refine getNode_of_cipher hG (-1) hdbj hkj (fun mb hmb => by cases hmb) ?_
      intro cs' hcs'
      cases hcs'
      refine ⟨by omega, ?_⟩
      intro k' hk'
      obtain ⟨v', hv'⟩ := hkidsK k' hk'
      rw [hv', storeKey]
      exact hG.dlen _ _ _
    -- the inner loop over the children
    have hloop : ∀ (cs0 : List Bytes) (N K : List NEnt) (X : Bytes → Nat)
        (st₀ st₁ : StoreState),
        (∀ i ∈ cs0, ∃ v', i = storeKey E v' h H) →
        Overlay E H base (N ++ K) (fun i => refs N i + cnt i cs0 + X i) st₀ →
        (∀ e ∈ N ++ K, EGood E H e) →
        (∀ e ∈ N ++ K, mapGet base.db e.key = none) →
        (((N ++ K).map NEnt.key).Nodup) →
        (∀ e ∈ K, refs N e.key + cnt e.key cs0 + X e.key = 0) →
        (∀ e ∈ N, 1 ≤ refs N e.key + cnt e.key cs0 + X e.key) →
        delChildren (deleteChunk E H h) cs0 st₀ = .ok st₁ →
        ∃ N', N'.Sublist N ∧
          Overlay E H base (N' ++ K) (fun i => refs N' i + X i) st₁ ∧
          (∀ e ∈ N', 1 ≤ refs N' e.key + X e.key) := by
      intro cs0
      induction cs0 with
      | nil =>
        intro N K X st₀ st₁ hCS0 hov0 hEG0 hFr0 hND0 hK00 hLive0 hrun0
        simp only [delChildren, Except.ok.injEq] at hrun0
        rw [← hrun0]
        refine ⟨N, List.Sublist.refl N, ?_, ?_⟩
        · exact hov0.congr (fun i => by
            show refs N i + cnt i [] + X i = refs N i + X i
            rfl)
        · intro e he
          have h1 := hLive0 e he
          have h2 : cnt e.key ([] : List Bytes) = 0 := rfl
          omega
      | cons c rest ihc =>
        intro N K X st₀ st₁ hCS0 hov0 hEG0 hFr0 hND0 hK00 hLive0 hrun0
        simp only [delChildren] at hrun0
        have hrcc := hov0.rcS c
        have hcpos : 1 ≤ cnt c (c :: rest) := by
          rw [cnt_cons_self]
          omega
        have hrnn := rcv_nonneg hWF c
        have hget0 : mapGet st₀.rc c =
            some (rcv base.rc c + ((refs N c + cnt c (c :: rest) + X c : Nat) : Int)) := by
          rw [hrcc, if_neg (by omega)]
        rw [show dbrcDec st₀.rc c =
            (if rcv base.rc c + ((refs N c + cnt c (c :: rest) + X c : Nat) : Int) - 1 = 0
              then .ok (rcv base.rc c
                  + ((refs N c + cnt c (c :: rest) + X c : Nat) : Int) - 1,
                mapDel st₀.rc c)
              else .ok (rcv base.rc c
                  + ((refs N c + cnt c (c :: rest) + X c : Nat) : Int) - 1,
                mapSet st₀.rc c (rcv base.rc c
                  + ((refs N c + cnt c (c :: rest) + X c : Nat) : Int) - 1)))
            from by simp [dbrcDec, hget0]] at hrun0
        have hcc := cnt_cons_self c rest
        by_cases hz : rcv base.rc c
            + ((refs N c + cnt c (c :: rest) + X c : Nat) : Int) - 1 = 0
        · rw [if_pos hz] at hrun0
          simp only at hrun0
          rw [if_pos hz] at hrun0
          -- the counter ran out: all contributions are zero
          have hzero : rcv base.rc c = 0 ∧ refs N c = 0 ∧ cnt c rest = 0 ∧ X c = 0 := by
            omega
          have hbc : mapGet base.db c = none := by
            cases hbg : mapGet base.db c with
            | none => rfl
            | some cc =>
              have h1 := hWF.presentCounted c (by rw [hbg]; rfl)
              omega
          -- the deleted digest is one of the run's records
          have hcmem : ∃ e ∈ N, e.key = c := by
            by_contra hno
            push_neg at hno
            have habs : mapGet st₀.db c = none := by
              rw [hov0.dbO c ?_, hbc]
              intro e he
              rcases List.mem_append.mp he with h1 | h1
              · exact hno e h1
              · intro hke
                have h2 := hK00 e h1
                rw [hke] at h2
                omega
            rw [deleteChunk_absent h c { st₀ with rc := mapDel st₀.rc c } habs]
              at hrun0
            simp at hrun0
          obtain ⟨ec, hec, heck⟩ := hcmem
          have hecNK : ec ∈ N ++ K := List.mem_append.mpr (Or.inl hec)
          have hEc := hEG0 ec hecNK
          -- its height is h
          have hhc : ec.hgt = h := by
            obtain ⟨vc, hvc⟩ := hCS0 c (List.mem_cons_self _ _)
            have h1 : storeKey E ec.node ec.hgt H = storeKey E vc h H := by
              rw [← hEc.1, heck]
              exact hvc
            have hd : (E.wrapper.wrap (serializeNode E.wrapper.digestSize ec.node)
                ec.hgt ((ec.hgt : Nat) == H)).2 =
                (E.wrapper.wrap (serializeNode E.wrapper.digestSize vc) h
                  ((h : Nat) == H)).2 := h1
            exact (hG.inj _ _ _ _ _ _ hd).2.2
          have hperm : N.Perm (ec :: N.erase ec) := List.perm_cons_erase hec
          have hpermNK : (N ++ K).Perm (ec :: (N.erase ec ++ K)) := by
            calc (N ++ K).Perm ((ec :: N.erase ec) ++ K) := hperm.append_right K
              _ = (ec :: (N.erase ec ++ K)) := rfl
          have hctrans : ∀ (i : Bytes),
              refs N i = cnt i (kids ec.node) + refs (N.erase ec) i := by
            intro i
            exact refs_erase hec i
          cases hsub : deleteChunk E H h c { st₀ with rc := mapDel st₀.rc c } with
          | error err =>
            rw [hsub] at hrun0
            simp at hrun0
          | ok st₂ =>
            rw [hsub] at hrun0
            simp only at hrun0
            nth_rewrite 1 [← heck] at hsub
            -- apply the outer induction hypothesis at the child
            have hovC : Overlay E H base (ec :: (N.erase ec ++ K))
                (fun i => refs (N.erase ec) i + cnt i (kids ec.node)
                  + (fun i' => X i' + cnt i' rest) i)
                { st₀ with rc := mapDel st₀.rc c } := by
              refine ⟨?_, ?_, ?_, hov0.ndDb, ?_⟩
              · intro e he
                exact hov0.dbN e (hpermNK.mem_iff.mpr he)
              · intro i hi
                exact hov0.dbO i (fun e he => hi e (hpermNK.mem_iff.mp he))
              · intro i
                show mapGet (mapDel st₀.rc c) i =
                  if rcv base.rc i + ((refs (N.erase ec) i + cnt i (kids ec.node)
                      + (X i + cnt i rest) : Nat) : Int) = 0 then none
                  else some (rcv base.rc i + ((refs (N.erase ec) i
                      + cnt i (kids ec.node) + (X i + cnt i rest) : Nat) : Int))
                by_cases hic : c = i
                · have h1 := hctrans c
                  rw [← hic, mapGet_del_self_nodup hov0.ndRc, if_pos (by omega)]
                · have h1 := hctrans i
                  have h2 := cnt_cons_other hic rest
                  rw [mapGet_del_other _ _ _ hic, hov0.rcS i,
                    show refs N i + cnt i (c :: rest) + X i
                      = refs (N.erase ec) i + cnt i (kids ec.node)
                        + (X i + cnt i rest) from by omega]
              · exact nodupKeys_mapDel _ hov0.ndRc
            have hndC : ((ec :: (N.erase ec ++ K)).map NEnt.key).Nodup :=
              (hpermNK.map NEnt.key).nodup_iff.mp hND0
            obtain ⟨N₂, hsub₂, hov₂, hlive₂⟩ := ih ec (N.erase ec) K
              (fun i' => X i' + cnt i' rest) _ _ hovC
              (fun e he => hEG0 e (hpermNK.mem_iff.mpr he))
              (fun e he => hFr0 e (hpermNK.mem_iff.mpr he))
              hndC hhc
              (by
                show refs (N.erase ec) ec.key + (X ec.key + cnt ec.key rest) = 0
                have h1 := hctrans ec.key
                rw [heck] at h1 ⊢
                omega)
              (by
                intro e he
                show refs (N.erase ec) e.key + cnt e.key (kids ec.node)
                  + (X e.key + cnt e.key rest) = 0
                have h1 := hK00 e he
                have h2 := hctrans e.key
                have h3 : cnt e.key rest ≤ cnt e.key (c :: rest) := by
                  by_cases hec' : c = e.key
                  · rw [← hec', cnt_cons_self]
                    omega
                  · rw [cnt_cons_other hec']
                omega)
              (by
                intro e he
                show 1 ≤ refs (N.erase ec) e.key + cnt e.key (kids ec.node)
                  + (X e.key + cnt e.key rest)
                have heN : e ∈ N := hperm.mem_iff.mpr (List.mem_cons_of_mem _ he)
                have h1 := hLive0 e heN
                have h2 := hctrans e.key
                have hNkeysnd : (N.map NEnt.key).Nodup := by
                  have h4 := hND0
                  rw [List.map_append] at h4
                  exact h4.of_append_left
                have hkeyne : e.key ≠ c := by
                  intro hkc
                  have h5 : e = ec := key_unique hNkeysnd heN hec
                    (by rw [hkc, heck])
                  rw [h5] at he
                  exact (((List.Nodup.of_map NEnt.key hNkeysnd).mem_erase_iff).mp
                    he).1 rfl
                rw [cnt_cons_other (fun hh => hkeyne hh.symm)] at h1
                omega)
              hsub
            -- continue with the remaining children
            have hovR : Overlay E H base (N₂ ++ K)
                (fun i => refs N₂ i + cnt i rest + X i) st₂ :=
              hov₂.congr (fun i => by
                show refs N₂ i + (X i + cnt i rest) = refs N₂ i + cnt i rest + X i
                omega)
            have hsubNK : (N₂ ++ K).Sublist (N.erase ec ++ K) :=
              hsub₂.append_right K
            obtain ⟨N₃, hsub₃, hov₃, hlive₃⟩ := ihc N₂ K X st₂ st₁
              (fun i hi => hCS0 i (List.mem_cons_of_mem _ hi))
              hovR
              (fun e he => hEG0 e (hpermNK.mem_iff.mpr
                (List.mem_cons_of_mem _ (hsubNK.mem he))))
              (fun e he => hFr0 e (hpermNK.mem_iff.mpr
                (List.mem_cons_of_mem _ (hsubNK.mem he))))
              (by
                have h4 := hndC
                simp only [List.map_cons, List.nodup_cons] at h4
                exact List.Nodup.sublist (hsubNK.map NEnt.key) h4.2)
              (by
                intro e he
                have h1 := hK00 e he
                have h2 := hctrans e.key
                have h3 := refs_sublist_le hsub₂ e.key
                by_cases hec' : c = e.key
                · rw [← hec'] at h1 ⊢
                  omega
                · rw [cnt_cons_other hec'] at h1
                  omega)
              (by
                intro e he
                have h1 := hlive₂ e he
                omega)
              hrun0
            exact ⟨N₃, (hsub₃.trans hsub₂).trans (List.erase_sublist ec N), hov₃,
              hlive₃⟩
        · rw [if_neg hz] at hrun0
          simp only at hrun0
          rw [if_neg (by omega)] at hrun0
          -- the counter survives: just move to the next child
          have hovR : Overlay E H base (N ++ K)
              (fun i => refs N i + cnt i rest + X i)
              (StoreState.mk st₀.db
                (mapSet st₀.rc c
                  (rcv base.rc c
                    + ((refs N c + cnt c (c :: rest) + X c : Nat) : Int) - 1))) := by
            refine ⟨hov0.dbN, hov0.dbO, ?_, hov0.ndDb, nodupKeys_mapSet _ _ hov0.ndRc⟩
            intro i
            show mapGet (mapSet st₀.rc c
                (rcv base.rc c
                  + ((refs N c + cnt c (c :: rest) + X c : Nat) : Int) - 1)) i =
              if rcv base.rc i + ((refs N i + cnt i rest + X i : Nat) : Int) = 0
                then none
              else some (rcv base.rc i + ((refs N i + cnt i rest + X i : Nat) : Int))
            by_cases hic : c = i
            · have h2 := cnt_cons_self c rest
              rw [← hic, mapGet_set_self, if_neg (by omega)]
              congr 1
              push_cast
              omega
            · rw [mapGet_set_other _ _ _ _ hic, hov0.rcS i,
                show refs N i + cnt i (c :: rest) + X i
                  = refs N i + cnt i rest + X i from by rw [cnt_cons_other hic]]
          refine ihc N K X _ st₁
            (fun i hi => hCS0 i (List.mem_cons_of_mem _ hi))
            hovR hEG0 hFr0 hND0
            (by
              intro e he
              have h1 := hK00 e he
              by_cases hec' : c = e.key
              · rw [← hec'] at h1 ⊢
                omega
              · rw [cnt_cons_other hec'] at h1
                omega)
            (by
              intro e he
              have h1 := hLive0 e he
              by_cases hec' : c = e.key
              · -- this digest is fresh for the run, so the base holds no count
                have hfre := hFr0 e (List.mem_append.mpr (Or.inl he))
                have hrc0 : rcv base.rc e.key = 0 := rcv_absent hWF hfre
                rw [← hec'] at h1 ⊢
                rw [← hec'] at hrc0
                rw [cnt_cons_self] at h1
                omega
              · rw [cnt_cons_other hec'] at h1
                exact h1)
            hrun0
    -- put the pieces together for the node itself
    rw [show deleteChunk E H (h + 1) j.key st =
        (match getNode E j.key (h + 1) H (-1) st with
          | .error e => .error e
          | .ok none => .error ()
          | .ok (some (.leaf _)) => .error ()
          | .ok (some (.super cs)) =>
            match delChildren (deleteChunk E H h) cs st with
            | .error e => .error e
            | .ok st₂ => delEntry st₂ j.key) from rfl] at hrun
    rw [hget] at hrun
    simp only at hrun
    cases hmid : delChildren (deleteChunk E H h) cs st with
    | error err =>
      rw [hmid] at hrun
      simp at hrun
    | ok stMid =>
      rw [hmid] at hrun
      simp only at hrun
      have hjcnt : cnt j.key cs = 0 := by
        by_cases hjc : 1 ≤ cnt j.key cs
        · obtain ⟨v', hv'⟩ := hCS j.key (cnt_pos_mem hjc)
          have hd : (E.wrapper.wrap (serializeNode E.wrapper.digestSize j.node)
              j.hgt ((j.hgt : Nat) == H)).2 =
              (E.wrapper.wrap (serializeNode E.wrapper.digestSize v') h
                ((h : Nat) == H)).2 := by
            show storeKey E j.node j.hgt H = storeKey E v' h H
            rw [← hEj.1]
            exact hv'
          have hhs := (hG.inj _ _ _ _ _ _ hd).2.2
          omega
        · omega
      have hpermJ : (j :: (N ++ K)).Perm (N ++ (j :: K)) := List.perm_middle.symm
      obtain ⟨N', hsub', hov', hlive'⟩ := hloop cs N (j :: K) X st stMid hCS
        ((hov.perm hpermJ).congr (fun i => by
          show refs N i + cnt i (kids j.node) + X i = refs N i + cnt i cs + X i
          rw [hn, show kids (NodeVal.super cs) = cs from rfl]))
        (fun e he => hEG e (hpermJ.mem_iff.mpr he))
        (fun e he => hFr e (hpermJ.mem_iff.mpr he))
        ((hpermJ.map NEnt.key).nodup_iff.mp hND)
        (by
          intro e he
          rcases List.mem_cons.mp he with h1 | h1
          · rw [h1]
            omega
          · have h2 := hK0 e h1
            rw [hn] at h2
            exact h2)
        (by
          intro e he
          have h1 := hLive e he
          rw [hn] at h1
          exact h1)
        hmid
      obtain ⟨hrc', hdb'⟩ := delEntry_inv hrun
      have hjnotin : ∀ e ∈ N' ++ K, j.key ≠ e.key := by
        intro e he hh
        simp only [List.map_cons, List.nodup_cons] at hND
        refine hND.1 (List.mem_map.mpr ⟨e, ?_, hh.symm⟩)
        rcases List.mem_append.mp he with h1 | h1
        · exact List.mem_append.mpr (Or.inl (hsub'.mem h1))
        · exact List.mem_append.mpr (Or.inr h1)
      refine ⟨N', hsub', ⟨?_, ?_, ?_, ?_, ?_⟩, hlive'⟩
      · intro e he
        rw [hdb', mapGet_del_other _ _ _ (hjnotin e he)]
        exact hov'.dbN e (by
          rcases List.mem_append.mp he with h1 | h1
          · exact List.mem_append.mpr (Or.inl h1)
          · exact List.mem_append.mpr (Or.inr (List.mem_cons_of_mem _ h1)))
      · intro i hi
        rw [hdb']
        by_cases hij : j.key = i
        · rw [← hij, mapGet_del_self_nodup hov'.ndDb,
            hFr j (List.mem_cons_self _ _)]
        · rw [mapGet_del_other _ _ _ hij]
          exact hov'.dbO i (by
            intro e he
            rcases List.mem_append.mp he with h1 | h1
            · exact hi e (List.mem_append.mpr (Or.inl h1))
            · rcases List.mem_cons.mp h1 with h2 | h2
              · rw [h2]
                exact fun hh => hij hh
              · exact hi e (List.mem_append.mpr (Or.inr h2)))
      · intro i
        rw [hrc']
        exact hov'.rcS i
      · rw [hdb']
        exact nodupKeys_mapDel _ hov'.ndDb
      · rw [hrc']
        exact hov'.ndRc

/-- Nonzero counter values are literally present in the counter map. -/
theorem rcv_pos_get {rc : List (Bytes × Int)} {j : Bytes} (h : rcv rc j ≠ 0) :
    mapGet rc j = some (rcv rc j) := by
  unfold rcv at h ⊢
  cases hg : mapGet rc j with
  | none =>
    rw [hg] at h
    simp at h
  | some n => simp

/-- On a well-formed base, the overlay counter shape with no pending
references is the base counter map itself. -/
theorem rcShape_base {E : Engine} {base : StoreState} (hWF : WFBase E base)
    (j : Bytes) :
    (if rcv base.rc j = 0 then none else some (rcv base.rc j)) =
      mapGet base.rc j := by
  cases hg : mapGet base.rc j with
  | none =>
    have hv : rcv base.rc j = 0 := by simp [rcv, hg]
    rw [hv, if_pos rfl]
  | some n =>
    have hn := (hWF.countedPresent j n hg).2
    have hv : rcv base.rc j = n := by simp [rcv, hg]
    rw [hv, if_neg (by omega)]

/-- A set of internally consistent records in which every record is referenced
must be empty: a record of maximal height would have to be referenced from a
superchunk record one level above it. -/
theorem live_empty {E : Engine} (hG : GoodWrapper E.wrapper) {H : Nat}
    {N : List NEnt} (hEG : ∀ e ∈ N, EGood E H e)
    (hLive : ∀ e ∈ N, 1 ≤ refs N e.key) : N = [] := by
  by_contra hne
  obtain ⟨e, he, hmax⟩ := exists_max_hgt hne
  obtain ⟨e', he', hj⟩ := refs_pos_mem (hLive e he)
  have hEe := hEG e he
  have hEe' := hEG e' he'
  cases hn' : e'.node with
  | leaf mb =>
    rw [hn'] at hj
    cases hj
  | super cs =>
    rw [hn'] at hj
    obtain ⟨h1, hkids⟩ := hEe'.2.2.2 cs hn'
    obtain ⟨v', hv'⟩ := hkids e.key hj
    have hd : (E.wrapper.wrap (serializeNode E.wrapper.digestSize e.node)
        e.hgt ((e.hgt : Nat) == H)).2 =
        (E.wrapper.wrap (serializeNode E.wrapper.digestSize v') (e'.hgt - 1)
          ((e'.hgt - 1 : Nat) == H)).2 := by
      show storeKey E e.node e.hgt H = storeKey E v' (e'.hgt - 1) H
      rw [← hEe.1]
      exact hv'
    have hhs := (hG.inj _ _ _ _ _ _ hd).2.2
    have h2 := hmax e' he'
    omega

/-- The empty store is well-formed. -/
theorem wfBase_empty (E : Engine) : WFBase E ⟨[], []⟩ := by
  refine ⟨?_, ?_, ?_, ?_, ?_, ?_⟩
  · intro j c hc
    simp [mapGet] at hc
  · simp [NodupKeys]
  · simp [NodupKeys]
  · intro j hj
    simp [mapGet] at hj
  · intro j n hn
    simp [mapGet] at hn
  · intro j c hc
    simp [mapGet] at hc

/-- C2 (amended): from a well-formed state, a default `put_content` followed by
a default `delete_content` of the returned handle restores the state
entry-for-entry: every backend lookup and every reference-counter lookup
returns exactly its old value. -/
theorem c2_put_delete_identity (E : Engine) (hG : GoodWrapper E.wrapper)
    (base : StoreState) (hWF : WFBase E base) (m : Bytes)
    (hm : m.length < 2 ^ 64) (hdl : Bytes) (st₁ st₂ : StoreState)
    (hput : putContent E m false base = .ok (hdl, st₁))
    (hdel : deleteContent E hdl false st₁ = .ok st₂) :
    (∀ j, mapGet st₂.db j = mapGet base.db j) ∧
    (∀ j, mapGet st₂.rc j = mapGet base.rc j) := by
  simp only [putContent, putContentAndCheck] at hput
  cases hp : putChunk E m (E.lengthToHeight m.length) (E.lengthToHeight m.length)
      base with
  | error e =>
    rw [hp] at hput
    simp at hput
  | ok res =>
    obtain ⟨⟨k0, bn⟩, stP⟩ := res
    rw [hp] at hput
    simp only [Except.ok.injEq, Prod.mk.injEq] at hput
    obtain ⟨hhdl, hst₁⟩ := hput
    obtain ⟨N, vR, hov, hEG, hFr, hNd, hkp, hk, hleaf, hsuper, halive, hroot⟩ :=
      putChunk_overlay hG hWF hp
    have hk0len : k0.length = E.wrapper.digestSize := by
      rw [hk, storeKey]
      exact hG.dlen _ _ _
    have hpk : packBytes E.wrapper.digestSize k0 = k0 :=
      packBytes_of_length _ _ hk0len
    have hunpack : unpackHandle E.wrapper.digestSize hdl = .ok (k0, m.length) := by
      rw [← hhdl, unpackHandle_pack, hpk, Nat.mod_eq_of_lt hm]
    have hst₁' : st₁ = { db := stP.db, rc := (dbrcInc stP.rc k0).2 } := by
      rw [← hst₁]
      simp
    subst hst₁'
    have hrz : refs N k0 = 0 := refs_root_zero hG hEG hk
    have hrck : mapGet stP.rc k0 =
        if rcv base.rc k0 = 0 then none else some (rcv base.rc k0) := by
      have h1 := hov.rcS k0
      rw [hrz] at h1
      simpa using h1
    simp only [deleteContent, hunpack] at hdel
    rw [show deleteContentInner E k0 (E.lengthToHeight m.length)
        (E.lengthToHeight m.length) false
        (StoreState.mk stP.db (dbrcInc stP.rc k0).2) =
        (match dbrcDec (dbrcInc stP.rc k0).2 k0 with
          | .error e => .error e
          | .ok (n, rc') =>
            if n = 0 then
              deleteChunk E (E.lengthToHeight m.length)
                (E.lengthToHeight m.length) k0 (StoreState.mk stP.db rc')
            else .ok (StoreState.mk stP.db rc')) from rfl] at hdel
    by_cases hr : rcv base.rc k0 = 0
    case pos =>
      rw [if_pos hr] at hrck
      have hinc : dbrcInc stP.rc k0 = (1, mapSet stP.rc k0 1) := by
        unfold dbrcInc
        rw [hrck]
        rfl
      rw [hinc] at hdel
      simp only at hdel
      have hdec : dbrcDec (mapSet stP.rc k0 1) k0 =
          .ok (0, mapDel (mapSet stP.rc k0 1) k0) := by
        unfold dbrcDec
        rw [mapGet_set_self]
        rfl
      rw [hdec] at hdel
      simp only at hdel
      rw [if_pos trivial] at hdel
      rcases hroot with ⟨e, he, hek, hen, heh⟩ | ⟨hbs, hallref⟩
      · have hrc₃ : ∀ j, mapGet (mapDel (mapSet stP.rc k0 1) k0) j =
            mapGet stP.rc j := by
          intro j
          by_cases hjk : k0 = j
          · rw [← hjk, mapGet_del_self_nodup (nodupKeys_mapSet _ _ hov.ndRc),
              hrck]
          · rw [mapGet_del_other _ _ _ hjk, mapGet_set_other _ _ _ _ hjk]
        have hperm : N.Perm (e :: (N.erase e ++ [])) := by
          rw [List.append_nil]
          exact List.perm_cons_erase he
        have hovP : Overlay E (E.lengthToHeight m.length) base
            (e :: (N.erase e ++ [])) (refs N) stP := hov.perm hperm
        have hndRc₃ : NodupKeys (mapDel (mapSet stP.rc k0 1) k0) :=
          nodupKeys_mapDel _ (nodupKeys_mapSet _ _ hov.ndRc)
        have hov₃ : Overlay E (E.lengthToHeight m.length) base
            (e :: (N.erase e ++ [])) (refs N)
            (StoreState.mk stP.db (mapDel (mapSet stP.rc k0 1) k0)) := by
          refine ⟨hovP.dbN, hovP.dbO, ?_, hovP.ndDb, hndRc₃⟩
          intro i
          show mapGet (mapDel (mapSet stP.rc k0 1) k0) i = _
          rw [hrc₃ i]
          exact hovP.rcS i
        have hov₄ := hov₃.congr (fun i => by
          show refs N i = refs (N.erase e) i + cnt i (kids e.node) + 0
          have h1 := refs_erase he i
          omega)
        obtain ⟨N', hsub', hov', hlive'⟩ := deleteChunk_overlay hG hWF
          (E.lengthToHeight m.length) e (N.erase e) [] (fun _ => 0) _ st₂ hov₄
          (by
            intro e' he'
            rcases List.mem_cons.mp he' with h1 | h1
            · rw [h1]
              exact hEG e he
            · rw [List.append_nil] at h1
              exact hEG e' ((List.erase_sublist e N).mem h1))
          (by
            intro e' he'
            rcases List.mem_cons.mp he' with h1 | h1
            · rw [h1]
              exact hFr e he
            · rw [List.append_nil] at h1
              exact hFr e' ((List.erase_sublist e N).mem h1))
          ((hperm.map NEnt.key).nodup_iff.mp hNd)
          heh
          (by
            show refs (N.erase e) e.key + 0 = 0
            have h1 := refs_sublist_le (List.erase_sublist e N) e.key
            rw [hek] at h1
            rw [hek]
            omega)
          (fun e' he' => absurd he' (List.not_mem_nil e'))
          (by
            intro e' he'
            show 1 ≤ refs (N.erase e) e'.key + cnt e'.key (kids e.node) + 0
            have heN' : e' ∈ N := (List.erase_sublist e N).mem he'
            have h1 := refs_erase he e'.key
            rcases halive e' heN' with h2 | h2
            · omega
            · exfalso
              have h3 : e' = e := key_unique hNd heN' he (by rw [h2, hek])
              rw [h3] at he'
              exact (((List.Nodup.of_map NEnt.key hNd).mem_erase_iff).mp
                he').1 rfl)
          (by
            rw [hek]
            exact hdel)
        have hN'nil : N' = [] := by
          refine @live_empty E hG (E.lengthToHeight (List.length m)) N' ?_ ?_
          · intro e' he'
            exact hEG e' ((List.erase_sublist e N).mem (hsub'.mem he'))
          · intro e' he'
            have h1 : 1 ≤ refs N' e'.key + 0 := hlive' e' he'
            omega
        constructor
        · intro j
          refine hov'.dbO j ?_
          intro e' he'
          rw [hN'nil] at he'
          simp at he'
        · intro j
          have h1 : mapGet st₂.rc j =
              if rcv base.rc j + ((refs N' j + 0 : Nat) : Int) = 0 then none
              else some (rcv base.rc j + ((refs N' j + 0 : Nat) : Int)) :=
            hov'.rcS j
          rw [hN'nil] at h1
          have h0 : ((refs ([] : List NEnt) j + 0 : Nat) : Int) = 0 := rfl
          rw [h0, add_zero] at h1
          rw [h1]
          exact rcShape_base hWF j
      · exfalso
        have h1 := hWF.presentCounted k0 hbs
        omega
    case neg =>
      rw [if_neg hr] at hrck
      have hinc : dbrcInc stP.rc k0 =
          (rcv base.rc k0 + 1, mapSet stP.rc k0 (rcv base.rc k0 + 1)) := by
        unfold dbrcInc
        rw [hrck]
      rw [hinc] at hdel
      simp only at hdel
      have hdec : dbrcDec (mapSet stP.rc k0 (rcv base.rc k0 + 1)) k0 =
          .ok (rcv base.rc k0,
            mapSet (mapSet stP.rc k0 (rcv base.rc k0 + 1)) k0
              (rcv base.rc k0)) := by
        unfold dbrcDec
        rw [mapGet_set_self]
        show (if rcv base.rc k0 + 1 - 1 = 0 then
            Except.ok (rcv base.rc k0 + 1 - 1,
              mapDel (mapSet stP.rc k0 (rcv base.rc k0 + 1)) k0)
          else Except.ok (rcv base.rc k0 + 1 - 1,
            mapSet (mapSet stP.rc k0 (rcv base.rc k0 + 1)) k0
              (rcv base.rc k0 + 1 - 1))) = _
        have hv : rcv base.rc k0 + 1 - 1 = rcv base.rc k0 := by omega
        rw [hv, if_neg hr]
      rw [hdec] at hdel
      simp only at hdel
      rw [if_neg hr] at hdel
      have hN0 : N = [] := by
        rcases hroot with ⟨e, he, hek, -, -⟩ | ⟨hbs, hallref⟩
        · exfalso
          have h1 := hFr e he
          rw [hek] at h1
          exact hr (rcv_absent hWF h1)
        · exact live_empty hG hEG hallref
      rw [hN0] at hov
      injection hdel with hS
      constructor
      · intro j
        rw [← hS]
        show mapGet stP.db j = mapGet base.db j
        exact hov.dbO j (fun e' he' => absurd he' (List.not_mem_nil e'))
      · intro j
        rw [← hS]
        show mapGet (mapSet (mapSet stP.rc k0 (rcv base.rc k0 + 1)) k0
          (rcv base.rc k0)) j = mapGet base.rc j
        by_cases hjk : k0 = j
        · rw [← hjk, mapGet_set_self, rcv_pos_get hr]
        · rw [mapGet_set_other _ _ _ _ hjk, mapGet_set_other _ _ _ _ hjk]
          have h1 : mapGet stP.rc j =
              if rcv base.rc j + ((refs ([] : List NEnt) j : Nat) : Int) = 0
                then none
              else some (rcv base.rc j +
                ((refs ([] : List NEnt) j : Nat) : Int)) := hov.rcS j
          have h0 : ((refs ([] : List NEnt) j : Nat) : Int) = 0 := rfl
          rw [h0, add_zero] at h1
          rw [h1]
          exact rcShape_base hWF j

/-- Witness for C2 on the concrete engine, the empty store and content
`[1, 2, 3]`. -/
theorem c2_put_delete_witness :
    (match putContent testEngine [1, 2, 3] false ⟨[], []⟩ with
      | .ok r =>
        (match deleteContent testEngine r.1 false r.2 with
          | .ok st₂ =>
              (∀ j, mapGet st₂.db j = mapGet (⟨[], []⟩ : StoreState).db j) ∧
              (∀ j, mapGet st₂.rc j = mapGet (⟨[], []⟩ : StoreState).rc j)
          | .error _ => False)
      | .error _ => False) := by
  rcases hE : putContent testEngine [1, 2, 3] false ⟨[], []⟩ with u | r
  · cases u
    exact absurd hE (by decide)
  · simp only
    rcases hE2 : deleteContent testEngine r.1 false r.2 with u2 | st₂
    · cases u2
      have hconc : (match putContent testEngine [1, 2, 3] false ⟨[], []⟩ with
          | .ok rr => deleteContent testEngine rr.1 false rr.2
          | .error _ => Except.error ()) ≠ Except.error () := by decide
      rw [hE] at hconc
      exact absurd hE2 hconc
    · simp only
      exact c2_put_delete_identity testEngine hmacDRModel_good ⟨[], []⟩
        (wfBase_empty testEngine) [1, 2, 3] (by norm_num) r.1 r.2 st₂
        (by rw [hE]) hE2

/-- States reachable from the empty store by completed default `put_content`
calls. -/
inductive PutReach (E : Engine) : StoreState → Prop where
  | init : PutReach E ⟨[], []⟩
  | step {st st' : StoreState} {m hd : Bytes} : PutReach E st →
      putContent E m false st = .ok (hd, st') → PutReach E st'

/-- A completed default `put_content` preserves well-formedness of the
state. -/
theorem putContent_wfBase {E : Engine} (hG : GoodWrapper E.wrapper)
    {base : StoreState} (hWF : WFBase E base) {m hdl : Bytes}
    {st₁ : StoreState}
    (hput : putContent E m false base = .ok (hdl, st₁)) : WFBase E st₁ := by
  simp only [putContent, putContentAndCheck] at hput
  cases hp : putChunk E m (E.lengthToHeight m.length) (E.lengthToHeight m.length)
      base with
  | error e =>
    rw [hp] at hput
    simp at hput
  | ok res =>
    obtain ⟨⟨k0, bn⟩, stP⟩ := res
    rw [hp] at hput
    simp only [Except.ok.injEq, Prod.mk.injEq] at hput
    obtain ⟨hhdl, hst₁⟩ := hput
    obtain ⟨N, vR, hov, hEG, hFr, hNd, hkp, hk, hleaf, hsuper, halive, hroot⟩ :=
      putChunk_overlay hG hWF hp
    have hst₁' : st₁ = { db := stP.db, rc := (dbrcInc stP.rc k0).2 } := by
      rw [← hst₁]
      simp
    subst hst₁'
    have hrz : refs N k0 = 0 := refs_root_zero hG hEG hk
    have hbase_val : (match mapGet stP.rc k0 with | some v => v | none => 0)
        = rcv base.rc k0 + ((refs N k0 : Nat) : Int) := by
      rw [hov.rcS k0]
      by_cases h0 : rcv base.rc k0 + ((refs N k0 : Nat) : Int) = 0
      · rw [if_pos h0]
        show (0 : Int) = rcv base.rc k0 + ((refs N k0 : Nat) : Int)
        omega
      · rw [if_neg h0]
    have hrc₁ : ({ db := stP.db, rc := (dbrcInc stP.rc k0).2 } : StoreState).rc
        = mapSet stP.rc k0 (rcv base.rc k0 + ((refs N k0 : Nat) : Int) + 1) := by
      show mapSet stP.rc k0
          ((match mapGet stP.rc k0 with | some v => v | none => 0) + 1) = _
      rw [hbase_val]
    have hind : ∀ j : Bytes, (0 : Int) ≤ if k0 = j then 1 else 0 := by
      intro j
      by_cases hh : k0 = j
      · rw [if_pos hh]
        norm_num
      · rw [if_neg hh]
    have hshape : ∀ j, mapGet
        ({ db := stP.db, rc := (dbrcInc stP.rc k0).2 } : StoreState).rc j =
        if rcv base.rc j + ((refs N j : Nat) : Int) +
            (if k0 = j then 1 else 0) = 0 then none
        else some (rcv base.rc j + ((refs N j : Nat) : Int) +
          (if k0 = j then 1 else 0)) := by
      intro j
      rw [hrc₁]
      by_cases hjk : k0 = j
      · rw [← hjk, mapGet_set_self, if_pos rfl,
          if_neg (by have := rcv_nonneg hWF k0; omega)]
      · rw [mapGet_set_other _ _ _ _ hjk, if_neg hjk, add_zero, hov.rcS j]
    have hpresent : ∀ j, (mapGet stP.db j).isSome ↔
        (∃ e ∈ N, e.key = j) ∨ (mapGet base.db j).isSome := by
      intro j
      constructor
      · intro hs
        by_cases hrec : ∃ e ∈ N, e.key = j
        · exact Or.inl hrec
        · refine Or.inr ?_
          rw [← hov.dbO j (fun e he hh => hrec ⟨e, he, hh⟩)]
          exact hs
      · intro hca
        rcases hca with ⟨e, he, hek⟩ | hb
        · rw [← hek, hov.dbN e he]
          rfl
        · by_cases hrec : ∃ e ∈ N, e.key = j
          · obtain ⟨e, he, hek⟩ := hrec
            rw [← hek, hov.dbN e he]
            rfl
          · rw [hov.dbO j (fun e he hh => hrec ⟨e, he, hh⟩)]
            exact hb
    have hrcv : ∀ j, rcv (mapSet stP.rc k0
        (rcv base.rc k0 + ((refs N k0 : Nat) : Int) + 1)) j =
        rcv base.rc j + ((refs N j : Nat) : Int) +
          (if k0 = j then 1 else 0) := by
      intro j
      have h1 := hshape j
      rw [hrc₁] at h1
      show (mapGet (mapSet stP.rc k0
        (rcv base.rc k0 + ((refs N k0 : Nat) : Int) + 1)) j).getD 0 = _
      rw [h1]
      by_cases h0 : rcv base.rc j + ((refs N j : Nat) : Int) +
          (if k0 = j then 1 else 0) = 0
      · rw [if_pos h0]
        show (0 : Int) = rcv base.rc j + ((refs N j : Nat) : Int) +
          (if k0 = j then 1 else 0)
        omega
      · rw [if_neg h0]
        rfl
    refine ⟨?_, ?_, ?_, ?_, ?_, ?_⟩
    · intro j c hc
      have hc' : mapGet stP.db j = some c := hc
      by_cases hrec : ∃ e ∈ N, e.key = j
      · obtain ⟨e, he, hek⟩ := hrec
        have h1 := hov.dbN e he
        rw [hek] at h1
        rw [h1, Option.some.injEq] at hc'
        refine ⟨serializeNode E.wrapper.digestSize e.node, e.hgt,
          ((e.hgt : Nat) == E.lengthToHeight m.length), ?_⟩
        rw [← hc', ← hek, (hEG e he).1]
        rfl
      · have h1 := hov.dbO j (fun e he hh => hrec ⟨e, he, hh⟩)
        rw [h1] at hc'
        exact hWF.good j c hc'
    · exact hov.ndDb
    · rw [hrc₁]
      exact nodupKeys_mapSet _ _ hov.ndRc
    · intro j hs
      have hs' : (mapGet stP.db j).isSome := hs
      have h1 := (hpresent j).mp hs'
      show 1 ≤ rcv (({ db := stP.db, rc := (dbrcInc stP.rc k0).2 } : StoreState).rc) j
      rw [hrc₁, hrcv j]
      have hge := rcv_nonneg hWF j
      have hi := hind j
      rcases h1 with ⟨e, he, hek⟩ | hb
      · rcases halive e he with h3 | h3
        · rw [hek] at h3
          omega
        · have hj : k0 = j := by rw [← hek, h3]
          rw [if_pos hj]
          omega
      · have h3 := hWF.presentCounted j hb
        omega
    · intro j n hn
      rw [hshape j] at hn
      by_cases h0 : rcv base.rc j + ((refs N j : Nat) : Int) +
          (if k0 = j then 1 else 0) = 0
      · rw [if_pos h0] at hn
        cases hn
      · rw [if_neg h0] at hn
        have hnv : rcv base.rc j + ((refs N j : Nat) : Int) +
            (if k0 = j then 1 else 0) = n := by
          injection hn
        constructor
        · show (mapGet stP.db j).isSome = true
          by_cases hjk : k0 = j
          · rcases hroot with ⟨e, he, hek, -, -⟩ | ⟨hb, -⟩
            · exact (hpresent j).mpr (Or.inl ⟨e, he, by rw [hek, hjk]⟩)
            · exact (hpresent j).mpr (Or.inr (by rw [← hjk]; exact hb))
          · rw [if_neg hjk, add_zero] at h0
            by_cases hrefs : 1 ≤ refs N j
            · obtain ⟨e, he, hjmem⟩ := refs_pos_mem hrefs
              rcases hkp e he j hjmem with h4 | h4
              · exact (hpresent j).mpr (Or.inl h4)
              · exact (hpresent j).mpr (Or.inr h4)
            · have h5 : rcv base.rc j ≠ 0 := by
                have hge := rcv_nonneg hWF j
                omega
              have h6 := rcv_pos_get h5
              have h7 := (hWF.countedPresent j _ h6).1
              exact (hpresent j).mpr (Or.inr h7)
        · have hge := rcv_nonneg hWF j
          have hi := hind j
          omega
    · intro j c hc p h r hw hh ks hks k' hk'
      have hc' : mapGet stP.db j = some c := hc
      by_cases hrec : ∃ e ∈ N, e.key = j
      · obtain ⟨e, he, hek⟩ := hrec
        have h1 := hov.dbN e he
        rw [hek] at h1
        rw [h1, Option.some.injEq] at hc'
        have hEe := hEG e he
        have hdg : (E.wrapper.wrap (serializeNode E.wrapper.digestSize e.node)
            e.hgt ((e.hgt : Nat) == E.lengthToHeight m.length)).2 =
            (E.wrapper.wrap p h r).2 := by
          rw [hw]
          show storeKey E e.node e.hgt (E.lengthToHeight m.length) = j
          rw [← hek, (hEG e he).1]
        obtain ⟨hww, hpp, hhh⟩ := hG.inj _ _ _ _ _ _ hdg
        cases hnn : e.node with
        | leaf mb =>
          have h0 := hEe.2.2.1 mb hnn
          omega
        | super cs =>
          have hlen : ∀ k'' ∈ cs, k''.length = E.wrapper.digestSize := by
            intro k'' hk''
            refine egood_kid_len hG hEe k'' ?_
            rw [hnn]
            exact hk''
          have hsp : splitBlocks E.wrapper.digestSize p = .ok cs := by
            rw [← hpp, hnn, serializeNode_super _ _ hlen]
            exact splitBlocks_flatten _ hG.dpos _ hlen
          have hkcs : ks = cs := by
            rw [hks] at hsp
            injection hsp
          show (mapGet stP.db k').isSome = true
          refine (hpresent k').mpr ?_
          have hmem : k' ∈ kids e.node := by
            rw [hnn]
            rw [hkcs] at hk'
            exact hk'
          exact hkp e he k' hmem
      · have h1 := hov.dbO j (fun e he hh' => hrec ⟨e, he, hh'⟩)
        rw [h1] at hc'
        have h2 := hWF.childrenPresent j c hc' p h r hw hh ks hks k' hk'
        exact (hpresent k').mpr (Or.inr h2)

/-- Every put-reachable state is well-formed. -/
theorem putReach_wfBase {E : Engine} (hG : GoodWrapper E.wrapper)
    {st : StoreState} (h : PutReach E st) : WFBase E st := by
  induction h with
  | init => exact wfBase_empty E
  | step hr hp ih => exact putContent_wfBase hG ih hp

/-- C4 (amended): in every state reachable from the empty store by completed
default `put_content` calls, a digest is physically present in the backend iff
its reference count is at least 1, a zero count is represented by the absence
of both the backend entry and the counter entry, and every child digest listed
by a stored superchunk has count at least 1. -/
theorem c4_reachable_invariant {E : Engine} (hG : GoodWrapper E.wrapper)
    {st : StoreState} (hreach : PutReach E st) :
    (∀ j, (mapGet st.db j).isSome ↔ 1 ≤ rcv st.rc j) ∧
    (∀ j, rcv st.rc j = 0 → mapGet st.db j = none ∧ mapGet st.rc j = none) ∧
    (∀ j c, mapGet st.db j = some c → ∀ p h r, E.wrapper.wrap p h r = (c, j) →
      1 ≤ h → ∀ ks, splitBlocks E.wrapper.digestSize p = .ok ks →
      ∀ k' ∈ ks, 1 ≤ rcv st.rc k') := by
  have hWF := putReach_wfBase hG hreach
  refine ⟨?_, ?_, ?_⟩
  · intro j
    constructor
    · exact hWF.presentCounted j
    · intro h1
      have h2 : rcv st.rc j ≠ 0 := by omega
      have h3 := rcv_pos_get h2
      exact (hWF.countedPresent j _ h3).1
  · intro j h0
    constructor
    · cases hs : mapGet st.db j with
      | none => rfl
      | some c =>
        have h1 := hWF.presentCounted j (by rw [hs]; rfl)
        omega
    · cases hs : mapGet st.rc j with
      | none => rfl
      | some n =>
        have h1 := (hWF.countedPresent j n hs).2
        have h2 : rcv st.rc j = n := by simp [rcv, hs]
        omega
  · intro j c hc p h r hw hh ks hks k' hk'
    have h1 := hWF.childrenPresent j c hc p h r hw hh ks hks k' hk'
    exact hWF.presentCounted k' h1

/-- Witness for C4 after one `put_content` on the concrete engine. -/
theorem c4_reachable_witness :
    (match putContent testEngine [1, 2, 3] false ⟨[], []⟩ with
      | .ok r =>
          (∀ j, (mapGet r.2.db j).isSome ↔ 1 ≤ rcv r.2.rc j) ∧
          (∀ j, rcv r.2.rc j = 0 →
            mapGet r.2.db j = none ∧ mapGet r.2.rc j = none) ∧
          (∀ j c, mapGet r.2.db j = some c →
            ∀ p h rt, testEngine.wrapper.wrap p h rt = (c, j) →
            1 ≤ h → ∀ ks, splitBlocks testEngine.wrapper.digestSize p = .ok ks →
            ∀ k' ∈ ks, 1 ≤ rcv r.2.rc k')
      | .error _ => False) := by
  rcases hE : putContent testEngine [1, 2, 3] false ⟨[], []⟩ with u | r
  · cases u
    exact absurd hE (by decide)
  · simp only
    exact c4_reachable_invariant hmacDRModel_good
      (PutReach.step PutReach.init (by rw [hE]))

/-! ### Claim C9 -/

/-- C9: an input whose first insertion reports `is_new = false`: under the
non-distinguished-root wrapper, after inserting `[1,2,3,4]` (two leaves), the
never-before-inserted height-0 content `[3,4]` — the bytes of an existing leaf
chunk — hits the dedup path of `_store_node`: its insertion reports
`is_new = false` and writes no new backend entry. -/
theorem c9_duplicate_leaf_not_new :
    (do
      let r ← putContentAndCheck ndEngine [1, 2, 3, 4] false ⟨[], []⟩
      let r2 ← putContentAndCheck ndEngine [3, 4] false r.2
      pure (r2.1.2, r2.2.db == r.2.db))
      = .ok (false, true) := by
  decide

end SecCS
